import Mathlib

/-!
# The xv6 console (`kernel/console.c`)

A shallow embedding of the console driver: the input line buffer fed by
`consoleintr` and drained by `consoleread`, the CGA text output of `cgaputc`
with its colour-palette overlay, and `consputc`, which sends every character
to the serial port and to the screen.

Conventions of the embedding.

* `uint` counters are natural numbers kept below `2^32`; every arithmetic
  operation on them is reduced modulo `4294967296` explicitly.
* `int` values are integers.  The values handled here are far from the
  limits of a 32-bit `int`, so no reduction is applied to them.
* CGA memory is a map from cell offsets (relative to `crt`) to 16-bit cells.
  The visible page is the offsets `0 .. 1999`.
* `panic` never returns.  A call that reaches `panic` has the result `none`.
  The variable `panicked` is set only by `panic`, so it is `0` in every
  state of the embedding and the test at the head of `consputc` is not taken.
* A reader that finds the buffer empty sleeps.  The embedding is sequential,
  so the call ends there with the result `sleeping`.
-/

namespace Xv6Console

/-! ## State -/

/-- The `input` structure: `buf`, and the read, write and edit indices. -/
structure Input where
  /-- Contents of `char buf[INPUT_BUF]`, as raw bytes `0 .. 255`. -/
  buf : Nat → Int
  r : Nat
  w : Nat
  e : Nat

/-- The CGA device and the static variables of `cgaputc`. -/
structure Cga where
  /-- CGA memory `crt`, indexed by cell offset. -/
  crt : Int → Nat
  /-- Cursor location held by the CRT controller (registers 14 and 15). -/
  cursor : Nat
  color : Nat
  flag : Int
  selected : Int
  newPos : Int
  back : Nat → Nat → Nat

/-- The whole console: line buffer, screen, the bytes sent to the serial
port, and the number of `wakeup(&input.r)` calls made so far. -/
structure Console where
  input : Input
  cga : Cga
  uart : List Int
  wakeups : Nat

/-! ## Constants -/

/-- The value `0x100`. -/
def BACKSPACE : Int := 256

/-- The size of `input.buf`. -/
def INPUT_BUF : Nat := 128

/-- The value of `A('C')` and of `C('C')`: the palette hotkey. -/
def CTRL_C : Int := 3

/-- The value of `C('D')`: end of file. -/
def CTRL_D : Int := 4

/-- The value of `C('H')`. -/
def CTRL_H : Int := 8

/-- The value of `C('P')`. -/
def CTRL_P : Int := 16

/-- The value of `C('U')`. -/
def CTRL_U : Int := 21

/-- Increment of a `uint`. -/
def uinc (a : Nat) : Nat := (a + 1) % 4294967296

/-- Decrement of a `uint`: `0` wraps to `2^32 - 1`. -/
def udec (a : Nat) : Nat :=
  if a % 4294967296 = 0 then 4294967295 else a % 4294967296 - 1

/-- Difference `a - b` of two `uint` values. -/
def usub (a b : Nat) : Nat := (a + (4294967296 - b % 4294967296)) % 4294967296

/-! ## The palette menu -/

/-- The array `fst`: W H T space B L K. -/
def fst : List Nat := [87, 72, 84, 32, 66, 76, 75]

/-- The array `sec`: P U R space W H T. -/
def sec : List Nat := [80, 85, 82, 32, 87, 72, 84]

/-- The array `trd`: R E D space A Q U. -/
def trd : List Nat := [82, 69, 68, 32, 65, 81, 85]

/-- The array `fth`: W H T space Y E L. -/
def fth : List Nat := [87, 72, 84, 32, 89, 69, 76]

/-- The array `m` of the four label rows. -/
def m (k : Nat) : List Nat :=
  match k with
  | 0 => fst
  | 1 => sec
  | 2 => trd
  | _ => fth

/-- The array `menu` as filled by the first loop of `cgaputc`.  Even rows are
dashes.  An odd row `i` has a colon in columns 0 and 8 and, in between, the
label `m[iM]` read with `jM = j - 1`, where `iM` is 3 at row 1 and goes down
by one after each odd row, that is `iM = 3 - i / 2`. -/
def menu (i j : Nat) : Nat :=
  if i % 2 = 0 then 45
  else if j = 0 ∨ j = 8 then 58
  else (m (3 - i / 2)).getD (j - 1) 0

/-! ## `cgaputc` -/

/-- The cell offset `newPos - (row - j - 1)` used by the three overlay loops. -/
def cell_index (newPos row : Int) (j : Nat) : Int := newPos - (row - j - 1)

/-- Inner loop of the save: `back[i][j] = crt[newPos - (row - j - 1)]`. -/
def save_row (crt : Int → Nat) (newPos row : Int) (i : Nat)
    (back : Nat → Nat → Nat) : Nat → Nat → Nat :=
  (List.range 9).foldl
    (fun b j => fun i2 j2 =>
      if i2 = i ∧ j2 = j then crt (cell_index newPos row j) else b i2 j2)
    back

/-- Outer loop of the save: `i` runs from 8 down to 0 and `row` starts at 80
and grows by 80 after each row. -/
def save_loop (crt : Int → Nat) (newPos : Int) (back : Nat → Nat → Nat) :
    Nat → Nat → Nat :=
  ([8, 7, 6, 5, 4, 3, 2, 1, 0].foldl
    (fun (st : (Nat → Nat → Nat) × Int) i =>
      (save_row crt newPos st.2 i st.1, st.2 + 80))
    (back, 80)).1

/-- Inner loop of the restore: `crt[newPos - (row - j - 1)] = back[i][j]`. -/
def restore_row (back : Nat → Nat → Nat) (newPos row : Int) (i : Nat)
    (crt : Int → Nat) : Int → Nat :=
  (List.range 9).foldl
    (fun f j => fun x => if x = cell_index newPos row j then back i j else f x)
    crt

/-- Outer loop of the restore, `i` from 8 down to 0. -/
def restore_loop (back : Nat → Nat → Nat) (newPos : Int) (crt : Int → Nat) :
    Int → Nat :=
  ([8, 7, 6, 5, 4, 3, 2, 1, 0].foldl
    (fun (st : (Int → Nat) × Int) i =>
      (restore_row back newPos st.2 i st.1, st.2 + 80))
    (crt, 80)).1

/-- The cell drawn for `menu[i][j]`: highlighted when `i == selected`. -/
def menu_cell (selected : Int) (i j : Nat) : Nat :=
  if (i : Int) = selected then (menu i j % 256) ||| 8192
  else (menu i j % 256) ||| 28672

/-- Inner loop of the menu drawing. -/
def draw_row (selected newPos row : Int) (i : Nat) (crt : Int → Nat) :
    Int → Nat :=
  (List.range 9).foldl
    (fun f j => fun x =>
      if x = cell_index newPos row j then menu_cell selected i j else f x)
    crt

/-- Outer loop of the menu drawing: `i` runs from 0 up to 8 and `row` starts
at 80 and grows by 80 after each row. -/
def draw_loop (selected newPos : Int) (crt : Int → Nat) : Int → Nat :=
  ((List.range 9).foldl
    (fun (st : (Int → Nat) × Int) i =>
      (draw_row selected newPos st.2 i st.1, st.2 + 80))
    (crt, 80)).1

/-- The `switch (selected)` that picks the colour; no case matches any other
value and `color` is then left as it is. -/
def pick_color (selected : Int) (color : Nat) : Nat :=
  if selected = 7 then 1792
  else if selected = 5 then 29952
  else if selected = 3 then 13312
  else if selected = 1 then 26368
  else color

/-- The value given to `newPos` when the overlay is activated:
`if (pos % 80 >= 70) newPos = pos - 10; else newPos = pos;`. -/
def anchor (pos : Int) : Int := if pos % 80 ≥ 70 then pos - 10 else pos

/-- The cells of the 9 by 9 overlay anchored at `np`: the offsets
`np - 719 + 80 * i + j` with `i` and `j` in `0 .. 8`. -/
def in_footprint (np x : Int) : Prop :=
  0 ≤ x - (np - 719) ∧ (x - (np - 719)) % 80 < 9 ∧ (x - (np - 719)) / 80 < 9

instance (np x : Int) : Decidable (in_footprint np x) := by
  unfold in_footprint; infer_instance

/-- The chain `if (c == '\n' && flag) ... else if (c == BACKSPACE) ... else if
(c == A('C')) ... else ...` of `cgaputc`.  The result is the new value of the
local `pos` and the new state. -/
def cgaputc_char (s : Cga) (c : Int) : Int × Cga :=
  let pos : Int := s.cursor
  if c = 10 ∧ s.flag ≠ 0 then
    (pos + (80 - pos % 80), s)
  else if c = BACKSPACE then
    (if pos > 0 ∧ s.flag ≠ 0 then pos - 1 else pos, s)
  else if c = CTRL_C then
    if s.flag ≠ 0 then
      (pos, { s with newPos := anchor pos,
                     back := save_loop s.crt (anchor pos) s.back,
                     flag := s.flag - 1 })
    else
      (pos, { s with crt := restore_loop s.back s.newPos s.crt,
                     color := pick_color s.selected s.color,
                     flag := s.flag + 1 })
  else
    if s.flag ≠ 0 then
      (pos + 1,
       { s with crt := fun x =>
           if x = pos then ((c % 256).toNat ||| s.color) % 65536 else s.crt x })
    else (pos, s)

/-- The new value of `selected` in the block `if (flag == 0)`. -/
def move_selected (selected c : Int) : Int :=
  if c = 87 ∨ c = 119 then Int.tmod (selected + 2) 8
  else if c = 83 ∨ c = 115 then
    (if selected - 2 < 0 then selected - 2 + 8 else selected - 2)
  else selected

/-- The block `if (flag == 0) { ... }` of `cgaputc`: the selection moves on
W and S and the menu is drawn.  In the restore branch `c` has been overwritten,
but `flag` is then 1 and this block is not entered. -/
def cgaputc_menu (s : Cga) (c : Int) : Cga :=
  if s.flag = 0 then
    { s with selected := move_selected s.selected c,
             crt := draw_loop (move_selected s.selected c) s.newPos s.crt }
  else s

/-- The call `memmove(crt, crt + 80, sizeof(crt[0]) * 23 * 80)`. -/
def memmove_rows (crt : Int → Nat) : Int → Nat :=
  fun x => if 0 ≤ x ∧ x < 1840 then crt (x + 80) else crt x

/-- The call `memset(crt + pos, 0, sizeof(crt[0]) * (24 * 80 - pos))`. -/
def memset_tail (crt : Int → Nat) (pos : Int) : Int → Nat :=
  fun x => if pos ≤ x ∧ x < 1920 then 0 else crt x

/-- The end of `cgaputc`: the range check on `pos`, the scroll, the write of
the cursor registers and the blank put at the cursor. -/
def cgaputc_finish (s : Cga) (pos : Int) : Option Cga :=
  if pos < 0 ∨ pos > 25 * 80 then none
  else
    let scroll : Bool := decide (pos / 80 ≥ 24)
    let crt1 := if scroll then memset_tail (memmove_rows s.crt) (pos - 80) else s.crt
    let pos1 := if scroll then pos - 80 else pos
    some { s with crt := fun x => if x = pos1 then 1824 else crt1 x,
                  cursor := (pos1 % 65536).toNat }

/-- The function `cgaputc`. -/
def cgaputc (s : Cga) (c : Int) : Option Cga :=
  cgaputc_finish (cgaputc_menu (cgaputc_char s c).2 c) (cgaputc_char s c).1

/-- A sequence of `cgaputc` calls. -/
def cgaputs : Cga → List Int → Option Cga
  | s, [] => some s
  | s, c :: cs =>
    match cgaputc s c with
    | none => none
    | some s1 => cgaputs s1 cs

/-! ## `consputc` -/

/-- The function `consputc`: the character goes to the serial port (a
backspace as backspace, space, backspace) and then to the screen. -/
def consputc (s : Console) (c : Int) : Option Console :=
  match cgaputc s.cga c with
  | none => none
  | some g =>
    some { s with cga := g,
                  uart := if c = BACKSPACE then s.uart ++ [8, 32, 8]
                          else s.uart ++ [c] }

/-! ## `consoleintr` -/

/-- The kill-line loop: `while (input.e != input.w &&
input.buf[(input.e - 1) % INPUT_BUF] != '\n') { input.e--; consputc(BACKSPACE); }`.
The first argument bounds the number of iterations. -/
def kill_loop : Nat → Console → Option Console
  | 0, s => some s
  | k + 1, s =>
    if s.input.e ≠ s.input.w ∧ s.input.buf (udec s.input.e % 128) ≠ 10 then
      match consputc { s with input := { s.input with e := udec s.input.e } }
              BACKSPACE with
      | none => none
      | some s1 => kill_loop k s1
    else some s

/-- The body of the `while` loop of `consoleintr` for one value `c ≥ 0`
returned by `getc`: the `switch (c)`. -/
def consoleintr_byte (s : Console) (c : Int) : Option Console :=
  if c = CTRL_P then some s
  else if c = CTRL_U then kill_loop (usub s.input.e s.input.w) s
  else if c = CTRL_H ∨ c = 127 then
    if s.input.e ≠ s.input.w then
      consputc { s with input := { s.input with e := udec s.input.e } } BACKSPACE
    else some s
  else if c = CTRL_C then consputc s CTRL_C
  else if c ≠ 0 ∧ usub s.input.e s.input.r < 128 then
    let c1 : Int := if c = 13 then 10 else c
    let s1 : Console :=
      { s with input :=
          { s.input with
              buf := fun k => if k = s.input.e % 128 then c1 % 256 else s.input.buf k,
              e := uinc s.input.e } }
    match consputc s1 c1 with
    | none => none
    | some s2 =>
      if c1 = 10 ∨ c1 = CTRL_D ∨ s2.input.e = (s2.input.r + 128) % 4294967296 then
        some { s2 with input := { s2.input with w := s2.input.e },
                       wakeups := s2.wakeups + 1 }
      else some s2
  else some s

/-- A sequence of bytes fed one at a time. -/
def feed : Console → List Int → Option Console
  | s, [] => some s
  | s, c :: cs =>
    match consoleintr_byte s c with
    | none => none
    | some s1 => feed s1 cs

/-- The function `consoleintr`: `getc` is the list of values it returns, and
the loop stops at the first negative one.  The boolean of the result is
`doprocdump`: whether `procdump()` is called once the lock is released. -/
def consoleintr_loop : Console → Bool → List Int → Option (Console × Bool)
  | s, d, [] => some (s, d)
  | s, d, c :: cs =>
    if c < 0 then some (s, d)
    else
      match consoleintr_byte s c with
      | none => none
      | some s1 => consoleintr_loop s1 (d || decide (c = CTRL_P)) cs

/-- The function `consoleintr`. -/
def consoleintr (s : Console) (getc : List Int) : Option (Console × Bool) :=
  consoleintr_loop s false getc

/-! ## `consoleread` and `consolewrite` -/

/-- How a call of `consoleread` ends. -/
inductive ReadResult where
  /-- The call returned `ret`, having copied `dst`. -/
  | returned (s : Console) (dst : List Int) (ret : Int)
  /-- The caller sleeps on `&input.r` with `n` bytes still wanted. -/
  | sleeping (s : Console) (dst : List Int) (n : Nat)

/-- The loop `while (n > 0)` of `consoleread`.  `killed` is the value of
`myproc()->killed`, `target` the initial `n`, and `dst` the bytes copied so
far.  Equality of the sign-extended `char` with `C('D')` and with newline is
equality of the raw byte. -/
def consoleread_loop (killed : Bool) (target : Nat) :
    Nat → Console → List Int → ReadResult
  | 0, s, dst => ReadResult.returned s dst ((target : Int) - 0)
  | n + 1, s, dst =>
    if s.input.r = s.input.w then
      if killed then ReadResult.returned s dst (-1)
      else ReadResult.sleeping s dst (n + 1)
    else
      let c : Int := s.input.buf (s.input.r % 128)
      let s1 : Console := { s with input := { s.input with r := uinc s.input.r } }
      if c = CTRL_D then
        if n + 1 < target then
          ReadResult.returned
            { s1 with input := { s1.input with r := udec s1.input.r } }
            dst ((target : Int) - ((n : Int) + 1))
        else ReadResult.returned s1 dst ((target : Int) - ((n : Int) + 1))
      else if c = 10 then
        ReadResult.returned s1 (dst ++ [c]) ((target : Int) - (n : Int))
      else consoleread_loop killed target n s1 (dst ++ [c])

/-- The function `consoleread` called with length `n`.  For `n ≤ 0` the loop
is not entered and `target - n` is 0. -/
def consoleread (s : Console) (n : Int) (killed : Bool) : ReadResult :=
  consoleread_loop killed n.toNat n.toNat s []

/-- The return of `sleep(&input.r, &cons.lock)` in a call that went to sleep:
the lock is held again and the console is `wake s`, where `s` is the state in
which the reader went to sleep and `wake` is whatever the interrupt handler,
the writers and the other readers did while the lock was free.  The loop goes
on from the test `input.r == input.w` with the same `n` and the same bytes
copied, and `killed` is the value of `myproc()->killed` read from then on.  A
call that has returned is left as it is. -/
def consoleread_wake (target : Nat) (killed : Bool) (wake : Console → Console) :
    ReadResult → ReadResult
  | ReadResult.sleeping s dst n => consoleread_loop killed target n (wake s) dst
  | ReadResult.returned s dst ret => ReadResult.returned s dst ret

/-- A call of `consoleread` with its sleeps: `ws` gives, for each wake-up in
turn, the value of `killed` and what happened to the console during the
sleep. -/
def consoleread_sleeps (s : Console) (n : Int) (killed : Bool)
    (ws : List (Bool × (Console → Console))) : ReadResult :=
  ws.foldl (fun res w => consoleread_wake n.toNat w.1 w.2 res) (consoleread s n killed)

/-- The function `consolewrite`: `consputc(buf[i] & 0xff)` for each byte. -/
def consolewrite : Console → List Int → Option Console
  | s, [] => some s
  | s, b :: bs =>
    match consputc s (b % 256) with
    | none => none
    | some s1 => consolewrite s1 bs

/-! ## The line buffer on its own

`consputc` does not touch `input`, so what `consoleintr_byte` does to the
line buffer can be written as a function of the buffer alone, next to the
list of characters it passes to `consputc`.  `consoleintr_byte_eq` below
relates the two views. -/

/-- The kill-line loop, on the buffer alone. -/
def input_kill : Nat → Input → Input
  | 0, i => i
  | k + 1, i =>
    if i.e ≠ i.w ∧ i.buf (udec i.e % 128) ≠ 10 then
      input_kill k { i with e := udec i.e }
    else i

/-- The number of iterations of the kill-line loop. -/
def kill_count : Nat → Input → Nat
  | 0, _ => 0
  | k + 1, i =>
    if i.e ≠ i.w ∧ i.buf (udec i.e % 128) ≠ 10 then
      kill_count k { i with e := udec i.e } + 1
    else 0

/-- The buffer after the default case has stored `c` (not yet committed). -/
def input_store (i : Input) (c : Int) : Input :=
  { i with buf := fun k => if k = i.e % 128 then (if c = 13 then 10 else c) % 256
                           else i.buf k,
           e := uinc i.e }

/-- Whether the default case, having stored `c`, completes the line. -/
def completes (i : Input) (c : Int) : Prop :=
  (if c = 13 then 10 else c) = 10 ∨ (if c = 13 then 10 else c) = CTRL_D ∨
    uinc i.e = (i.r + 128) % 4294967296

instance (i : Input) (c : Int) : Decidable (completes i c) := by
  unfold completes; infer_instance

/-- What `consoleintr_byte` does to the line buffer. -/
def input_byte (i : Input) (c : Int) : Input :=
  if c = CTRL_P then i
  else if c = CTRL_U then input_kill (usub i.e i.w) i
  else if c = CTRL_H ∨ c = 127 then
    if i.e ≠ i.w then { i with e := udec i.e } else i
  else if c = CTRL_C then i
  else if c ≠ 0 ∧ usub i.e i.r < 128 then
    if completes i c then { input_store i c with w := uinc i.e }
    else input_store i c
  else i

/-- The characters `consoleintr_byte` passes to `consputc`, in order. -/
def echo_byte (i : Input) (c : Int) : List Int :=
  if c = CTRL_P then []
  else if c = CTRL_U then List.replicate (kill_count (usub i.e i.w) i) BACKSPACE
  else if c = CTRL_H ∨ c = 127 then
    if i.e ≠ i.w then [BACKSPACE] else []
  else if c = CTRL_C then [CTRL_C]
  else if c ≠ 0 ∧ usub i.e i.r < 128 then [if c = 13 then 10 else c]
  else []

/-- The number of `wakeup` calls made by `consoleintr_byte`. -/
def wake_byte (i : Input) (c : Int) : Nat :=
  if c = CTRL_P ∨ c = CTRL_U ∨ c = CTRL_H ∨ c = 127 ∨ c = CTRL_C then 0
  else if c ≠ 0 ∧ usub i.e i.r < 128 then (if completes i c then 1 else 0)
  else 0

/-- The bytes `consputc` sends to the serial port for the characters `cs`. -/
def uart_bytes : List Int → List Int
  | [] => []
  | c :: cs => (if c = BACKSPACE then [8, 32, 8] else [c]) ++ uart_bytes cs

/-- A sequence of bytes fed to the line buffer alone. -/
def input_feed : Input → List Int → Input
  | i, [] => i
  | i, c :: cs => input_feed (input_byte i c) cs

/-- The characters echoed while the bytes `cs` are fed. -/
def echo_feed : Input → List Int → List Int
  | _, [] => []
  | i, c :: cs => echo_byte i c ++ echo_feed (input_byte i c) cs

/-- The number of `wakeup` calls made while the bytes `cs` are fed. -/
def wake_feed : Input → List Int → Nat
  | _, [] => 0
  | i, c :: cs => wake_byte i c + wake_feed (input_byte i c) cs

/-! ## Boot state and reachable states -/

/-- The state at boot: `input` is zero-initialised, the statics of `cgaputc`
have their initialisers, nothing has been sent to the serial port.  The
contents of CGA memory and the cursor are whatever the firmware left. -/
def Boot (s : Console) : Prop :=
  (∀ k, s.input.buf k = 0) ∧ s.input.r = 0 ∧ s.input.w = 0 ∧ s.input.e = 0 ∧
  s.cga.color = 1792 ∧ s.cga.flag = 1 ∧ s.cga.selected = 7 ∧ s.cga.newPos = 0 ∧
  (∀ i j, s.cga.back i j = 0) ∧ s.uart = [] ∧ s.wakeups = 0

/-- The state reached from boot; the index counts the bytes fed so far.  The
steps are: one byte `0 .. 255` fed by `consoleintr`, a call of `consoleread`
(which returns or goes to sleep), and one character printed by `consputc`. -/
inductive Reach : Nat → Console → Prop where
  | boot (s : Console) : Boot s → Reach 0 s
  | feed (k : Nat) (s s1 : Console) (c : Int) :
      Reach k s → 0 ≤ c → c ≤ 255 → consoleintr_byte s c = some s1 → Reach (k + 1) s1
  | read (k : Nat) (s s1 : Console) (n : Int) (killed : Bool) (dst : List Int) (ret : Int) :
      Reach k s → consoleread s n killed = ReadResult.returned s1 dst ret → Reach k s1
  | sleep (k : Nat) (s s1 : Console) (n : Int) (killed : Bool) (dst : List Int) (m : Nat) :
      Reach k s → consoleread s n killed = ReadResult.sleeping s1 dst m → Reach k s1
  | print (k : Nat) (s s1 : Console) (c : Int) :
      Reach k s → consputc s c = some s1 → Reach k s1

/-- An ordinary byte: `1 .. 255` and none of the bytes the `switch` of
`consoleintr` or `consoleread` treats specially (hotkey, end of file, the two
backspaces, newline, carriage return, process listing, kill line). -/
def ordinary (b : Int) : Prop :=
  1 ≤ b ∧ b ≤ 255 ∧ b ≠ 3 ∧ b ≠ 4 ∧ b ≠ 8 ∧ b ≠ 127 ∧ b ≠ 10 ∧ b ≠ 13 ∧ b ≠ 16 ∧ b ≠ 21

instance : DecidablePred ordinary := fun b => by unfold ordinary; infer_instance

/-! ## States assembled from the three views -/

/-- The state built from the parts: the buffer after `c`, the screen `g`, the
serial output extended by the echo, the wakeups counted. -/
def after_byte (s : Console) (c : Int) (g : Cga) : Console :=
  { input := input_byte s.input c, cga := g,
    uart := s.uart ++ uart_bytes (echo_byte s.input c),
    wakeups := s.wakeups + wake_byte s.input c }

/-- The state built from the parts after a list of bytes. -/
def after_feed (s : Console) (cs : List Int) (g : Cga) : Console :=
  { input := input_feed s.input cs, cga := g,
    uart := s.uart ++ uart_bytes (echo_feed s.input cs),
    wakeups := s.wakeups + wake_feed s.input cs }

/-! ## Invariants of the line buffer -/

/-- The state in which a call of `consoleread` ends. -/
def ReadResult.state : ReadResult → Console
  | ReadResult.returned s _ _ => s
  | ReadResult.sleeping s _ _ => s

/-- The three indices are the residues modulo `2^32` of three counters that
never wrap, ordered `R ≤ W ≤ E ≤ R + 128`, with at most `k` bytes stored. -/
def Ordered (k : Nat) (i : Input) : Prop :=
  ∃ R W E : Nat, i.r = R % 4294967296 ∧ i.w = W % 4294967296 ∧ i.e = E % 4294967296 ∧
    R ≤ W ∧ W ≤ E ∧ E ≤ R + 128 ∧ E ≤ k

/-- No newline is stored in the uncommitted region `[w, e)`. -/
def NoNewline (i : Input) : Prop :=
  ∀ d, d < usub i.e i.w → i.buf ((i.w + d) % 4294967296 % 128) ≠ 10

/-! ## Concrete states used in examples -/

/-- The statics of `cgaputc` have their initial values. -/
def CgaBoot (g : Cga) : Prop :=
  g.color = 1792 ∧ g.flag = 1 ∧ g.selected = 7 ∧ g.newPos = 0 ∧ ∀ i j, g.back i j = 0

/-- What holds of the overlay variables in every state reached by `cgaputc`
from boot: `flag` is 0 or 1, `selected` is one of 1, 3, 5, 7, and while the
overlay is hidden `color` is the table value of `selected`. -/
def OverlayInv (g : Cga) : Prop :=
  (g.flag = 0 ∨ g.flag = 1) ∧
  (g.selected = 1 ∨ g.selected = 3 ∨ g.selected = 5 ∨ g.selected = 7) ∧
  (g.flag = 1 → g.color = pick_color g.selected g.color)

/-- A boot state with a cleared screen and the cursor at cell `cur`. -/
def boot_at (cur : Nat) : Console :=
  { input := { buf := fun _ => 0, r := 0, w := 0, e := 0 },
    cga := { crt := fun _ => 0, cursor := cur, color := 1792, flag := 1,
             selected := 7, newPos := 0, back := fun _ _ => 0 },
    uart := [], wakeups := 0 }

/-- A byte that the default case of `consoleintr` stores unchanged when the
buffer has room: `1 .. 255` except the hotkey, the two backspaces, carriage
return, process listing and kill line.  Newline and end of file are stored. -/
def stored (b : Int) : Prop :=
  1 ≤ b ∧ b ≤ 255 ∧ b ≠ 3 ∧ b ≠ 8 ∧ b ≠ 127 ∧ b ≠ 13 ∧ b ≠ 16 ∧ b ≠ 21

instance : DecidablePred stored := fun b => by unfold stored; infer_instance

/-- The state after the two bytes `a`, `b` are typed at boot with the cursor
at cell 1000. -/
def typed_ab : Console := (feed (boot_at 1000) [97, 98]).getD (boot_at 1000)

/-- The state after the hotkey and the byte `a` are typed at boot with the
cursor at cell 1000: the overlay is shown and one byte is uncommitted. -/
def typed_shown : Console := (feed (boot_at 1000) [3, 97]).getD (boot_at 1000)

/-- The state after the byte `a` and an end of file are typed at boot with
the cursor at cell 1000: the committed region holds `a` and `0x04`. -/
def typed_a_eof : Console := (feed (boot_at 1000) [97, 4]).getD (boot_at 1000)

/-- The state after the line `ab` and a newline are typed at boot with the
cursor at cell 1000: one line of three bytes is committed. -/
def typed_line : Console := (feed (boot_at 1000) [97, 98, 10]).getD (boot_at 1000)

/-- The screen after the hotkey is plotted at boot with the cursor at cell
1000: the overlay is shown. -/
def shown_at_1000 : Cga := (cgaputs (boot_at 1000).cga [CTRL_C]).getD (boot_at 1000).cga

/-- What happens to the console while a reader sleeps, in the examples: 128
bytes `a` are typed. -/
def typing_128_a (s : Console) : Console := (feed s (List.replicate 128 97)).getD s

/-! ## Lemmas on `cgaputc` -/

/-- The local `pos` after the character chain stays between the cursor minus
one and the start of the next row. -/
theorem char_pos_bounds (s : Cga) (c : Int) :
    0 ≤ (cgaputc_char s c).1 ∧
    (cgaputc_char s c).1 ≤ (s.cursor : Int) + 80 - (s.cursor : Int) % 80 ∧
    (s.cursor : Int) - 1 ≤ (cgaputc_char s c).1 := by
  unfold cgaputc_char
  simp only []
  split_ifs <;> simp only [] <;> omega

/-- With `pos` in `0 .. 2000` the end of `cgaputc` does not panic; it changes
only the cells and the cursor. -/
theorem finish_some (s : Cga) (pos : Int) (h0 : 0 ≤ pos) (h1 : pos ≤ 2000) :
    ∃ s1, cgaputc_finish s pos = some s1 ∧
      (s1.cursor : Int) = (if pos / 80 ≥ 24 then pos - 80 else pos) ∧
      s1.color = s.color ∧ s1.flag = s.flag ∧ s1.selected = s.selected ∧
      s1.newPos = s.newPos ∧ s1.back = s.back := by
  unfold cgaputc_finish
  have h : ¬ (pos < 0 ∨ pos > 25 * 80) := by omega
  rw [if_neg h]
  refine ⟨_, rfl, ?_, rfl, rfl, rfl, rfl, rfl⟩
  simp only []
  by_cases hs : pos / 80 ≥ 24
  · simp [hs]; omega
  · simp [hs]; omega

/-- A cursor in rows 0 to 23 stays there. -/
theorem cgaputc_cursor_lt (s : Cga) (c : Int) (h : s.cursor < 1920) :
    ∃ s1, cgaputc s c = some s1 ∧ s1.cursor < 1920 := by
  obtain ⟨h0, h1, _⟩ := char_pos_bounds s c
  obtain ⟨s1, e1, hc, _⟩ :=
    finish_some (cgaputc_menu (cgaputc_char s c).2 c) (cgaputc_char s c).1 h0 (by omega)
  refine ⟨s1, e1, ?_⟩
  split_ifs at hc <;> omega

/-- A cursor on the screen gives no panic, and the cursor stays on the screen. -/
theorem cgaputc_cursor_on (s : Cga) (c : Int) (h : s.cursor < 2000) :
    ∃ s1, cgaputc s c = some s1 ∧ s1.cursor < 2000 := by
  obtain ⟨h0, h1, _⟩ := char_pos_bounds s c
  obtain ⟨s1, e1, hc, _⟩ :=
    finish_some (cgaputc_menu (cgaputc_char s c).2 c) (cgaputc_char s c).1 h0 (by omega)
  refine ⟨s1, e1, ?_⟩
  split_ifs at hc <;> omega

/-- A sequence of characters printed from a cursor on the screen. -/
theorem cgaputs_cursor_on (cs : List Int) (s : Cga) (h : s.cursor < 2000) :
    ∃ s1, cgaputs s cs = some s1 ∧ s1.cursor < 2000 := by
  induction cs generalizing s with
  | nil => exact ⟨s, rfl, h⟩
  | cons c cs ih =>
    obtain ⟨s1, e1, h1⟩ := cgaputc_cursor_on s c h
    obtain ⟨s2, e2, h2⟩ := ih s1 h1
    exact ⟨s2, by simp [cgaputs, e1, e2], h2⟩

/-- Printing two lists in a row. -/
theorem cgaputs_append (cs ds : List Int) (s : Cga) :
    cgaputs s (cs ++ ds) = (cgaputs s cs).bind (fun s1 => cgaputs s1 ds) := by
  induction cs generalizing s with
  | nil => simp [cgaputs]
  | cons c cs ih =>
    simp only [List.cons_append, cgaputs]
    cases cgaputc s c with
    | none => simp
    | some s1 => simpa using ih s1

/-! ## `consoleintr_byte` split into buffer, screen and serial port -/

theorem kill_loop_eq (k : Nat) (s : Console) :
    kill_loop k s =
      (cgaputs s.cga (List.replicate (kill_count k s.input) BACKSPACE)).map
        (fun g => { input := input_kill k s.input, cga := g,
                    uart := s.uart ++ uart_bytes (List.replicate (kill_count k s.input) BACKSPACE),
                    wakeups := s.wakeups }) := by
  induction k generalizing s with
  | zero => simp [kill_loop, kill_count, input_kill, cgaputs, uart_bytes]
  | succ k ih =>
    unfold kill_loop kill_count input_kill
    by_cases hc : s.input.e ≠ s.input.w ∧ s.input.buf (udec s.input.e % 128) ≠ 10
    · rw [if_pos hc, if_pos hc, if_pos hc]
      simp only [consputc, List.replicate_succ, cgaputs]
      cases hg : cgaputc s.cga BACKSPACE with
      | none => simp
      | some g =>
        simp only [ih]
        cases cgaputs g (List.replicate (kill_count k { s.input with e := udec s.input.e }) BACKSPACE) with
        | none => simp
        | some g2 => simp [uart_bytes, BACKSPACE]
    · rw [if_neg hc, if_neg hc, if_neg hc]
      simp [cgaputs, uart_bytes]

theorem consoleintr_byte_eq (s : Console) (c : Int) :
    consoleintr_byte s c = (cgaputs s.cga (echo_byte s.input c)).map (after_byte s c) := by
  unfold after_byte consoleintr_byte echo_byte input_byte wake_byte
  by_cases h1 : c = CTRL_P
  · simp [h1, cgaputs, uart_bytes]
  by_cases h2 : c = CTRL_U
  · simp only [if_neg h1, if_pos h2, kill_loop_eq]
    simp [h2]
  by_cases h3 : c = CTRL_H ∨ c = 127
  · have h5 : (c = CTRL_P ∨ c = CTRL_U ∨ c = CTRL_H ∨ c = 127 ∨ c = CTRL_C) := by tauto
    simp only [if_neg h1, if_neg h2, if_pos h3, if_pos h5]
    by_cases he : s.input.e ≠ s.input.w
    · simp only [if_pos he, consputc, cgaputs]
      cases cgaputc s.cga BACKSPACE with
      | none => simp
      | some g => simp [uart_bytes]
    · simp [if_neg he, cgaputs, uart_bytes]
  by_cases h4 : c = CTRL_C
  · have h5 : (c = CTRL_P ∨ c = CTRL_U ∨ c = CTRL_H ∨ c = 127 ∨ c = CTRL_C) := by tauto
    simp only [if_neg h1, if_neg h2, if_neg h3, if_pos h4, if_pos h5, consputc, cgaputs]
    cases cgaputc s.cga CTRL_C with
    | none => simp
    | some g => simp [uart_bytes, BACKSPACE, CTRL_C]
  have h5 : ¬ (c = CTRL_P ∨ c = CTRL_U ∨ c = CTRL_H ∨ c = 127 ∨ c = CTRL_C) := by tauto
  simp only [if_neg h1, if_neg h2, if_neg h3, if_neg h4, if_neg h5]
  by_cases h6 : c ≠ 0 ∧ usub s.input.e s.input.r < 128
  · simp only [if_pos h6, consputc, cgaputs]
    cases cgaputc s.cga (if c = 13 then 10 else c) with
    | none => simp
    | some g =>
      simp only [Option.map_some']
      by_cases hk : completes s.input c
      · have hk2 := hk
        unfold completes at hk2
        simp only [if_pos hk]
        rw [if_pos (by simpa using hk2)]
        simp only [input_store, uart_bytes, List.append_nil]
        split_ifs <;> rfl
      · have hk2 := hk
        unfold completes at hk2
        simp only [if_neg hk]
        rw [if_neg (by simpa using hk2)]
        simp only [input_store, uart_bytes, List.append_nil]
        split_ifs <;> rfl
  · simp [if_neg h6, cgaputs, uart_bytes]

theorem uart_bytes_append (cs ds : List Int) :
    uart_bytes (cs ++ ds) = uart_bytes cs ++ uart_bytes ds := by
  induction cs with
  | nil => simp [uart_bytes]
  | cons c cs ih => simp [uart_bytes, ih]

theorem feed_eq (cs : List Int) (s : Console) :
    feed s cs = (cgaputs s.cga (echo_feed s.input cs)).map (after_feed s cs) := by
  induction cs generalizing s with
  | nil => simp [feed, echo_feed, cgaputs, after_feed, input_feed, uart_bytes, wake_feed]
  | cons c cs ih =>
    simp only [feed, echo_feed, consoleintr_byte_eq, cgaputs_append]
    cases cgaputs s.cga (echo_byte s.input c) with
    | none => simp
    | some g =>
      simp only [Option.map_some', Option.some_bind, ih]
      simp only [after_byte]
      cases cgaputs g (echo_feed (input_byte s.input c) cs) with
      | none => simp
      | some g2 =>
        simp [after_feed, input_feed, echo_feed, wake_feed, uart_bytes_append, Nat.add_assoc]

/-- From a cursor on the screen every list of bytes is accepted without a
panic; the buffer, the serial output and the wakeups are those of the
buffer-only view. -/
theorem feed_some (cs : List Int) (s : Console) (h : s.cga.cursor < 2000) :
    ∃ s1, feed s cs = some s1 ∧ s1.input = input_feed s.input cs ∧
      s1.uart = s.uart ++ uart_bytes (echo_feed s.input cs) ∧
      s1.wakeups = s.wakeups + wake_feed s.input cs ∧ s1.cga.cursor < 2000 := by
  obtain ⟨g, hg, hc⟩ := cgaputs_cursor_on (echo_feed s.input cs) s.cga h
  exact ⟨after_feed s cs g, by simp [feed_eq, hg], rfl, rfl, rfl, hc⟩

theorem byte_some (c : Int) (s : Console) (h : s.cga.cursor < 2000) :
    ∃ s1, consoleintr_byte s c = some s1 ∧ s1.input = input_byte s.input c ∧
      s1.uart = s.uart ++ uart_bytes (echo_byte s.input c) ∧
      s1.wakeups = s.wakeups + wake_byte s.input c ∧ s1.cga.cursor < 2000 := by
  obtain ⟨g, hg, hc⟩ := cgaputs_cursor_on (echo_byte s.input c) s.cga h
  exact ⟨after_byte s c g, by simp [consoleintr_byte_eq, hg], rfl, rfl, rfl, hc⟩

theorem byte_input (c : Int) (s s1 : Console) (h : consoleintr_byte s c = some s1) :
    s1.input = input_byte s.input c := by
  rw [consoleintr_byte_eq] at h
  cases hg : cgaputs s.cga (echo_byte s.input c) with
  | none => simp [hg] at h
  | some g =>
    simp [hg] at h
    rw [← h]; rfl
theorem uinc_mod (a : Nat) : uinc (a % 4294967296) = (a + 1) % 4294967296 := by
  unfold uinc; omega

theorem udec_mod (a : Nat) (h : 0 < a) : udec (a % 4294967296) = (a - 1) % 4294967296 := by
  unfold udec; split_ifs <;> omega

theorem udec_uinc (a : Nat) (h : a < 4294967296) : udec (uinc a) = a := by
  unfold udec uinc; split_ifs <;> omega

theorem uinc_lt (a : Nat) : uinc a < 4294967296 := by
  unfold uinc; omega

theorem udec_lt (a : Nat) : udec a < 4294967296 := by
  unfold udec; split_ifs <;> omega

/-- The bound `(e - w) mod 2^32` passed to the kill-line loop is enough: with
that many iterations allowed the loop stops because its condition fails, at
`e == w` or at a newline. -/
theorem input_kill_stops (n : Nat) (i : Input) (he : i.e < 4294967296)
    (hw : i.w < 4294967296) (h : usub i.e i.w ≤ n) :
    (input_kill n i).e = (input_kill n i).w ∨
      (input_kill n i).buf (udec (input_kill n i).e % 128) = 10 := by
  induction n generalizing i with
  | zero =>
    left
    simp only [input_kill]
    unfold usub at h; omega
  | succ n ih =>
    unfold input_kill
    split_ifs with hc
    · apply ih
      · exact udec_lt _
      · exact hw
      · simp only []
        have hne := hc.1
        unfold usub at h ⊢; unfold udec
        split_ifs <;> omega
    · by_cases h1 : i.e = i.w
      · exact Or.inl h1
      · right
        by_contra h2
        exact hc ⟨h1, h2⟩

theorem ordered_mono (k k1 : Nat) (i : Input) (h : Ordered k i) (hk : k ≤ k1) : Ordered k1 i := by
  obtain ⟨R, W, E, h1, h2, h3, h4, h5, h6, h7⟩ := h
  exact ⟨R, W, E, h1, h2, h3, h4, h5, h6, by omega⟩

theorem ordered_bounds (k : Nat) (i : Input) (h : Ordered k i) :
    i.r < 4294967296 ∧ i.w < 4294967296 ∧ i.e < 4294967296 ∧
    usub i.w i.r ≤ usub i.e i.r ∧ usub i.e i.r ≤ 128 ∧ usub i.e i.w ≤ 128 := by
  obtain ⟨R, W, E, h1, h2, h3, h4, h5, h6, h7⟩ := h
  unfold usub
  omega

theorem ordered_plain (k : Nat) (i : Input) (h : Ordered k i) (hk : k < 4294967296) :
    i.r ≤ i.w ∧ i.w ≤ i.e ∧ i.e ≤ i.r + 128 := by
  obtain ⟨R, W, E, h1, h2, h3, h4, h5, h6, h7⟩ := h
  omega

theorem ordered_kill (n k : Nat) (i : Input) (h : Ordered k i) : Ordered k (input_kill n i) := by
  induction n generalizing i with
  | zero => exact h
  | succ n ih =>
    unfold input_kill
    split_ifs with hc
    · apply ih
      obtain ⟨R, W, E, h1, h2, h3, h4, h5, h6, h7⟩ := h
      have hne : E ≠ W := by
        intro hE; apply hc.1; rw [h2, h3, hE]
      refine ⟨R, W, E - 1, h1, h2, ?_, h4, by omega, by omega, by omega⟩
      rw [h3, udec_mod E (by omega)]
    · exact h

theorem ordered_byte (k : Nat) (i : Input) (c : Int) (h : Ordered k i) :
    Ordered (k + 1) (input_byte i c) := by
  unfold input_byte
  split_ifs with h1 h2 h3 h4 h5 h6 h7
  · exact ordered_mono _ _ _ h (by omega)
  · exact ordered_mono _ _ _ (ordered_kill _ _ _ h) (by omega)
  · obtain ⟨R, W, E, e1, e2, e3, e4, e5, e6, e7⟩ := h
    have hne : E ≠ W := by
      intro hE; apply h4; rw [e2, e3, hE]
    refine ⟨R, W, E - 1, e1, e2, ?_, e4, by omega, by omega, by omega⟩
    rw [e3, udec_mod E (by omega)]
  · exact ordered_mono _ _ _ h (by omega)
  · exact ordered_mono _ _ _ h (by omega)
  · obtain ⟨R, W, E, e1, e2, e3, e4, e5, e6, e7⟩ := h
    have hlt := h6.2
    unfold usub at hlt
    refine ⟨R, E + 1, E + 1, e1, ?_, ?_, by omega, by omega, by omega, by omega⟩
    · simp only [uinc, e3]; omega
    · simp only [input_store, uinc, e3]; omega
  · obtain ⟨R, W, E, e1, e2, e3, e4, e5, e6, e7⟩ := h
    have hlt := h6.2
    unfold usub at hlt
    refine ⟨R, W, E + 1, e1, e2, ?_, by omega, by omega, by omega, by omega⟩
    simp only [input_store, uinc, e3]; omega
  · exact ordered_mono _ _ _ h (by omega)

theorem read_loop_succ (killed : Bool) (target n : Nat) (s : Console) (dst : List Int) :
    consoleread_loop killed target (n + 1) s dst =
    if s.input.r = s.input.w then
      if killed then ReadResult.returned s dst (-1)
      else ReadResult.sleeping s dst (n + 1)
    else
      if s.input.buf (s.input.r % 128) = CTRL_D then
        if n + 1 < target then
          ReadResult.returned
            { s with input := { s.input with r := udec (uinc s.input.r) } }
            dst ((target : Int) - ((n : Int) + 1))
        else ReadResult.returned { s with input := { s.input with r := uinc s.input.r } } dst ((target : Int) - ((n : Int) + 1))
      else if s.input.buf (s.input.r % 128) = 10 then
        ReadResult.returned { s with input := { s.input with r := uinc s.input.r } } (dst ++ [s.input.buf (s.input.r % 128)]) ((target : Int) - (n : Int))
      else consoleread_loop killed target n { s with input := { s.input with r := uinc s.input.r } } (dst ++ [s.input.buf (s.input.r % 128)]) := by
  rw [consoleread_loop]

theorem read_loop_frame (killed : Bool) (target n : Nat) (s : Console) (dst : List Int) :
    (consoleread_loop killed target n s dst).state.cga = s.cga ∧
    (consoleread_loop killed target n s dst).state.uart = s.uart ∧
    (consoleread_loop killed target n s dst).state.wakeups = s.wakeups ∧
    (consoleread_loop killed target n s dst).state.input.buf = s.input.buf ∧
    (consoleread_loop killed target n s dst).state.input.w = s.input.w ∧
    (consoleread_loop killed target n s dst).state.input.e = s.input.e := by
  induction n generalizing s dst with
  | zero => exact ⟨rfl, rfl, rfl, rfl, rfl, rfl⟩
  | succ n ih =>
    simp only [read_loop_succ]
    split_ifs with h1 h2 h3 h4 h5
    · simp only [ReadResult.state, and_self]
    · simp only [ReadResult.state, and_self]
    · simp only [ReadResult.state, and_self]
    · simp only [ReadResult.state, and_self]
    · simp only [ReadResult.state, and_self]
    · exact ih { s with input := { s.input with r := uinc s.input.r } }
        (dst ++ [s.input.buf (s.input.r % 128)])

theorem ordered_read (killed : Bool) (target n k : Nat) (s : Console) (dst : List Int)
    (h : Ordered k s.input) :
    Ordered k (consoleread_loop killed target n s dst).state.input := by
  induction n generalizing s dst with
  | zero => simpa [consoleread_loop, ReadResult.state] using h
  | succ n ih =>
    have hstep : s.input.r ≠ s.input.w → Ordered k { s.input with r := uinc s.input.r } := by
      intro hne
      obtain ⟨R, W, E, e1, e2, e3, e4, e5, e6, e7⟩ := h
      have : R ≠ W := by
        intro hE; apply hne; rw [e1, e2, hE]
      refine ⟨R + 1, W, E, ?_, e2, e3, by omega, by omega, by omega, by omega⟩
      simp only [uinc, e1]; omega
    have hback : udec (uinc s.input.r) = s.input.r := by
      obtain ⟨R, W, E, e1, e2, e3, e4, e5, e6, e7⟩ := h
      exact udec_uinc _ (by omega)
    simp only [read_loop_succ]
    split_ifs with h1 h2 h3 h4 h5
    · simpa [ReadResult.state] using h
    · simpa [ReadResult.state] using h
    · simpa [ReadResult.state, hback] using h
    · simpa [ReadResult.state] using hstep h1
    · simpa [ReadResult.state] using hstep h1
    · exact ih _ _ (hstep h1)
/-! ## What one byte does to the buffer -/

theorem input_byte_newline (i : Input) (h : usub i.e i.r < 128) :
    input_byte i 10 = { input_store i 10 with w := uinc i.e } := by
  have hc : completes i 10 := by unfold completes; simp
  simp [input_byte, CTRL_P, CTRL_U, CTRL_H, CTRL_C, h, hc]

theorem input_byte_eof (i : Input) (h : usub i.e i.r < 128) :
    input_byte i 4 = { input_store i 4 with w := uinc i.e } := by
  have hc : completes i 4 := by unfold completes; simp [CTRL_D]
  simp [input_byte, CTRL_P, CTRL_U, CTRL_H, CTRL_C, h, hc]

theorem input_byte_ordinary (i : Input) (b : Int) (hb : ordinary b)
    (h : usub i.e i.r < 128) (hn : uinc i.e ≠ (i.r + 128) % 4294967296) :
    input_byte i b = input_store i b := by
  obtain ⟨h1, h2, h3, h4, h5, h6, h7, h8, h9, h10⟩ := hb
  have hc : ¬ completes i b := by
    unfold completes; simp [CTRL_D, h8, h7, h4, hn]
  have h0 : b ≠ 0 := by omega
  simp [input_byte, CTRL_P, CTRL_U, CTRL_H, CTRL_C, h, hc, h3, h5, h6, h9, h10, h0]

theorem input_byte_ordinary_last (i : Input) (b : Int) (hb : ordinary b)
    (h : usub i.e i.r < 128) (hn : uinc i.e = (i.r + 128) % 4294967296) :
    input_byte i b = { input_store i b with w := uinc i.e } := by
  obtain ⟨h1, h2, h3, h4, h5, h6, h7, h8, h9, h10⟩ := hb
  have hc : completes i b := by
    unfold completes; simp [hn]
  have h0 : b ≠ 0 := by omega
  simp [input_byte, CTRL_P, CTRL_U, CTRL_H, CTRL_C, h, hc, h3, h5, h6, h9, h10, h0]

theorem echo_byte_stored (i : Input) (c : Int) (h : usub i.e i.r < 128)
    (hc : c ≠ 0 ∧ c ≠ 3 ∧ c ≠ 8 ∧ c ≠ 127 ∧ c ≠ 16 ∧ c ≠ 21 ∧ c ≠ 13) :
    echo_byte i c = [c] := by
  obtain ⟨h0, h3, h5, h6, h9, h10, h13⟩ := hc
  simp [echo_byte, CTRL_P, CTRL_U, CTRL_H, CTRL_C, h, h3, h5, h6, h9, h10, h0, h13]

theorem input_byte_full (i : Input) (c : Int) (h : ¬ usub i.e i.r < 128)
    (hc : c ≠ 8 ∧ c ≠ 127 ∧ c ≠ 21) :
    input_byte i c = i ∧ echo_byte i c = (if c = 3 then [3] else []) ∧ wake_byte i c = 0 := by
  obtain ⟨h5, h6, h10⟩ := hc
  unfold input_byte echo_byte wake_byte
  simp only [CTRL_P, CTRL_U, CTRL_H, CTRL_C]
  refine ⟨?_, ?_, ?_⟩
  · split_ifs <;> first | rfl | tauto
  · split_ifs <;> first | rfl | omega
  · split_ifs <;> first | rfl | tauto

/-! ## The ordering of the indices in reachable states -/

theorem consputc_frame (s s1 : Console) (c : Int) (h : consputc s c = some s1) :
    s1.input = s.input ∧ s1.wakeups = s.wakeups ∧ cgaputc s.cga c = some s1.cga ∧
    s1.uart = s.uart ++ uart_bytes [c] := by
  unfold consputc at h
  cases hg : cgaputc s.cga c with
  | none => simp [hg] at h
  | some g =>
    simp [hg] at h
    subst h
    simp only [uart_bytes, List.append_nil]
    split_ifs <;> simp

theorem consoleread_state_input (s : Console) (n : Int) (killed : Bool) :
    (consoleread s n killed).state.cga = s.cga ∧
    (consoleread s n killed).state.uart = s.uart ∧
    (consoleread s n killed).state.wakeups = s.wakeups ∧
    (consoleread s n killed).state.input.buf = s.input.buf ∧
    (consoleread s n killed).state.input.w = s.input.w ∧
    (consoleread s n killed).state.input.e = s.input.e :=
  read_loop_frame killed n.toNat n.toNat s []

theorem reach_ordered (k : Nat) (s : Console) (h : Reach k s) : Ordered k s.input := by
  induction h with
  | boot s hb =>
    obtain ⟨_, hr, hw, he, _⟩ := hb
    exact ⟨0, 0, 0, by simp [hr], by simp [hw], by simp [he], le_refl _, le_refl _, by omega, le_refl _⟩
  | feed k s s1 c _ _ _ hs ih =>
    rw [byte_input c s s1 hs]
    exact ordered_byte k s.input c ih
  | read k s s1 n killed dst ret _ hs ih =>
    have := ordered_read killed n.toNat n.toNat k s [] ih
    unfold consoleread at hs
    rw [hs] at this
    exact this
  | sleep k s s1 n killed dst m _ hs ih =>
    have := ordered_read killed n.toNat n.toNat k s [] ih
    unfold consoleread at hs
    rw [hs] at this
    exact this
  | print k s s1 c _ hs ih =>
    rw [(consputc_frame s s1 c hs).1]
    exact ih

/-- One newline fed to an empty buffer and read back advances the three
indices by one. -/
theorem newline_round (s : Console) (x : Nat)
    (hr : s.input.r = x) (hw : s.input.w = x) (he : s.input.e = x)
    (hc : s.cga.cursor < 2000) :
    ∃ s1 s2, consoleintr_byte s 10 = some s1 ∧
      consoleread s1 1 false = ReadResult.returned s2 [10] 1 ∧
      s2.input.r = uinc x ∧ s2.input.w = uinc x ∧ s2.input.e = uinc x ∧
      s2.cga.cursor < 2000 := by
  obtain ⟨s1, e1, hi, _, _, hc1⟩ := byte_some 10 s hc
  have hlt : usub s.input.e s.input.r < 128 := by rw [he, hr]; unfold usub; omega
  rw [input_byte_newline s.input hlt] at hi
  have hne : s1.input.r ≠ s1.input.w := by
    rw [hi]; simp only [input_store, he, hr]; unfold uinc; omega
  have hb : s1.input.buf (s1.input.r % 128) = 10 := by
    rw [hi]; simp [input_store, he, hr]
  refine ⟨s1, { s1 with input := { s1.input with r := uinc s1.input.r } }, e1, ?_, ?_, ?_, ?_, hc1⟩
  · unfold consoleread
    simp [read_loop_succ, hne, hb, CTRL_D, consoleread_loop]
  · simp [hi, input_store, hr]
  · simp [hi, input_store, he]
  · simp [hi, input_store, he]

theorem reach_wrap (n : Nat) :
    ∃ s, Reach n s ∧ s.input.r = n % 4294967296 ∧ s.input.w = n % 4294967296 ∧
      s.input.e = n % 4294967296 ∧ s.cga.cursor < 2000 := by
  induction n with
  | zero =>
    refine ⟨boot_at 0, Reach.boot _ ?_, rfl, rfl, rfl, by decide⟩
    simp [Boot, boot_at]
  | succ n ih =>
    obtain ⟨s, hs, hr, hw, he, hc⟩ := ih
    obtain ⟨s1, s2, e1, e2, hr2, hw2, he2, hc2⟩ :=
      newline_round s (n % 4294967296) hr hw he hc
    refine ⟨s2, ?_, ?_, ?_, ?_, hc2⟩
    · exact Reach.read (n + 1) s1 s2 1 false [10] 1
        (Reach.feed n s s1 10 hs (by decide) (by decide) e1) e2
    · rw [hr2, uinc_mod]
    · rw [hw2, uinc_mod]
    · rw [he2, uinc_mod]

/-- C1, counterexample: after `2^32 - 1` rounds of one newline fed and read
back the three indices are `2^32 - 1`; one more newline wraps the edit and
write indices to 0 while the read index is still `2^32 - 1`, so
`read_index ≤ write_index` fails in a reachable state. -/
theorem index_order_fails_after_wrap :
    ∃ k s, Reach k s ∧ ¬ (s.input.r ≤ s.input.w ∧ s.input.w ≤ s.input.e ∧
      s.input.e ≤ s.input.r + 128) := by
  obtain ⟨s, hs, hr, hw, he, hc⟩ := reach_wrap 4294967295
  obtain ⟨s1, e1, hi, _, _, _⟩ := byte_some 10 s hc
  have hlt : usub s.input.e s.input.r < 128 := by rw [he, hr]; unfold usub; omega
  rw [input_byte_newline s.input hlt] at hi
  refine ⟨4294967296, s1, Reach.feed _ s s1 10 hs (by decide) (by decide) e1, ?_⟩
  have h1 : s1.input.r = 4294967295 := by rw [hi]; simp [input_store, hr]
  have h2 : s1.input.w = 0 := by rw [hi]; simp [input_store, he, uinc]
  omega

/-- C1, amended: in every state reachable from boot by feeding bytes, reading
and printing, the indices are below `2^32` and ordered as 32-bit differences,
`(w - r) mod 2^32 ≤ (e - r) mod 2^32 ≤ 128`; and as long as fewer than `2^32`
bytes have been fed the chain `r ≤ w ≤ e ≤ r + 128` holds as written. -/
theorem index_order_modular (k : Nat) (s : Console) (h : Reach k s) :
    (s.input.r < 4294967296 ∧ s.input.w < 4294967296 ∧ s.input.e < 4294967296 ∧
      usub s.input.w s.input.r ≤ usub s.input.e s.input.r ∧
      usub s.input.e s.input.r ≤ 128) ∧
    (k < 4294967296 →
      s.input.r ≤ s.input.w ∧ s.input.w ≤ s.input.e ∧ s.input.e ≤ s.input.r + 128) := by
  have ho := reach_ordered k s h
  obtain ⟨b1, b2, b3, b4, b5, _⟩ := ordered_bounds k s.input ho
  exact ⟨⟨b1, b2, b3, b4, b5⟩, fun hk => ordered_plain k s.input ho hk⟩
/-! ## Feeding ordinary bytes -/

theorem ordinary_mod (b : Int) (hb : ordinary b) : (if b = 13 then 10 else b) % 256 = b := by
  obtain ⟨h1, h2, h3, h4, h5, h6, h7, h8, h9, h10⟩ := hb
  rw [if_neg h8]; omega

theorem input_feed_ordinary (bs : List Int) (i : Input)
    (hb : ∀ b ∈ bs, ordinary b) (he : i.e < 4294967296)
    (hlen : usub i.e i.r + bs.length ≤ 127) :
    (input_feed i bs).r = i.r ∧ (input_feed i bs).w = i.w ∧
    (input_feed i bs).e = (i.e + bs.length) % 4294967296 ∧
    (∀ j, j < bs.length →
      (input_feed i bs).buf ((i.e + j) % 4294967296 % 128) = bs.getD j 0) ∧
    (∀ k, (∀ j, j < bs.length → k ≠ (i.e + j) % 4294967296 % 128) →
      (input_feed i bs).buf k = i.buf k) ∧
    echo_feed i bs = bs ∧ wake_feed i bs = 0 := by
  induction bs generalizing i with
  | nil =>
    refine ⟨rfl, rfl, ?_, ?_, fun _ _ => rfl, rfl, rfl⟩
    · simp only [input_feed, List.length_nil]; omega
    · intro j hj; simp at hj
  | cons b bs ih =>
    have hbo : ordinary b := hb b (List.mem_cons_self _ _)
    have hbs : ∀ c ∈ bs, ordinary c := fun c hc => hb c (List.mem_cons_of_mem _ hc)
    simp only [List.length_cons] at hlen
    have hlt : usub i.e i.r < 128 := by omega
    have hn : uinc i.e ≠ (i.r + 128) % 4294967296 := by
      unfold usub at hlen; unfold uinc; omega
    have hstep : input_byte i b = input_store i b := input_byte_ordinary i b hbo hlt hn
    have hecho : echo_byte i b = [b] := by
      obtain ⟨h1, h2, h3, h4, h5, h6, h7, h8, h9, h10⟩ := hbo
      exact echo_byte_stored i b hlt ⟨by omega, h3, h5, h6, h9, h10, h8⟩
    have hwake : wake_byte i b = 0 := by
      obtain ⟨h1, h2, h3, h4, h5, h6, h7, h8, h9, h10⟩ := hbo
      have hc : ¬ completes i b := by
        unfold completes; simp [CTRL_D, h8, h7, h4, hn]
      simp [wake_byte, CTRL_P, CTRL_U, CTRL_H, CTRL_C, h3, h5, h6, h9, h10, hc]
    have he1 : (input_store i b).e < 4294967296 := uinc_lt _
    have hlen1 : usub (input_store i b).e (input_store i b).r + bs.length ≤ 127 := by
      simp only [input_store]
      unfold usub at hlen ⊢; unfold uinc; omega
    obtain ⟨r1, r2, r3, r4, r5, r6, r7⟩ := ih (input_store i b) hbs he1 hlen1
    simp only [input_feed, echo_feed, wake_feed, hstep, hecho, hwake, List.length_cons]
    refine ⟨r1, r2, ?_, ?_, ?_, by simp [r6], by simp [r7]⟩
    · rw [r3]; simp only [input_store, uinc]; omega
    · intro j hj
      cases j with
      | zero =>
        rw [r5]
        · simp [input_store, ordinary_mod b hbo]
          omega
        · intro j hj2
          simp only [input_store, uinc]
          unfold usub at hlen
          omega
      | succ j =>
        have := r4 j (by omega)
        simp only [input_store] at this
        have hidx : (uinc i.e + j) % 4294967296 % 128 = (i.e + (j + 1)) % 4294967296 % 128 := by
          unfold uinc; omega
        rw [hidx] at this
        simpa using this
    · intro k hk
      rw [r5]
      · simp only [input_store]
        have := hk 0 (by omega)
        rw [if_neg]
        intro h0; apply this; rw [h0]; omega
      · intro j hj
        have := hk (j + 1) (by omega)
        intro h0; apply this; rw [h0]
        simp only [input_store, uinc]; omega
theorem input_feed_append (as bs : List Int) (i : Input) :
    input_feed i (as ++ bs) = input_feed (input_feed i as) bs := by
  induction as generalizing i with
  | nil => rfl
  | cons a as ih => exact ih (input_byte i a)

theorem echo_feed_append (as bs : List Int) (i : Input) :
    echo_feed i (as ++ bs) = echo_feed i as ++ echo_feed (input_feed i as) bs := by
  induction as generalizing i with
  | nil => rfl
  | cons a as ih =>
    show echo_byte i a ++ echo_feed (input_byte i a) (as ++ bs) = _
    rw [ih]; simp only [echo_feed, input_feed, List.append_assoc]

/-! ## Reading -/

/-- The reader copies a run of committed bytes that are neither end of file
nor newline, one per iteration. -/
theorem read_run (killed : Bool) (target : Nat) (l : List Int) (s : Console)
    (dst : List Int) (m : Nat)
    (hr : s.input.r < 4294967296) (hw : s.input.w < 4294967296)
    (hbuf : ∀ j, j < l.length →
      s.input.buf ((s.input.r + j) % 4294967296 % 128) = l.getD j 0)
    (hl : ∀ b ∈ l, b ≠ 4 ∧ b ≠ 10)
    (hlen : l.length ≤ usub s.input.w s.input.r) :
    consoleread_loop killed target (l.length + m) s dst =
      consoleread_loop killed target m
        { s with input := { s.input with r := (s.input.r + l.length) % 4294967296 } }
        (dst ++ l) := by
  induction l generalizing s dst with
  | nil =>
    have : s.input.r % 4294967296 = s.input.r := Nat.mod_eq_of_lt hr
    simp [this]
  | cons b l ih =>
    have hne : s.input.r ≠ s.input.w := by
      simp only [List.length_cons] at hlen
      unfold usub at hlen; omega
    have hb0 : s.input.buf (s.input.r % 128) = b := by
      have := hbuf 0 (by simp)
      have h0 : (s.input.r + 0) % 4294967296 % 128 = s.input.r % 128 := by omega
      rw [h0] at this
      simpa using this
    have hb4 := (hl b (List.mem_cons_self _ _)).1
    have hb10 := (hl b (List.mem_cons_self _ _)).2
    have hm : (b :: l).length + m = (l.length + m) + 1 := by simp; omega
    rw [hm, read_loop_succ, if_neg hne, hb0, if_neg (by simpa [CTRL_D] using hb4), if_neg hb10]
    rw [ih]
    · have hidx : (uinc s.input.r + l.length) % 4294967296
          = (s.input.r + (b :: l).length) % 4294967296 := by
        simp only [List.length_cons]; unfold uinc; omega
      simp [hidx]
    · exact uinc_lt _
    · exact hw
    · intro j hj
      have := hbuf (j + 1) (by simp; omega)
      have hidx : (uinc s.input.r + j) % 4294967296 % 128
          = (s.input.r + (j + 1)) % 4294967296 % 128 := by
        unfold uinc; omega
      simp only [hidx]
      simpa using this
    · intro c hc
      exact hl c (List.mem_cons_of_mem _ hc)
    · simp only [List.length_cons] at hlen
      simp only []
      unfold usub at hlen ⊢; unfold uinc; omega

theorem ordinary_stored (b : Int) (h : ordinary b) : stored b := by
  obtain ⟨h1, h2, h3, h4, h5, h6, h7, h8, h9, h10⟩ := h
  exact ⟨h1, h2, h3, h5, h6, h8, h9, h10⟩

theorem input_byte_stored (i : Input) (b : Int) (hb : stored b) (h : usub i.e i.r < 128) :
    (input_byte i b).r = i.r ∧ (input_byte i b).e = uinc i.e ∧
    (∀ k, (input_byte i b).buf k = if k = i.e % 128 then b else i.buf k) ∧
    echo_byte i b = [b] ∧
    ((input_byte i b).w = i.w ∨ (input_byte i b).w = uinc i.e) ∧
    (completes i b → (input_byte i b).w = uinc i.e) := by
  obtain ⟨h1, h2, h3, h5, h6, h8, h9, h10⟩ := hb
  have h0 : b ≠ 0 := by omega
  have hm : (if b = 13 then 10 else b) % 256 = b := by rw [if_neg h8]; omega
  have hecho : echo_byte i b = [b] := echo_byte_stored i b h ⟨h0, h3, h5, h6, h9, h10, h8⟩
  by_cases hc : completes i b
  · have : input_byte i b = { input_store i b with w := uinc i.e } := by
      simp [input_byte, CTRL_P, CTRL_U, CTRL_H, CTRL_C, h, hc, h3, h5, h6, h9, h10, h0]
    rw [this]
    refine ⟨rfl, rfl, ?_, hecho, Or.inr rfl, fun _ => rfl⟩
    intro k; simp only [input_store, hm]
  · have : input_byte i b = input_store i b := by
      simp [input_byte, CTRL_P, CTRL_U, CTRL_H, CTRL_C, h, hc, h3, h5, h6, h9, h10, h0]
    rw [this]
    refine ⟨rfl, rfl, ?_, hecho, Or.inl rfl, fun h => absurd h hc⟩
    intro k; simp only [input_store, hm]

/-- Bytes that are stored, fed while the buffer has room for all of them,
land in consecutive slots from the edit index on, and each is echoed. -/
theorem input_feed_stored (bs : List Int) (i : Input)
    (hb : ∀ b ∈ bs, stored b) (he : i.e < 4294967296)
    (hlen : usub i.e i.r + bs.length ≤ 128) :
    (input_feed i bs).r = i.r ∧
    (input_feed i bs).e = (i.e + bs.length) % 4294967296 ∧
    (∀ j, j < bs.length →
      (input_feed i bs).buf ((i.e + j) % 4294967296 % 128) = bs.getD j 0) ∧
    (∀ k, (∀ j, j < bs.length → k ≠ (i.e + j) % 4294967296 % 128) →
      (input_feed i bs).buf k = i.buf k) ∧
    echo_feed i bs = bs := by
  induction bs generalizing i with
  | nil =>
    refine ⟨rfl, ?_, ?_, fun _ _ => rfl, rfl⟩
    · simp only [input_feed, List.length_nil]; omega
    · intro j hj; simp at hj
  | cons b bs ih =>
    have hbo : stored b := hb b (List.mem_cons_self _ _)
    have hbs : ∀ c ∈ bs, stored c := fun c hc => hb c (List.mem_cons_of_mem _ hc)
    simp only [List.length_cons] at hlen
    have hlt : usub i.e i.r < 128 := by omega
    obtain ⟨q1, q2, q3, q4, _, _⟩ := input_byte_stored i b hbo hlt
    have he1 : (input_byte i b).e < 4294967296 := by rw [q2]; exact uinc_lt _
    have hlen1 : usub (input_byte i b).e (input_byte i b).r + bs.length ≤ 128 := by
      rw [q1, q2]
      unfold usub at hlen ⊢; unfold uinc; omega
    obtain ⟨r1, r3, r4, r5, r6⟩ := ih (input_byte i b) hbs he1 hlen1
    simp only [input_feed, echo_feed, q4, List.length_cons]
    refine ⟨by rw [r1, q1], ?_, ?_, ?_, by simp [r6]⟩
    · rw [r3, q2]; unfold uinc; omega
    · intro j hj
      cases j with
      | zero =>
        rw [r5, q3]
        · have : (i.e + 0) % 4294967296 % 128 = i.e % 128 := by omega
          rw [this, if_pos rfl]
          rfl
        · intro j hj2
          rw [q2]
          unfold uinc
          unfold usub at hlen
          omega
      | succ j =>
        have := r4 j (by omega)
        have hidx : ((input_byte i b).e + j) % 4294967296 % 128
            = (i.e + (j + 1)) % 4294967296 % 128 := by
          rw [q2]; unfold uinc; omega
        rw [hidx] at this
        simpa using this
    · intro k hk
      rw [r5, q3]
      · have := hk 0 (by omega)
        rw [if_neg]
        intro h0; apply this; rw [h0]; omega
      · intro j hj
        have := hk (j + 1) (by omega)
        intro h0; apply this; rw [h0, q2]
        unfold uinc; omega
theorem stored_eof : stored 4 := by decide
theorem stored_newline : stored 10 := by decide

/-- A line of stored bytes closed by a newline, fed to an empty buffer: the
bytes sit in consecutive slots from the old edit index on, and the whole line
is committed. -/
theorem feed_line (s : Console) (l : List Int)
    (hr : s.input.r = s.input.w) (hw : s.input.w = s.input.e)
    (he : s.input.e < 4294967296) (hc : s.cga.cursor < 2000)
    (hl : ∀ x ∈ l, stored x) (hlen : l.length + 1 ≤ 128) :
    ∃ s0, feed s (l ++ [10]) = some s0 ∧ s0.input.r = s.input.e ∧
      s0.input.w = (s.input.e + (l.length + 1)) % 4294967296 ∧
      s0.input.e = (s.input.e + (l.length + 1)) % 4294967296 ∧
      (∀ j, j < l.length + 1 →
        s0.input.buf ((s.input.e + j) % 4294967296 % 128) = (l ++ [10]).getD j 0) ∧
      s0.cga.cursor < 2000 := by
  obtain ⟨s0, e0, hi, _, _, hc0⟩ := feed_some (l ++ [10]) s hc
  have hu : usub s.input.e s.input.r = 0 := by rw [hr, hw]; unfold usub; omega
  have hst : ∀ x ∈ l ++ [10], stored x := by
    intro x hx
    rcases List.mem_append.mp hx with h | h
    · exact hl x h
    · rw [List.mem_singleton.mp h]; exact stored_newline
  obtain ⟨p1, p2, _, _, _⟩ := input_feed_stored l s.input hl he (by rw [hu]; omega)
  obtain ⟨q1, q2, q3, _, _⟩ := input_feed_stored (l ++ [10]) s.input hst he
    (by rw [hu, List.length_append, List.length_singleton]; omega)
  rw [List.length_append, List.length_singleton] at q2 q3
  have hlt : usub (input_feed s.input l).e (input_feed s.input l).r < 128 := by
    rw [p1, p2, hr, hw]; unfold usub; omega
  have hwe : (input_feed s.input (l ++ [10])).w = (input_feed s.input (l ++ [10])).e := by
    rw [input_feed_append]
    simp only [input_feed]
    rw [input_byte_newline _ hlt]
    rfl
  refine ⟨s0, e0, ?_, ?_, ?_, ?_, hc0⟩
  · rw [hi, q1, hr, hw]
  · rw [hi, hwe, q2]
  · rw [hi, q2]
  · intro j hj
    rw [hi]
    exact q3 j hj

/-- A read that ends at a newline: the run `l` before it holds neither end
of file nor newline. -/
theorem read_to_newline (killed : Bool) (target n : Nat) (l : List Int) (s : Console)
    (hr : s.input.r < 4294967296) (hw : s.input.w < 4294967296)
    (hbuf : ∀ j, j < l.length →
      s.input.buf ((s.input.r + j) % 4294967296 % 128) = l.getD j 0)
    (hnl : s.input.buf ((s.input.r + l.length) % 4294967296 % 128) = 10)
    (hl : ∀ b ∈ l, b ≠ 4 ∧ b ≠ 10)
    (hlen : l.length + 1 ≤ usub s.input.w s.input.r) (hn : l.length + 1 ≤ n) :
    consoleread_loop killed target n s [] =
      ReadResult.returned
        { s with input := { s.input with r := (s.input.r + (l.length + 1)) % 4294967296 } }
        (l ++ [10]) ((target : Int) - ((n - (l.length + 1) : Nat) : Int)) := by
  obtain ⟨m, hm⟩ : ∃ m : Nat, n = l.length + (m + 1) := ⟨n - (l.length + 1), by omega⟩
  subst hm
  rw [read_run killed target l s [] (m + 1) hr hw hbuf hl (by omega), read_loop_succ]
  have hne : (s.input.r + l.length) % 4294967296 ≠ s.input.w := by
    unfold usub at hlen; omega
  have h1 : uinc ((s.input.r + l.length) % 4294967296)
      = (s.input.r + (l.length + 1)) % 4294967296 := by unfold uinc; omega
  have h2 : l.length + (m + 1) - (l.length + 1) = m := by omega
  simp [hne, hnl, CTRL_D, h1, h2]

/-- A read that ends at an end-of-file byte after at least one byte: the
byte stays in the buffer for the next read. -/
theorem read_to_eof (killed : Bool) (n : Nat) (l : List Int) (s : Console)
    (hr : s.input.r < 4294967296) (hw : s.input.w < 4294967296)
    (hbuf : ∀ j, j < l.length →
      s.input.buf ((s.input.r + j) % 4294967296 % 128) = l.getD j 0)
    (hd : s.input.buf ((s.input.r + l.length) % 4294967296 % 128) = 4)
    (hl : ∀ b ∈ l, b ≠ 4 ∧ b ≠ 10)
    (hlen : l.length + 1 ≤ usub s.input.w s.input.r) (hn : l.length ≤ n)
    (hpos : 1 ≤ l.length) :
    consoleread_loop killed n n s [] =
      ReadResult.returned
        { s with input := { s.input with r := (s.input.r + l.length) % 4294967296 } }
        l (l.length : Int) := by
  obtain ⟨m, hm⟩ : ∃ m : Nat, n = l.length + m := ⟨n - l.length, by omega⟩
  have hpre := read_run killed n l s [] m hr hw hbuf hl (by omega)
  rw [show consoleread_loop killed n n s [] = consoleread_loop killed n (l.length + m) s []
    from by rw [← hm]]
  rw [hpre, List.nil_append]
  cases m with
  | zero =>
    simp only [consoleread_loop]
    congr 1
    omega
  | succ m =>
    have hne : (s.input.r + l.length) % 4294967296 ≠ s.input.w := by
      unfold usub at hlen; omega
    rw [read_loop_succ]
    simp only [if_neg hne, hd, CTRL_D, if_true]
    rw [if_pos (by omega)]
    have h1 := udec_uinc ((s.input.r + l.length) % 4294967296) (by omega)
    simp only [h1]
    congr 1
    omega

/-- A read that meets the end-of-file byte first returns 0 and consumes it. -/
theorem read_eof_first (killed : Bool) (n : Nat) (s : Console) (hn : 1 ≤ n)
    (hne : s.input.r ≠ s.input.w) (hd : s.input.buf (s.input.r % 128) = 4) :
    consoleread_loop killed n n s [] =
      ReadResult.returned { s with input := { s.input with r := uinc s.input.r } } [] 0 := by
  obtain ⟨m, hm⟩ : ∃ m : Nat, n = m + 1 := ⟨n - 1, by omega⟩
  rw [show consoleread_loop killed n n s [] = consoleread_loop killed n (m + 1) s []
    from by rw [← hm]]
  rw [read_loop_succ]
  simp only [if_neg hne, hd, CTRL_D, if_true]
  rw [if_neg (by omega)]
  congr 1
  omega

/-- C2: a line of at most 127 ordinary bytes followed by a newline, fed to an
empty buffer, is returned whole by one `consoleread` of sufficient length:
the count is `|bs| + 1`, the bytes copied are `bs` and the newline, and the
buffer is empty again. -/
theorem line_round_trip (s : Console) (bs : List Int) (n : Int) (killed : Bool)
    (hr : s.input.r = s.input.w) (hw : s.input.w = s.input.e)
    (he : s.input.e < 4294967296) (hc : s.cga.cursor < 2000)
    (hlen : bs.length ≤ 127) (hb : ∀ b ∈ bs, ordinary b)
    (hn : (bs.length : Int) + 1 ≤ n) :
    ∃ s1 s2, feed s (bs ++ [10]) = some s1 ∧
      consoleread s1 n killed = ReadResult.returned s2 (bs ++ [10]) ((bs.length : Int) + 1) ∧
      s2.input.r = s2.input.w ∧ s2.input.w = s2.input.e := by
  obtain ⟨s1, e1, h1r, h1w, h1e, h1b, _⟩ := feed_line s bs hr hw he hc
    (fun x hx => ordinary_stored x (hb x hx)) (by omega)
  have hread := read_to_newline killed n.toNat n.toNat bs s1
    (by rw [h1r]; exact he) (by rw [h1w]; omega)
    (by
      intro j hj
      rw [h1r, h1b j (by omega), List.getD_append _ _ _ _ hj])
    (by
      rw [h1r, h1b bs.length (by omega), List.getD_append_right _ _ _ _ (le_refl _)]
      simp)
    (by
      intro b hbm
      obtain ⟨_, _, _, h4, _, _, h7, _⟩ := hb b hbm
      exact ⟨h4, h7⟩)
    (by rw [h1w, h1r]; unfold usub; omega)
    (by omega)
  have hret : ((n.toNat : Int) - ((n.toNat - (bs.length + 1) : Nat) : Int))
      = (bs.length : Int) + 1 := by omega
  rw [hret] at hread
  refine ⟨s1, _, e1, hread, ?_, ?_⟩
  · simp only [h1w, h1r]
  · simp only [h1w, h1e]

/-- C3: with `a` (at least one ordinary byte), end of file, `b` and a newline
fed to an empty buffer, three successive reads of sufficient length return
`a`, then nothing, then `b` with the newline. -/
theorem eof_three_reads (s : Console) (a b : List Int) (n1 n2 n3 : Int)
    (k1 k2 k3 : Bool)
    (hr : s.input.r = s.input.w) (hw : s.input.w = s.input.e)
    (he : s.input.e < 4294967296) (hc : s.cga.cursor < 2000)
    (ha : ∀ x ∈ a, ordinary x) (hb : ∀ x ∈ b, ordinary x)
    (hk : 1 ≤ a.length) (hsum : a.length + b.length + 2 ≤ 128)
    (hn1 : (a.length : Int) ≤ n1 ∧ (b.length : Int) + 1 ≤ n1)
    (hn2 : (a.length : Int) ≤ n2 ∧ (b.length : Int) + 1 ≤ n2)
    (hn3 : (a.length : Int) ≤ n3 ∧ (b.length : Int) + 1 ≤ n3) :
    ∃ s0 s1 s2 s3, feed s (a ++ [4] ++ b ++ [10]) = some s0 ∧
      consoleread s0 n1 k1 = ReadResult.returned s1 a (a.length : Int) ∧
      consoleread s1 n2 k2 = ReadResult.returned s2 [] 0 ∧
      consoleread s2 n3 k3 = ReadResult.returned s3 (b ++ [10]) ((b.length : Int) + 1) := by
  have hst : ∀ x ∈ a ++ [4] ++ b, stored x := by
    intro x hx
    simp only [List.mem_append, List.mem_singleton] at hx
    rcases hx with (hx | hx) | hx
    · exact ordinary_stored x (ha x hx)
    · rw [hx]; exact stored_eof
    · exact ordinary_stored x (hb x hx)
  have hL : (a ++ [4] ++ b).length = a.length + 1 + b.length := by
    simp only [List.length_append, List.length_singleton]
  obtain ⟨s0, e0, h0r, h0w, h0e, h0b, _⟩ := feed_line s (a ++ [4] ++ b) hr hw he hc hst
    (by rw [hL]; omega)
  rw [hL] at h0w h0e h0b
  clear hst hr hw hc h0e
  -- the bytes at the places of interest
  have ga : ∀ j, j < a.length → (a ++ [4] ++ b ++ [10]).getD j 0 = a.getD j 0 := by
    intro j hj
    rw [List.append_assoc, List.append_assoc, List.getD_append _ _ _ _ hj]
  have gd : (a ++ [4] ++ b ++ [10]).getD a.length 0 = 4 := by
    rw [List.append_assoc, List.append_assoc, List.getD_append_right _ _ _ _ (le_refl _)]
    simp
  have gb : ∀ j, j < b.length →
      (a ++ [4] ++ b ++ [10]).getD (a.length + 1 + j) 0 = b.getD j 0 := by
    intro j hj
    rw [List.getD_append _ _ _ _ (by rw [hL]; omega),
      List.getD_append_right _ _ _ _ (by simp)]
    simp
  have gn : (a ++ [4] ++ b ++ [10]).getD (a.length + 1 + b.length) 0 = 10 := by
    rw [List.getD_append_right _ _ _ _ (by rw [hL])]
    rw [hL, Nat.sub_self]; rfl
  have ha4 : ∀ x ∈ a, x ≠ 4 ∧ x ≠ 10 := by
    intro x hx
    obtain ⟨_, _, _, h4, _, _, h7, _⟩ := ha x hx
    exact ⟨h4, h7⟩
  have hb4 : ∀ x ∈ b, x ≠ 4 ∧ x ≠ 10 := by
    intro x hx
    obtain ⟨_, _, _, h4, _, _, h7, _⟩ := hb x hx
    exact ⟨h4, h7⟩
  -- first read
  have hread1 := read_to_eof k1 n1.toNat a s0
    (by rw [h0r]; exact he) (by rw [h0w]; omega)
    (by intro j hj; rw [h0r, h0b j (by omega), ga j hj])
    (by rw [h0r, h0b a.length (by omega), gd])
    ha4 (by rw [h0w, h0r]; unfold usub; omega) (by omega) hk
  -- second read
  have hread2 := read_eof_first k2 n2.toNat
    { s0 with input := { s0.input with r := (s0.input.r + a.length) % 4294967296 } }
    (by omega)
    (by simp only [h0r, h0w]; omega)
    (by
      simp only []
      rw [h0r, h0b a.length (by omega), gd])
  -- third read
  have hr2 : uinc ((s0.input.r + a.length) % 4294967296)
      = (s.input.e + (a.length + 1)) % 4294967296 := by
    rw [h0r]; unfold uinc; omega
  rw [hr2] at hread2
  have hread3 := read_to_newline k3 n3.toNat n3.toNat b
    { s0 with input := { s0.input with r := (s.input.e + (a.length + 1)) % 4294967296 } }
    (by simp only []; omega) (by simp only [h0w]; omega)
    (by
      intro j hj
      simp only []
      rw [← gb j hj, ← h0b (a.length + 1 + j) (by omega)]
      congr 1
      omega)
    (by
      simp only []
      rw [← gn, ← h0b (a.length + 1 + b.length) (by omega)]
      congr 1
      omega)
    hb4 (by simp only [h0w]; unfold usub; omega) (by omega)
  have hret : ((n3.toNat : Int) - ((n3.toNat - (b.length + 1) : Nat) : Int))
      = (b.length : Int) + 1 := by omega
  rw [hret] at hread3
  exact ⟨s0, _, _, _, e0, hread1, hread2, hread3⟩

theorem typed_ab_reach : Reach 2 typed_ab := by
  obtain ⟨s1, e1, _⟩ := byte_some 97 (boot_at 1000) (by decide)
  have h : feed (boot_at 1000) [97, 98] = some typed_ab := rfl
  simp only [feed, e1] at h
  cases e2 : consoleintr_byte s1 98 with
  | none => simp [e2] at h
  | some s2 =>
    simp [e2] at h
    subst h
    exact Reach.feed 1 s1 _ 98
      (Reach.feed 0 _ s1 97 (Reach.boot _ (by simp [Boot, boot_at])) (by decide) (by decide) e1)
      (by decide) (by decide) e2

/-- C1, instance: the state after typing `ab` at boot. -/
theorem index_order_modular_typed_ab :
    Reach 2 typed_ab ∧
    ((typed_ab.input.r < 4294967296 ∧ typed_ab.input.w < 4294967296 ∧
      typed_ab.input.e < 4294967296 ∧
      usub typed_ab.input.w typed_ab.input.r ≤ usub typed_ab.input.e typed_ab.input.r ∧
      usub typed_ab.input.e typed_ab.input.r ≤ 128) ∧
    (2 < 4294967296 →
      typed_ab.input.r ≤ typed_ab.input.w ∧ typed_ab.input.w ≤ typed_ab.input.e ∧
      typed_ab.input.e ≤ typed_ab.input.r + 128)) :=
  ⟨typed_ab_reach, index_order_modular 2 typed_ab typed_ab_reach⟩

/-- C2, instance: the line `ab` typed at boot and read with length 3. -/
theorem line_round_trip_ab :
    ∃ s1 s2, feed (boot_at 1000) ([97, 98] ++ [10]) = some s1 ∧
      consoleread s1 3 false
        = ReadResult.returned s2 ([97, 98] ++ [10]) ((([97, 98] : List Int).length : Int) + 1) ∧
      s2.input.r = s2.input.w ∧ s2.input.w = s2.input.e :=
  line_round_trip (boot_at 1000) [97, 98] 3 false rfl rfl (by decide) (by decide)
    (by decide) (by decide) (by decide)

/-- C3, instance: `ab`, end of file, `cd`, newline; three reads of length 3
return 2, 0 and 3 bytes. -/
theorem eof_three_reads_ab_cd :
    ∃ s0 s1 s2 s3, feed (boot_at 1000) ([97, 98] ++ [4] ++ [99, 100] ++ [10]) = some s0 ∧
      consoleread s0 3 false = ReadResult.returned s1 [97, 98] (([97, 98] : List Int).length : Int) ∧
      consoleread s1 3 false = ReadResult.returned s2 [] 0 ∧
      consoleread s2 3 false
        = ReadResult.returned s3 ([99, 100] ++ [10]) ((([99, 100] : List Int).length : Int) + 1) :=
  eof_three_reads (boot_at 1000) [97, 98] [99, 100] 3 3 3 false false false rfl rfl
    (by decide) (by decide) (by decide) (by decide) (by decide) (by decide)
    (by decide) (by decide) (by decide)

/-! ## No newline in the uncommitted region -/

theorem ordered_dec (k : Nat) (i : Input) (h : Ordered k i) (hne : i.e ≠ i.w) :
    Ordered k { i with e := udec i.e } ∧ usub (udec i.e) i.w + 1 = usub i.e i.w := by
  obtain ⟨R, W, E, e1, e2, e3, e4, e5, e6, e7⟩ := h
  have hEW : E ≠ W := by
    intro hE; apply hne; rw [e2, e3, hE]
  constructor
  · refine ⟨R, W, E - 1, e1, e2, ?_, e4, by omega, by omega, by omega⟩
    show udec i.e = _
    rw [e3, udec_mod E (by omega)]
  · rw [e3, udec_mod E (by omega), e2]
    unfold usub
    omega

theorem nonl_dec (k : Nat) (i : Input) (h : Ordered k i) (hn : NoNewline i) (hne : i.e ≠ i.w) :
    NoNewline { i with e := udec i.e } := by
  intro d hd
  have := (ordered_dec k i h hne).2
  simp only [] at hd
  exact hn d (by omega)

theorem nonl_kill (n k : Nat) (i : Input) (h : Ordered k i) (hn : NoNewline i) :
    NoNewline (input_kill n i) := by
  induction n generalizing i with
  | zero => exact hn
  | succ n ih =>
    unfold input_kill
    split_ifs with hc
    · exact ih _ (ordered_dec k i h hc.1).1 (nonl_dec k i h hn hc.1)
    · exact hn

theorem nonl_byte (k : Nat) (i : Input) (c : Int) (h : Ordered k i) (hn : NoNewline i)
    (h0 : 0 ≤ c) (h255 : c ≤ 255) : NoNewline (input_byte i c) := by
  unfold input_byte
  split_ifs with h1 h2 h3 h4 h5 h6 h7
  · exact hn
  · exact nonl_kill _ k i h hn
  · exact nonl_dec k i h hn h4
  · exact hn
  · exact hn
  · intro d hd
    simp only [input_store] at hd
    unfold usub at hd
    have := uinc_lt i.e
    omega
  · intro d hd
    obtain ⟨b1, b2, b3, b4, b5, b6⟩ := ordered_bounds k i h
    have hlt := h6.2
    have hc10 : (if c = 13 then 10 else c) ≠ 10 := by
      intro h10; apply h7; unfold completes; exact Or.inl h10
    have hc13 : c ≠ 13 := by
      intro h13; apply hc10; rw [if_pos h13]
    rw [if_neg hc13] at hc10
    simp only [input_store] at hd ⊢
    rw [if_neg hc13]
    by_cases hk : (i.w + d) % 4294967296 % 128 = i.e % 128
    · rw [if_pos hk]; omega
    · rw [if_neg hk]
      apply hn d
      unfold usub uinc at *
      omega
  · exact hn

theorem reach_nonl (k : Nat) (s : Console) (h : Reach k s) : NoNewline s.input := by
  induction h with
  | boot s hb =>
    obtain ⟨_, hr, hw, he, _⟩ := hb
    intro d hd
    rw [hw, he] at hd
    simp [usub] at hd
  | feed k s s1 c hs h0 h255 hstep ih =>
    rw [byte_input c s s1 hstep]
    exact nonl_byte k s.input c (reach_ordered k s hs) ih h0 h255
  | read k s s1 n killed dst ret _ hs ih =>
    obtain ⟨_, _, _, f4, f5, f6⟩ := consoleread_state_input s n killed
    rw [hs] at f4 f5 f6
    simp only [ReadResult.state] at f4 f5 f6
    intro d hd
    rw [f4, f5]; rw [f5, f6] at hd
    exact ih d hd
  | sleep k s s1 n killed dst m _ hs ih =>
    obtain ⟨_, _, _, f4, f5, f6⟩ := consoleread_state_input s n killed
    rw [hs] at f4 f5 f6
    simp only [ReadResult.state] at f4 f5 f6
    intro d hd
    rw [f4, f5]; rw [f5, f6] at hd
    exact ih d hd
  | print k s s1 c _ hs ih =>
    rw [(consputc_frame s s1 c hs).1]
    exact ih

/-- With no newline in the uncommitted region the kill-line loop runs
`(e - w) mod 2^32` times and stops at `e == w`. -/
theorem kill_full (n k : Nat) (i : Input) (h : Ordered k i) (hn : NoNewline i)
    (hlen : usub i.e i.w = n) :
    input_kill n i = { i with e := i.w } ∧ kill_count n i = n := by
  induction n generalizing i with
  | zero =>
    obtain ⟨b1, b2, b3, _⟩ := ordered_bounds k i h
    have : i.e = i.w := by unfold usub at hlen; omega
    simp only [input_kill, kill_count, and_true]
    cases i
    simp_all
  | succ n ih =>
    obtain ⟨b1, b2, b3, _⟩ := ordered_bounds k i h
    have hne : i.e ≠ i.w := by
      intro he; rw [he] at hlen; unfold usub at hlen; omega
    obtain ⟨ho, hu⟩ := ordered_dec k i h hne
    have hb : i.buf (udec i.e % 128) ≠ 10 := by
      have := hn n (by omega)
      have hidx : (i.w + n) % 4294967296 % 128 = udec i.e % 128 := by
        have := udec_lt i.e
        unfold usub at hu hlen
        omega
      rwa [hidx] at this
    have hc : i.e ≠ i.w ∧ i.buf (udec i.e % 128) ≠ 10 := ⟨hne, hb⟩
    obtain ⟨r1, r2⟩ := ih { i with e := udec i.e } ho (nonl_dec k i h hn hne) (by simp only []; omega)
    unfold input_kill kill_count
    rw [if_pos hc, if_pos hc, r1, r2]
    exact ⟨rfl, rfl⟩

theorem uart_bytes_backspaces (n : Nat) :
    uart_bytes (List.replicate n BACKSPACE) = (List.replicate n [8, 32, 8]).flatten := by
  induction n with
  | zero => rfl
  | succ n ih => simp [List.replicate_succ, uart_bytes, ih]

/-- C4: in a reachable state (bytes `0 .. 255` fed, reads, output) with the
cursor on the screen, the kill-line byte leaves `e == w`, leaves `r`, `w` and
the storage as they were, and echoes exactly `(e - w) mod 2^32` backspaces,
to the serial port and to the screen. -/
theorem kill_line_rewinds_to_write_index (k : Nat) (s : Console) (h : Reach k s)
    (hc : s.cga.cursor < 2000) :
    ∃ s1, consoleintr_byte s 21 = some s1 ∧
      s1.input.e = s1.input.w ∧ s1.input.r = s.input.r ∧ s1.input.w = s.input.w ∧
      s1.input.buf = s.input.buf ∧
      s1.uart = s.uart ++ (List.replicate (usub s.input.e s.input.w) [8, 32, 8]).flatten ∧
      cgaputs s.cga (List.replicate (usub s.input.e s.input.w) BACKSPACE) = some s1.cga := by
  obtain ⟨r1, r2⟩ := kill_full (usub s.input.e s.input.w) k s.input (reach_ordered k s h)
    (reach_nonl k s h) rfl
  have hin : input_byte s.input 21 = { s.input with e := s.input.w } := by
    simp [input_byte, CTRL_P, CTRL_U, r1]
  have hecho : echo_byte s.input 21
      = List.replicate (usub s.input.e s.input.w) BACKSPACE := by
    simp [echo_byte, CTRL_P, CTRL_U, r2]
  obtain ⟨g, hg, _⟩ := cgaputs_cursor_on (echo_byte s.input 21) s.cga hc
  refine ⟨after_byte s 21 g, by simp [consoleintr_byte_eq, hg], ?_, ?_, ?_, ?_, ?_, ?_⟩
  · simp [after_byte, hin]
  · simp [after_byte, hin]
  · simp [after_byte, hin]
  · simp [after_byte, hin]
  · simp [after_byte, hecho, uart_bytes_backspaces]
  · rw [← hecho]; exact hg

/-- C4, instance: kill-line after `ab` has been typed at boot. -/
theorem kill_line_typed_ab :
    Reach 2 typed_ab ∧ typed_ab.cga.cursor < 2000 ∧
    ∃ s1, consoleintr_byte typed_ab 21 = some s1 ∧
      s1.input.e = s1.input.w ∧ s1.input.r = typed_ab.input.r ∧
      s1.input.w = typed_ab.input.w ∧ s1.input.buf = typed_ab.input.buf ∧
      s1.uart = typed_ab.uart
        ++ (List.replicate (usub typed_ab.input.e typed_ab.input.w) [8, 32, 8]).flatten ∧
      cgaputs typed_ab.cga (List.replicate (usub typed_ab.input.e typed_ab.input.w) BACKSPACE)
        = some s1.cga :=
  ⟨typed_ab_reach, by decide,
    kill_line_rewinds_to_write_index 2 typed_ab typed_ab_reach (by decide)⟩

/-! ## A full buffer -/

theorem wake_feed_append (as bs : List Int) (i : Input) :
    wake_feed i (as ++ bs) = wake_feed i as + wake_feed (input_feed i as) bs := by
  induction as generalizing i with
  | nil => simp [wake_feed, input_feed]
  | cons a as ih =>
    show wake_byte i a + wake_feed (input_byte i a) (as ++ bs) = _
    rw [ih]; simp only [wake_feed, input_feed, Nat.add_assoc]

/-- While the buffer is full every byte other than the backspaces and
kill-line is dropped: nothing is stored, nothing is echoed (the hotkey aside),
no wakeup is made. -/
theorem input_feed_full (cs : List Int) (i : Input) (h : ¬ usub i.e i.r < 128)
    (hc : ∀ c ∈ cs, c ≠ 8 ∧ c ≠ 127 ∧ c ≠ 21 ∧ c ≠ 3) :
    input_feed i cs = i ∧ echo_feed i cs = [] ∧ wake_feed i cs = 0 := by
  induction cs with
  | nil => exact ⟨rfl, rfl, rfl⟩
  | cons c cs ih =>
    obtain ⟨h8, h127, h21, h3⟩ := hc c (List.mem_cons_self _ _)
    obtain ⟨q1, q2, q3⟩ := input_byte_full i c h ⟨h8, h127, h21⟩
    obtain ⟨r1, r2, r3⟩ := ih (fun d hd => hc d (List.mem_cons_of_mem _ hd))
    simp only [input_feed, echo_feed, wake_feed, q1, q2, q3, r1, r2, r3, if_neg h3]
    simp

/-- Two byte sequences with the same effect on the buffer, the same echo and
the same wakeups lead to the same state. -/
theorem feed_congr (s : Console) (as bs : List Int)
    (h1 : input_feed s.input as = input_feed s.input bs)
    (h2 : echo_feed s.input as = echo_feed s.input bs)
    (h3 : wake_feed s.input as = wake_feed s.input bs) :
    feed s as = feed s bs := by
  rw [feed_eq, feed_eq, h2]
  congr 1
  funext g
  simp only [after_feed, h1, h2, h3]

theorem uart_bytes_plain (l : List Int) (h : ∀ b ∈ l, b ≠ BACKSPACE) : uart_bytes l = l := by
  induction l with
  | nil => rfl
  | cons b l ih =>
    simp only [uart_bytes, if_neg (h b (List.mem_cons_self _ _)),
      ih (fun c hc => h c (List.mem_cons_of_mem _ hc))]
    rfl

/-- Exactly 128 ordinary bytes fed to an empty buffer fill it: the last one
completes the line by capacity. -/
theorem input_feed_fill (i : Input) (l : List Int)
    (hr : i.r = i.e) (he : i.e < 4294967296)
    (hl : ∀ x ∈ l, ordinary x) (hlen : l.length = 128) :
    (input_feed i l).r = i.e ∧ (input_feed i l).e = (i.e + 128) % 4294967296 ∧
    (input_feed i l).w = (i.e + 128) % 4294967296 ∧
    (∀ j, j < 128 → (input_feed i l).buf ((i.e + j) % 4294967296 % 128) = l.getD j 0) ∧
    echo_feed i l = l := by
  have hu : usub i.e i.r = 0 := by rw [hr]; unfold usub; omega
  have hst : ∀ b ∈ l, stored b := fun b hbm => ordinary_stored b (hl b hbm)
  obtain ⟨p1, p2, p3, _, p5⟩ := input_feed_stored l i hst he (by rw [hu, hlen])
  rw [hlen] at p2 p3
  refine ⟨by rw [p1, hr], p2, ?_, p3, p5⟩
  -- the 128th byte completes the line
  have h128 : l.take 128 = l := List.take_of_length_le (by omega)
  have hsplit : l = l.take 127 ++ [l.getD 127 0] := by
    conv_lhs => rw [← h128]
    rw [List.take_succ]
    congr 1
    rw [List.getD_eq_getElem?_getD]
    cases h : l[127]? with
    | none => rw [List.getElem?_eq_none_iff] at h; omega
    | some v => rfl
  have hst7 : ∀ b ∈ l.take 127, stored b :=
    fun b hbm => hst b (List.mem_of_mem_take hbm)
  have htl7 : (l.take 127).length = 127 := by rw [List.length_take, hlen]; rfl
  obtain ⟨o1, o2, _, _, _⟩ := input_feed_stored (l.take 127) i hst7 he
    (by rw [hu, htl7]; omega)
  rw [htl7] at o2
  have hlast : ordinary (l.getD 127 0) := by
    apply hl
    rw [List.getD_eq_getElem _ _ (by omega)]
    exact List.getElem_mem _
  rw [← p2, hsplit, input_feed_append]
  simp only [input_feed]
  rw [input_byte_ordinary_last _ _ hlast
    (by rw [o1, o2, hr]; unfold usub; omega)
    (by rw [o1, o2, hr]; unfold uinc; omega)]
  rfl

/-- C5: more than 128 ordinary bytes fed to an empty buffer.  The buffer ends
full, holding the first 128 bytes in order; the state is the very state
reached by feeding the first 128 bytes alone, so the excess is neither stored
nor echoed; the serial port received the first 128 bytes; and after a
newline or an end of file `w == e` with at most 128 bytes committed. -/
theorem buffer_full_backpressure (s : Console) (bs : List Int)
    (hr : s.input.r = s.input.w) (hw : s.input.w = s.input.e)
    (he : s.input.e < 4294967296) (hc : s.cga.cursor < 2000)
    (hb : ∀ b ∈ bs, ordinary b) (hlen : 128 < bs.length) :
    ∃ s1, feed s bs = some s1 ∧
      usub s1.input.e s1.input.r = 128 ∧
      (∀ j, j < 128 → s1.input.buf ((s.input.r + j) % 4294967296 % 128) = bs.getD j 0) ∧
      feed s (bs.take 128) = some s1 ∧
      s1.uart = s.uart ++ bs.take 128 ∧
      (∀ c, c = 10 ∨ c = 4 →
        ∃ s2, consoleintr_byte s1 c = some s2 ∧ s2.input.w = s2.input.e ∧
          usub s2.input.w s2.input.r ≤ 128) := by
  have hx : s.input.r = s.input.e := by rw [hr, hw]
  have htl : (bs.take 128).length = 128 := by rw [List.length_take]; omega
  obtain ⟨p1, p2, pw, p3, p5⟩ := input_feed_fill s.input (bs.take 128) hx he
    (fun b hbm => hb b (List.mem_of_mem_take hbm)) htl
  have hfull : ¬ usub (input_feed s.input (bs.take 128)).e (input_feed s.input (bs.take 128)).r
      < 128 := by
    rw [p1, p2]; unfold usub; omega
  -- the rest is dropped
  have hdrop : ∀ c ∈ bs.drop 128, c ≠ 8 ∧ c ≠ 127 ∧ c ≠ 21 ∧ c ≠ 3 := by
    intro c hcm
    obtain ⟨_, _, h3, _, h8, h127, _, _, _, h21⟩ := hb c (List.mem_of_mem_drop hcm)
    exact ⟨h8, h127, h21, h3⟩
  obtain ⟨d1, d2, d3⟩ := input_feed_full (bs.drop 128) _ hfull hdrop
  have hbs : bs = bs.take 128 ++ bs.drop 128 := (List.take_append_drop 128 bs).symm
  have hsame : feed s bs = feed s (bs.take 128) := by
    apply feed_congr
    · conv_lhs => rw [hbs]
      rw [input_feed_append, d1]
    · conv_lhs => rw [hbs]
      rw [echo_feed_append, d2, List.append_nil]
    · conv_lhs => rw [hbs]
      rw [wake_feed_append, d3, Nat.add_zero]
  have hplain : ∀ b ∈ bs.take 128, b ≠ BACKSPACE := by
    intro b hbm
    obtain ⟨_, h255, _⟩ := hb b (List.mem_of_mem_take hbm)
    unfold BACKSPACE; omega
  obtain ⟨s1, e1, hi, hua, _, hc1⟩ := feed_some (bs.take 128) s hc
  have h1full : ¬ usub s1.input.e s1.input.r < 128 := by rw [hi]; exact hfull
  refine ⟨s1, by rw [hsame, e1], ?_, ?_, e1, ?_, ?_⟩
  · rw [hi, p1, p2]; unfold usub; omega
  · intro j hj
    rw [hi, hx, p3 j hj]
    rw [List.getD_eq_getElem?_getD, List.getD_eq_getElem?_getD, List.getElem?_take_of_lt hj]
  · rw [hua, p5, uart_bytes_plain _ hplain]
  · intro c hcc
    obtain ⟨s2, e2, hi2, _, _, _⟩ := byte_some c s1 hc1
    have hne : c ≠ 8 ∧ c ≠ 127 ∧ c ≠ 21 := by rcases hcc with h | h <;> rw [h] <;> decide
    rw [(input_byte_full s1.input c h1full hne).1] at hi2
    refine ⟨s2, e2, ?_, ?_⟩
    · rw [hi2, hi, pw, p2]
    · rw [hi2, hi, pw, p1]; unfold usub; omega

/-- C5, instance: the byte `a` typed 129 times at boot. -/
theorem buffer_full_backpressure_129 :
    ∃ s1, feed (boot_at 1000) (List.replicate 129 97) = some s1 ∧
      usub s1.input.e s1.input.r = 128 ∧
      (∀ j, j < 128 →
        s1.input.buf (((boot_at 1000).input.r + j) % 4294967296 % 128)
          = (List.replicate 129 (97 : Int)).getD j 0) ∧
      feed (boot_at 1000) ((List.replicate 129 (97 : Int)).take 128) = some s1 ∧
      s1.uart = (boot_at 1000).uart ++ (List.replicate 129 (97 : Int)).take 128 ∧
      (∀ c, c = 10 ∨ c = 4 →
        ∃ s2, consoleintr_byte s1 c = some s2 ∧ s2.input.w = s2.input.e ∧
          usub s2.input.w s2.input.r ≤ 128) :=
  buffer_full_backpressure (boot_at 1000) (List.replicate 129 97) rfl rfl
    (by decide) (by decide)
    (fun b hb => by rw [List.eq_of_mem_replicate hb]; decide)
    (by simp)

/-! ## The three overlay loops in closed form -/

theorem range9 : List.range 9 = [0, 1, 2, 3, 4, 5, 6, 7, 8] := by decide

/-- One row of nine cells written from left to right. -/
theorem row_fold (v : Nat → Nat) (np row : Int) (f : Int → Nat) (x : Int) :
    (List.range 9).foldl
      (fun f j => fun x => if x = cell_index np row j then v j else f x) f x
    = if 0 ≤ x - (np - row + 1) ∧ x - (np - row + 1) < 9 then v (x - (np - row + 1)).toNat
      else f x := by
  simp only [range9, List.foldl, cell_index]
  split_ifs <;> first | rfl | omega | (congr 1; omega)

theorem restore_row_eq (back : Nat → Nat → Nat) (np row : Int) (i : Nat)
    (crt : Int → Nat) (x : Int) :
    restore_row back np row i crt x =
      if 0 ≤ x - (np - row + 1) ∧ x - (np - row + 1) < 9 then
        back i (x - (np - row + 1)).toNat
      else crt x := row_fold (back i) np row crt x

theorem draw_row_eq (sel np row : Int) (i : Nat) (crt : Int → Nat) (x : Int) :
    draw_row sel np row i crt x =
      if 0 ≤ x - (np - row + 1) ∧ x - (np - row + 1) < 9 then
        menu_cell sel i (x - (np - row + 1)).toNat
      else crt x := row_fold (menu_cell sel i) np row crt x

theorem save_row_eq (crt : Int → Nat) (np row : Int) (i : Nat) (back : Nat → Nat → Nat)
    (i2 j2 : Nat) :
    save_row crt np row i back i2 j2 =
      if i2 = i ∧ j2 < 9 then crt (cell_index np row j2) else back i2 j2 := by
  simp only [save_row, range9, List.foldl]
  split_ifs <;> first | rfl | omega | simp_all

theorem restore_loop_rows (back : Nat → Nat → Nat) (np : Int) (crt : Int → Nat) :
    restore_loop back np crt =
      restore_row back np 720 0 (restore_row back np 640 1 (restore_row back np 560 2
        (restore_row back np 480 3 (restore_row back np 400 4 (restore_row back np 320 5
          (restore_row back np 240 6 (restore_row back np 160 7
            (restore_row back np 80 8 crt)))))))) := by
  simp only [restore_loop, List.foldl]
  norm_num

theorem draw_loop_rows (sel np : Int) (crt : Int → Nat) :
    draw_loop sel np crt =
      draw_row sel np 720 8 (draw_row sel np 640 7 (draw_row sel np 560 6
        (draw_row sel np 480 5 (draw_row sel np 400 4 (draw_row sel np 320 3
          (draw_row sel np 240 2 (draw_row sel np 160 1
            (draw_row sel np 80 0 crt)))))))) := by
  simp only [draw_loop, range9, List.foldl]
  norm_num

theorem save_loop_rows (crt : Int → Nat) (np : Int) (back : Nat → Nat → Nat) :
    save_loop crt np back =
      save_row crt np 720 0 (save_row crt np 640 1 (save_row crt np 560 2
        (save_row crt np 480 3 (save_row crt np 400 4 (save_row crt np 320 5
          (save_row crt np 240 6 (save_row crt np 160 7
            (save_row crt np 80 8 back)))))))) := by
  simp only [save_loop, List.foldl]
  norm_num

/-- Nine rows of nine cells, the row of index `i` at the offsets
`np - 719 + 80 * i + j`. -/
theorem rows_fold (v : Nat → Nat → Nat) (np : Int) (f : Int → Nat) (x : Int) :
    restore_row v np 720 0 (restore_row v np 640 1 (restore_row v np 560 2
        (restore_row v np 480 3 (restore_row v np 400 4 (restore_row v np 320 5
          (restore_row v np 240 6 (restore_row v np 160 7
            (restore_row v np 80 8 f)))))))) x =
      if in_footprint np x then
        v ((x - (np - 719)) / 80).toNat ((x - (np - 719)) % 80).toNat
      else f x := by
  simp only [restore_row_eq]
  by_cases hin : in_footprint np x
  · rw [if_pos hin]
    unfold in_footprint at hin
    obtain ⟨q, hq⟩ : ∃ q : Nat, (x - (np - 719)) / 80 = (q : Int) :=
      ⟨((x - (np - 719)) / 80).toNat, by omega⟩
    have hq9 : q < 9 := by omega
    interval_cases q <;> (repeat rw [if_neg (by omega)]) <;> rw [if_pos (by omega)] <;>
      congr 1 <;> omega
  · rw [if_neg hin]
    unfold in_footprint at hin
    repeat rw [if_neg (by omega)]

/-- The restore writes `back[i][j]` to the cell `np - 719 + 80 * i + j` and
leaves every cell outside the footprint as it was. -/
theorem restore_loop_eq (back : Nat → Nat → Nat) (np : Int) (crt : Int → Nat) (x : Int) :
    restore_loop back np crt x =
      if in_footprint np x then
        back ((x - (np - 719)) / 80).toNat ((x - (np - 719)) % 80).toNat
      else crt x := by
  rw [restore_loop_rows]
  exact rows_fold back np crt x

/-- The menu is drawn bottom row first: `menu[i][j]` goes to the cell
`np - 719 + 80 * (8 - i) + j`. -/
theorem draw_loop_eq (sel np : Int) (crt : Int → Nat) (x : Int) :
    draw_loop sel np crt x =
      if in_footprint np x then
        menu_cell sel (8 - ((x - (np - 719)) / 80).toNat) ((x - (np - 719)) % 80).toNat
      else crt x := by
  rw [draw_loop_rows]
  exact rows_fold (fun i j => menu_cell sel (8 - i) j) np crt x

/-- The save reads the cell `np - 719 + 80 * i + j` into `back[i][j]`. -/
theorem save_loop_eq (crt : Int → Nat) (np : Int) (back : Nat → Nat → Nat) (i j : Nat)
    (hi : i < 9) (hj : j < 9) :
    save_loop crt np back i j = crt (np - 719 + 80 * (i : Int) + (j : Int)) := by
  rw [save_loop_rows]
  simp only [save_row_eq, cell_index]
  interval_cases i <;> (repeat rw [if_neg (by omega)]) <;> rw [if_pos (by omega)] <;>
    congr 1 <;> omega

/-! ## `cgaputc` case by case -/

theorem finish_noscroll (s : Cga) (pos : Int) (h0 : 0 ≤ pos) (h1 : pos < 1920) :
    cgaputc_finish s pos =
      some { s with crt := fun x => if x = pos then 1824 else s.crt x,
                    cursor := pos.toNat } := by
  unfold cgaputc_finish
  have h : ¬ (pos < 0 ∨ pos > 25 * 80) := by omega
  have hs : ¬ (pos / 80 ≥ 24) := by omega
  have hm : pos % 65536 = pos := by omega
  simp only [if_neg h, hs, decide_False, Bool.false_eq_true, if_false, hm]

theorem finish_scroll (s : Cga) (pos : Int) (h0 : 1920 ≤ pos) (h1 : pos ≤ 2000) :
    cgaputc_finish s pos =
      some { s with crt := fun x => if x = pos - 80 then 1824
                                    else memset_tail (memmove_rows s.crt) (pos - 80) x,
                    cursor := (pos - 80).toNat } := by
  unfold cgaputc_finish
  have h : ¬ (pos < 0 ∨ pos > 25 * 80) := by omega
  have hs : pos / 80 ≥ 24 := by omega
  have hm : (pos - 80) % 65536 = pos - 80 := by omega
  simp only [if_neg h, hs, decide_True, if_true, hm]

/-- A call of `cgaputc` that returns had `pos` in `0 .. 2000`; it leaves a
blank at the cursor and the cursor in `0 .. 1920`. -/
theorem finish_inv (s s1 : Cga) (pos : Int) (h : cgaputc_finish s pos = some s1) :
    0 ≤ pos ∧ pos ≤ 2000 ∧ s1.crt (s1.cursor : Int) = 1824 ∧ s1.cursor ≤ 1920 ∧
    s1.color = s.color ∧ s1.flag = s.flag ∧ s1.selected = s.selected ∧
    s1.newPos = s.newPos ∧ s1.back = s.back := by
  by_cases hr : pos < 0 ∨ pos > 25 * 80
  · unfold cgaputc_finish at h
    rw [if_pos hr] at h
    exact absurd h (by simp)
  · have h0 : 0 ≤ pos := by omega
    have h1 : pos ≤ 2000 := by omega
    by_cases hs : pos < 1920
    · rw [finish_noscroll s pos h0 hs] at h
      simp only [Option.some.injEq] at h
      subst h
      refine ⟨h0, h1, ?_, ?_, rfl, rfl, rfl, rfl, rfl⟩
      · simp only []
        rw [if_pos (by omega)]
      · simp only []; omega
    · rw [finish_scroll s pos (by omega) h1] at h
      simp only [Option.some.injEq] at h
      subst h
      refine ⟨h0, h1, ?_, ?_, rfl, rfl, rfl, rfl, rfl⟩
      · simp only []
        rw [if_pos (by omega)]
      · simp only []; omega

theorem move_selected_mem (sel c : Int) (h : sel = 1 ∨ sel = 3 ∨ sel = 5 ∨ sel = 7) :
    move_selected sel c = 1 ∨ move_selected sel c = 3 ∨ move_selected sel c = 5 ∨
      move_selected sel c = 7 := by
  unfold move_selected
  rcases h with h | h | h | h <;> subst h <;> split_ifs <;> simp_all <;> decide

theorem pick_color_idem (sel : Int) (color : Nat) :
    pick_color sel (pick_color sel color) = pick_color sel color := by
  unfold pick_color
  split_ifs <;> rfl

theorem char_fields (s : Cga) (c : Int) :
    (c = CTRL_C ∧ s.flag ≠ 0 ∧ (cgaputc_char s c).2.flag = s.flag - 1 ∧
      (cgaputc_char s c).2.color = s.color ∧ (cgaputc_char s c).2.selected = s.selected) ∨
    (c = CTRL_C ∧ s.flag = 0 ∧ (cgaputc_char s c).2.flag = 1 ∧
      (cgaputc_char s c).2.color = pick_color s.selected s.color ∧
      (cgaputc_char s c).2.selected = s.selected) ∨
    (c ≠ CTRL_C ∧ (cgaputc_char s c).2.flag = s.flag ∧
      (cgaputc_char s c).2.color = s.color ∧ (cgaputc_char s c).2.selected = s.selected) := by
  unfold cgaputc_char
  simp only [CTRL_C, BACKSPACE]
  by_cases h1 : c = 10 ∧ s.flag ≠ 0
  · rw [if_pos h1]; right; right; exact ⟨by omega, rfl, rfl, rfl⟩
  rw [if_neg h1]
  by_cases h2 : c = 256
  · rw [if_pos h2]; right; right; exact ⟨by omega, rfl, rfl, rfl⟩
  rw [if_neg h2]
  by_cases h3 : c = 3
  · rw [if_pos h3]
    by_cases h4 : s.flag ≠ 0
    · rw [if_pos h4]; left; exact ⟨h3, h4, rfl, rfl, rfl⟩
    · rw [if_neg h4]; right; left
      refine ⟨h3, not_not.mp h4, ?_, rfl, rfl⟩
      simp only [not_not.mp h4]; rfl
  rw [if_neg h3]
  by_cases h4 : s.flag ≠ 0
  · rw [if_pos h4]; right; right; exact ⟨h3, rfl, rfl, rfl⟩
  · rw [if_neg h4]; right; right; exact ⟨h3, rfl, rfl, rfl⟩

theorem menu_fields (t : Cga) (c : Int) :
    (cgaputc_menu t c).flag = t.flag ∧ (cgaputc_menu t c).color = t.color ∧
    (cgaputc_menu t c).newPos = t.newPos ∧ (cgaputc_menu t c).back = t.back ∧
    (cgaputc_menu t c).cursor = t.cursor ∧
    (t.flag = 0 → (cgaputc_menu t c).selected = move_selected t.selected c) ∧
    (t.flag ≠ 0 → (cgaputc_menu t c).selected = t.selected ∧ (cgaputc_menu t c).crt = t.crt) := by
  unfold cgaputc_menu
  split_ifs with h
  · exact ⟨rfl, rfl, rfl, rfl, rfl, fun _ => rfl, fun h2 => absurd h h2⟩
  · exact ⟨rfl, rfl, rfl, rfl, rfl, fun h2 => absurd h2 h, fun _ => ⟨rfl, rfl⟩⟩

theorem move_selected_hotkey (sel : Int) : move_selected sel CTRL_C = sel := by
  simp [move_selected, CTRL_C]

/-- The overlay invariant is kept by every call of `cgaputc`. -/
theorem overlay_inv_step (s s1 : Cga) (c : Int) (hi : OverlayInv s)
    (h : cgaputc s c = some s1) : OverlayInv s1 := by
  unfold cgaputc at h
  obtain ⟨_, _, _, _, hcol, hflag, hsel, _, _⟩ := finish_inv _ _ _ h
  obtain ⟨i1, i2, i3⟩ := hi
  obtain ⟨m1, m2, _, _, _, m3, m4⟩ := menu_fields (cgaputc_char s c).2 c
  unfold OverlayInv
  rw [hcol, hflag, hsel, m1, m2]
  rcases char_fields s c with ⟨c1, c2, c3, c4, c5⟩ | ⟨c1, c2, c3, c4, c5⟩ | ⟨c1, c2, c3, c4⟩
  · have hf1 : s.flag = 1 := by omega
    have hf0 : (cgaputc_char s c).2.flag = 0 := by omega
    rw [m3 hf0, c3, c4, c5, c1, move_selected_hotkey]
    exact ⟨by omega, i2, by omega⟩
  · have hf1 : (cgaputc_char s c).2.flag ≠ 0 := by omega
    rw [(m4 hf1).1, c3, c4, c5]
    exact ⟨Or.inr rfl, i2, fun _ => (pick_color_idem _ _).symm⟩
  · rw [c2, c3]
    by_cases hf : s.flag = 0
    · rw [m3 (by omega), c4]
      exact ⟨i1, move_selected_mem _ _ i2, by omega⟩
    · rw [(m4 (by omega)).1, c4]
      exact ⟨i1, i2, i3⟩

theorem cgaboot_inv (g : Cga) (h : CgaBoot g) : OverlayInv g := by
  obtain ⟨h1, h2, h3, _⟩ := h
  refine ⟨Or.inr h2, by omega, fun _ => ?_⟩
  rw [h3, h1]; rfl

/-- After at least one call the cursor cell holds a blank, the cursor is in
`0 .. 1920`, and the overlay invariant holds if it held before. -/
theorem cgaputs_inv (cs : List Int) (s s1 : Cga) (hi : OverlayInv s)
    (h : cgaputs s cs = some s1) :
    OverlayInv s1 ∧ (cs ≠ [] → s1.crt (s1.cursor : Int) = 1824 ∧ s1.cursor ≤ 1920) := by
  induction cs generalizing s with
  | nil =>
    simp only [cgaputs, Option.some.injEq] at h
    subst h
    exact ⟨hi, fun hne => absurd rfl hne⟩
  | cons c cs ih =>
    simp only [cgaputs] at h
    cases hg : cgaputc s c with
    | none => simp [hg] at h
    | some g =>
      simp only [hg] at h
      have hig := overlay_inv_step s g c hi hg
      obtain ⟨r1, r2⟩ := ih g hig h
      refine ⟨r1, fun _ => ?_⟩
      cases cs with
      | nil =>
        simp only [cgaputs, Option.some.injEq] at h
        subst h
        unfold cgaputc at hg
        obtain ⟨_, _, f3, f4, _⟩ := finish_inv _ _ _ hg
        exact ⟨f3, f4⟩
      | cons d ds => exact r2 (by simp)

/-- The end of `cgaputc` for `pos` in `0 .. 2000`, with the cells spelled out
when there is no scroll. -/
theorem finish_fields (s : Cga) (pos : Int) (h0 : 0 ≤ pos) (h1 : pos ≤ 2000) :
    ∃ s1, cgaputc_finish s pos = some s1 ∧
      s1.color = s.color ∧ s1.flag = s.flag ∧ s1.selected = s.selected ∧
      s1.newPos = s.newPos ∧ s1.back = s.back ∧
      (s1.cursor : Int) = (if 1920 ≤ pos then pos - 80 else pos) ∧
      (pos < 1920 → ∀ x, s1.crt x = if x = pos then 1824 else s.crt x) := by
  by_cases hs : pos < 1920
  · refine ⟨_, finish_noscroll s pos h0 hs, rfl, rfl, rfl, rfl, rfl, ?_, fun _ _ => rfl⟩
    simp only []
    rw [if_neg (by omega)]; omega
  · refine ⟨_, finish_scroll s pos (by omega) h1, rfl, rfl, rfl, rfl, rfl, ?_,
      fun h => absurd h hs⟩
    simp only []
    rw [if_pos (by omega)]; omega

/-- Hotkey while the overlay is hidden: the footprint is saved, the menu is
drawn, the overlay is shown. -/
theorem step_show (s : Cga) (hf : s.flag = 1) (hp : s.cursor ≤ 2000) :
    ∃ s1, cgaputc s CTRL_C = some s1 ∧ s1.flag = 0 ∧
      s1.newPos = anchor s.cursor ∧
      s1.back = save_loop s.crt (anchor s.cursor) s.back ∧
      s1.selected = s.selected ∧ s1.color = s.color ∧
      (s1.cursor : Int) = (if 1920 ≤ (s.cursor : Int) then (s.cursor : Int) - 80 else s.cursor) ∧
      (s.cursor < 1920 → ∀ x, s1.crt x =
        if x = (s.cursor : Int) then 1824
        else draw_loop s.selected (anchor s.cursor) s.crt x) := by
  have hchar : cgaputc_char s CTRL_C =
      ((s.cursor : Int), { s with newPos := anchor s.cursor,
                                  back := save_loop s.crt (anchor s.cursor) s.back,
                                  flag := s.flag - 1 }) := by
    simp [cgaputc_char, CTRL_C, BACKSPACE, hf]
  obtain ⟨s1, e1, f1, f2, f3, f4, f5, f6, f7⟩ :=
    finish_fields (cgaputc_menu (cgaputc_char s CTRL_C).2 CTRL_C) s.cursor (by omega) (by omega)
  have hflag : (cgaputc_char s CTRL_C).2.flag = 0 := by rw [hchar]; simp [hf]
  obtain ⟨m1, m2, m3, m4, m5, m6, _⟩ := menu_fields (cgaputc_char s CTRL_C).2 CTRL_C
  refine ⟨s1, ?_, ?_, ?_, ?_, ?_, ?_, f6, ?_⟩
  · unfold cgaputc
    rw [← e1]
    congr 1
    rw [hchar]
  · rw [f2, m1, hflag]
  · rw [f4, m3, hchar]
  · rw [f5, m4, hchar]
  · rw [f3, m6 hflag, move_selected_hotkey, hchar]
  · rw [f1, m2, hchar]
  · intro hlt x
    rw [f7 (by omega) x]
    split_ifs with hx
    · rfl
    · simp only [cgaputc_menu, hflag, if_true, move_selected_hotkey]
      rw [hchar]

/-- Any value other than the hotkey while the overlay is shown: the selection
may move, the menu is drawn again, nothing else changes but the scroll. -/
theorem step_key (s : Cga) (c : Int) (hf : s.flag = 0) (hc : c ≠ CTRL_C)
    (hp : s.cursor ≤ 2000) :
    ∃ s1, cgaputc s c = some s1 ∧ s1.flag = 0 ∧ s1.newPos = s.newPos ∧
      s1.back = s.back ∧ s1.selected = move_selected s.selected c ∧
      s1.color = s.color ∧
      (s1.cursor : Int) = (if 1920 ≤ (s.cursor : Int) then (s.cursor : Int) - 80 else s.cursor) ∧
      (s.cursor < 1920 → ∀ x, s1.crt x =
        if x = (s.cursor : Int) then 1824
        else draw_loop (move_selected s.selected c) s.newPos s.crt x) := by
  have hchar : cgaputc_char s c = ((s.cursor : Int), s) := by
    unfold cgaputc_char
    simp only [hf, ne_eq, not_true_eq_false, and_false, if_false, if_neg hc]
    split_ifs <;> rfl
  obtain ⟨s1, e1, f1, f2, f3, f4, f5, f6, f7⟩ :=
    finish_fields (cgaputc_menu (cgaputc_char s c).2 c) s.cursor (by omega) (by omega)
  have hflag : (cgaputc_char s c).2.flag = 0 := by rw [hchar]; exact hf
  obtain ⟨m1, m2, m3, m4, m5, m6, _⟩ := menu_fields (cgaputc_char s c).2 c
  refine ⟨s1, ?_, ?_, ?_, ?_, ?_, ?_, f6, ?_⟩
  · unfold cgaputc
    rw [← e1]
    congr 1
    rw [hchar]
  · rw [f2, m1, hflag]
  · rw [f4, m3, hchar]
  · rw [f5, m4, hchar]
  · rw [f3, m6 hflag, hchar]
  · rw [f1, m2, hchar]
  · intro hlt x
    rw [f7 (by omega) x]
    split_ifs with hx
    · rfl
    · simp only [cgaputc_menu, hflag, if_true]
      rw [hchar]

/-- Hotkey while the overlay is shown: the footprint is restored, the colour
is picked, the overlay is hidden. -/
theorem step_hide (s : Cga) (hf : s.flag = 0) (hp : s.cursor ≤ 2000) :
    ∃ s1, cgaputc s CTRL_C = some s1 ∧ s1.flag = 1 ∧ s1.newPos = s.newPos ∧
      s1.back = s.back ∧ s1.selected = s.selected ∧
      s1.color = pick_color s.selected s.color ∧
      (s1.cursor : Int) = (if 1920 ≤ (s.cursor : Int) then (s.cursor : Int) - 80 else s.cursor) ∧
      (s.cursor < 1920 → ∀ x, s1.crt x =
        if x = (s.cursor : Int) then 1824
        else restore_loop s.back s.newPos s.crt x) := by
  have hchar : cgaputc_char s CTRL_C =
      ((s.cursor : Int), { s with crt := restore_loop s.back s.newPos s.crt,
                                  color := pick_color s.selected s.color,
                                  flag := s.flag + 1 }) := by
    simp [cgaputc_char, CTRL_C, BACKSPACE, hf]
  obtain ⟨s1, e1, f1, f2, f3, f4, f5, f6, f7⟩ :=
    finish_fields (cgaputc_menu (cgaputc_char s CTRL_C).2 CTRL_C) s.cursor (by omega) (by omega)
  have hflag : (cgaputc_char s CTRL_C).2.flag = 1 := by rw [hchar]; simp [hf]
  have hflag0 : (cgaputc_char s CTRL_C).2.flag ≠ 0 := by rw [hflag]; decide
  obtain ⟨m1, m2, m3, m4, m5, _, m7⟩ := menu_fields (cgaputc_char s CTRL_C).2 CTRL_C
  refine ⟨s1, ?_, ?_, ?_, ?_, ?_, ?_, f6, ?_⟩
  · unfold cgaputc
    rw [← e1]
    congr 1
    rw [hchar]
  · rw [f2, m1, hflag]
  · rw [f4, m3, hchar]
  · rw [f5, m4, hchar]
  · rw [f3, (m7 hflag0).1, hchar]
  · rw [f1, m2, hchar]
  · intro hlt x
    rw [f7 (by omega) x, (m7 hflag0).2, hchar]

/-! ## Overlay round trips -/

/-- The cursor cell is not in the footprint anchored at that cursor, nor is
any cell in the same column. -/
theorem cursor_not_in_footprint (pos x : Int)
    (hx : in_footprint (anchor pos) x) : x % 80 ≠ pos % 80 := by
  unfold in_footprint anchor at hx
  split_ifs at hx <;> omega

/-- A cell of the footprint, restored from what the save read. -/
theorem restore_of_save (crt crt1 : Int → Nat) (np : Int) (back : Nat → Nat → Nat) (x : Int)
    (hx : in_footprint np x) :
    restore_loop (save_loop crt np back) np crt1 x = crt x := by
  rw [restore_loop_eq, if_pos hx]
  unfold in_footprint at hx
  rw [save_loop_eq _ _ _ _ _ (by omega) (by omega)]
  congr 1
  omega

/-- C7, counterexample: boot with the cursor at cell 1920 (row 24), print a
newline (the cursor is at 1920 again, the overlay hidden, the footprint rows
15 to 23); the first hotkey scrolls the screen and the cursor ends at 1840. -/
theorem overlay_identity_fails_on_row_24 :
    ∃ s s2, CgaBoot (boot_at 1920).cga ∧ cgaputs (boot_at 1920).cga [10] = some s ∧
      s.flag = 1 ∧ (∀ x, in_footprint (anchor s.cursor) x → 0 ≤ x ∧ x < 2000) ∧
      cgaputs s [CTRL_C, CTRL_C] = some s2 ∧ s.cursor = 1920 ∧ s2.cursor = 1840 := by
  refine ⟨(cgaputs (boot_at 1920).cga [10]).getD (boot_at 0).cga,
    (cgaputs ((cgaputs (boot_at 1920).cga [10]).getD (boot_at 0).cga)
      [CTRL_C, CTRL_C]).getD (boot_at 0).cga,
    ?_, rfl, rfl, ?_, rfl, rfl, rfl⟩
  · exact ⟨rfl, rfl, rfl, rfl, fun _ _ => rfl⟩
  · intro x hx
    have hc : ((cgaputs (boot_at 1920).cga [10]).getD (boot_at 0).cga).cursor = 1920 := rfl
    rw [hc] at hx
    unfold in_footprint anchor at hx
    norm_num at hx
    omega

/-- C7, amended: for a display state reached from boot by at least one call
of `cgaputc`, with the overlay hidden, the cursor in rows 0 to 23 and the
footprint inside the display, two hotkeys in a row leave every cell, the
cursor, the colour and the selection as they were.  In this embedding the
cells are a total map, so the proof does not use `_hfoot`. -/
theorem overlay_round_trip_identity (s0 s : Cga) (cs : List Int)
    (hboot : CgaBoot s0) (hcs : cs ≠ []) (hreach : cgaputs s0 cs = some s)
    (hf : s.flag = 1) (hcur : s.cursor < 1920)
    (_hfoot : ∀ x, in_footprint (anchor s.cursor) x → 0 ≤ x ∧ x < 2000) :
    ∃ s2, cgaputs s [CTRL_C, CTRL_C] = some s2 ∧ (∀ x, s2.crt x = s.crt x) ∧
      s2.cursor = s.cursor ∧ s2.color = s.color ∧ s2.selected = s.selected ∧
      s2.flag = 1 := by
  obtain ⟨hinv, hblank⟩ := cgaputs_inv cs s0 s (cgaboot_inv s0 hboot) hreach
  obtain ⟨hb, _⟩ := hblank hcs
  obtain ⟨s1, e1, a1, a2, a3, a4, a5, a6, a7⟩ := step_show s hf (by omega)
  rw [if_neg (by omega)] at a6
  have hc1 : s1.cursor = s.cursor := by omega
  obtain ⟨s2, e2, b1, b2, b3, b4, b5, b6, b7⟩ := step_hide s1 a1 (by omega)
  rw [if_neg (by omega)] at b6
  refine ⟨s2, by simp [cgaputs, e1, e2], ?_, by omega, ?_, by rw [b4, a4], b1⟩
  · intro x
    rw [b7 (by omega) x, hc1]
    split_ifs with hx
    · rw [hx, hb]
    · rw [a3, a2]
      by_cases hin : in_footprint (anchor s.cursor) x
      · exact restore_of_save _ _ _ _ _ hin
      · rw [restore_loop_eq, if_neg hin, a7 hcur x, if_neg hx, draw_loop_eq, if_neg hin]
  · rw [b5, a4, a5]
    exact (hinv.2.2 hf).symm

/-- C7 amended, instance: the screen after one newline printed at boot with
the cursor at cell 1000. -/
theorem overlay_round_trip_identity_at_1000 :
    ∃ s2, cgaputs ((cgaputs (boot_at 1000).cga [10]).getD (boot_at 0).cga) [CTRL_C, CTRL_C]
        = some s2 ∧
      (∀ x, s2.crt x = ((cgaputs (boot_at 1000).cga [10]).getD (boot_at 0).cga).crt x) ∧
      s2.cursor = ((cgaputs (boot_at 1000).cga [10]).getD (boot_at 0).cga).cursor ∧
      s2.color = ((cgaputs (boot_at 1000).cga [10]).getD (boot_at 0).cga).color ∧
      s2.selected = ((cgaputs (boot_at 1000).cga [10]).getD (boot_at 0).cga).selected ∧
      s2.flag = 1 :=
  overlay_round_trip_identity (boot_at 1000).cga
    ((cgaputs (boot_at 1000).cga [10]).getD (boot_at 0).cga) [10]
    ⟨rfl, rfl, rfl, rfl, fun _ _ => rfl⟩ (by simp) rfl rfl (by decide)
    (by
      intro x hx
      have hc : ((cgaputs (boot_at 1000).cga [10]).getD (boot_at 0).cga).cursor = 1040 := rfl
      rw [hc] at hx
      unfold in_footprint anchor at hx
      norm_num at hx
      omega)

theorem move_selected_up (sel c : Int) (hc : c = 119 ∨ c = 87)
    (h : sel = 1 ∨ sel = 3 ∨ sel = 5 ∨ sel = 7) :
    move_selected sel c = (sel + 2) % 8 := by
  unfold move_selected
  rw [if_pos (by omega)]
  rcases h with h | h | h | h <;> subst h <;> decide

/-- C8: hotkey, `w` or `W`, hotkey, from a state with the overlay hidden and
the footprint inside the display.  Every cell of the footprint has its
content of before the activation, the selection has moved up by 2 with wrap,
and the colour is the table value of the new selection.  In this embedding
the cells and the statics are total maps, so the proof does not use `_hfoot`. -/
theorem overlay_round_trip_move (s : Cga) (c : Int) (hc : c = 119 ∨ c = 87)
    (hsel0 : s.selected = 1 ∨ s.selected = 3 ∨ s.selected = 5 ∨ s.selected = 7)
    (hf : s.flag = 1) (hcur : s.cursor ≤ 2000)
    (_hfoot : ∀ x, in_footprint (anchor s.cursor) x → 0 ≤ x ∧ x < 2000) :
    ∃ s3, cgaputs s [CTRL_C, c, CTRL_C] = some s3 ∧
      (∀ x, in_footprint (anchor s.cursor) x → s3.crt x = s.crt x) ∧
      s3.selected = (s.selected + 2) % 8 ∧
      (s3.selected = 7 → s3.color = 1792) ∧ (s3.selected = 5 → s3.color = 29952) ∧
      (s3.selected = 3 → s3.color = 13312) ∧ (s3.selected = 1 → s3.color = 26368) ∧
      (s.selected = 7 → s3.selected = 1 ∧ s3.color = 26368) ∧ s3.flag = 1 := by
  obtain ⟨s1, e1, a1, a2, a3, a4, a5, a6, _⟩ := step_show s hf hcur
  have hc1 : s1.cursor ≤ 1920 := by split_ifs at a6 <;> omega
  have hne : c ≠ CTRL_C := by unfold CTRL_C; omega
  obtain ⟨s2, e2, b1, b2, b3, b4, b5, b6, _⟩ := step_key s1 c a1 hne (by omega)
  have hc2 : s2.cursor < 1920 := by split_ifs at b6 <;> omega
  obtain ⟨s3, e3, d1, d2, d3, d4, d5, d6, d7⟩ := step_hide s2 b1 (by omega)
  have hsel : s3.selected = (s.selected + 2) % 8 := by
    rw [d4, b4, a4, move_selected_up _ _ hc hsel0]
  have hcol : s3.color = pick_color ((s.selected + 2) % 8) s.color := by
    rw [d5, b5, a5, b4, a4, move_selected_up _ _ hc hsel0]
  refine ⟨s3, by simp [cgaputs, e1, e2, e3], ?_, hsel, ?_, ?_, ?_, ?_, ?_, d1⟩
  · intro x hx
    have hcolumn := cursor_not_in_footprint s.cursor x hx
    have hxc : x ≠ (s2.cursor : Int) := by
      intro hxe
      apply hcolumn
      rw [hxe]
      split_ifs at a6 b6 <;> omega
    rw [d7 hc2 x, if_neg hxc, b3, b2, a3, a2]
    exact restore_of_save _ _ _ _ _ hx
  · intro h; rw [hcol, ← hsel, h]; rfl
  · intro h; rw [hcol, ← hsel, h]; rfl
  · intro h; rw [hcol, ← hsel, h]; rfl
  · intro h; rw [hcol, ← hsel, h]; rfl
  · intro h
    rw [hcol, hsel, h]
    exact ⟨by decide, rfl⟩

/-- C8, instance: the boot state with the cursor at cell 1000 and the
key `w`; the selection goes from 7 to 1 and the colour to `0x6700`. -/
theorem overlay_round_trip_move_at_1000 :
    ∃ s3, cgaputs (boot_at 1000).cga [CTRL_C, 119, CTRL_C] = some s3 ∧
      (∀ x, in_footprint (anchor (boot_at 1000).cga.cursor) x →
        s3.crt x = (boot_at 1000).cga.crt x) ∧
      s3.selected = ((boot_at 1000).cga.selected + 2) % 8 ∧
      (s3.selected = 7 → s3.color = 1792) ∧ (s3.selected = 5 → s3.color = 29952) ∧
      (s3.selected = 3 → s3.color = 13312) ∧ (s3.selected = 1 → s3.color = 26368) ∧
      ((boot_at 1000).cga.selected = 7 → s3.selected = 1 ∧ s3.color = 26368) ∧
      s3.flag = 1 :=
  overlay_round_trip_move (boot_at 1000).cga 119 (Or.inl rfl)
    (Or.inr (Or.inr (Or.inr rfl))) rfl (by decide)
    (by
      intro x hx
      have hc : (boot_at 1000).cga.cursor = 1000 := rfl
      rw [hc] at hx
      unfold in_footprint anchor at hx
      norm_num at hx
      omega)

/-! ## Plain characters, newline, backspace -/

/-- The cell `cgaputc` stores for the character `c`: `(c & 0xff) | color`. -/
theorem step_plain (s : Cga) (c : Int) (hf : s.flag ≠ 0)
    (hc : c ≠ 10 ∧ c ≠ BACKSPACE ∧ c ≠ CTRL_C) (hp : s.cursor < 2000) :
    ∃ s1, cgaputc s c = some s1 ∧ s1.flag = s.flag ∧ s1.newPos = s.newPos ∧
      s1.back = s.back ∧ s1.selected = s.selected ∧ s1.color = s.color ∧
      (s1.cursor : Int) =
        (if 1920 ≤ (s.cursor : Int) + 1 then (s.cursor : Int) + 1 - 80 else (s.cursor : Int) + 1) ∧
      (s.cursor + 1 < 1920 → ∀ x, s1.crt x =
        if x = (s.cursor : Int) + 1 then 1824
        else if x = (s.cursor : Int) then ((c % 256).toNat ||| s.color) % 65536
        else s.crt x) := by
  obtain ⟨h10, hb, h3⟩ := hc
  have hchar : cgaputc_char s c =
      ((s.cursor : Int) + 1,
       { s with crt := fun x =>
           if x = (s.cursor : Int) then ((c % 256).toNat ||| s.color) % 65536 else s.crt x }) := by
    simp [cgaputc_char, h10, hb, h3, hf]
  obtain ⟨s1, e1, f1, f2, f3, f4, f5, f6, f7⟩ :=
    finish_fields (cgaputc_menu (cgaputc_char s c).2 c) ((s.cursor : Int) + 1)
      (by omega) (by omega)
  have hflag : (cgaputc_char s c).2.flag ≠ 0 := by rw [hchar]; exact hf
  obtain ⟨m1, m2, m3, m4, m5, _, m7⟩ := menu_fields (cgaputc_char s c).2 c
  refine ⟨s1, ?_, ?_, ?_, ?_, ?_, ?_, f6, ?_⟩
  · unfold cgaputc
    rw [← e1]
    congr 1
    rw [hchar]
  · rw [f2, m1, hchar]
  · rw [f4, m3, hchar]
  · rw [f5, m4, hchar]
  · rw [f3, (m7 hflag).1, hchar]
  · rw [f1, m2, hchar]
  · intro hlt x
    rw [f7 (by omega) x, (m7 hflag).2, hchar]

/-- Newline or backspace, or any value while the overlay is shown apart from
the hotkey: no cell is written before the end of `cgaputc`, only `pos` moves. -/
theorem step_move (s : Cga) (c : Int) (hc : c = 10 ∨ c = BACKSPACE) (hf : s.flag ≠ 0)
    (hp : s.cursor < 2000) :
    ∃ s1, cgaputc s c = some s1 ∧ s1.flag = s.flag ∧ s1.newPos = s.newPos ∧
      s1.back = s.back ∧ s1.selected = s.selected ∧ s1.color = s.color ∧
      cgaputc_finish s (cgaputc_char s c).1 = some s1 ∧
      (cgaputc_char s c).1 =
        (if c = 10 then (s.cursor : Int) + (80 - (s.cursor : Int) % 80)
         else if 0 < s.cursor then (s.cursor : Int) - 1 else s.cursor) := by
  have hchar : cgaputc_char s c =
      ((if c = 10 then (s.cursor : Int) + (80 - (s.cursor : Int) % 80)
         else if 0 < s.cursor then (s.cursor : Int) - 1 else s.cursor), s) := by
    rcases hc with h | h
    · simp [cgaputc_char, h, hf]
    · have h10 : c ≠ 10 := by rw [h]; decide
      simp [cgaputc_char, h, hf, BACKSPACE]
  have hmenu : cgaputc_menu (cgaputc_char s c).2 c = s := by
    rw [hchar]; simp [cgaputc_menu, hf]
  obtain ⟨b0, b1, _⟩ := char_pos_bounds s c
  obtain ⟨s1, e1, f1, f2, f3, f4, f5, _, _⟩ :=
    finish_fields s (cgaputc_char s c).1 b0 (by omega)
  refine ⟨s1, ?_, f2, f4, f5, f3, f1, e1, ?_⟩
  · unfold cgaputc
    rw [hmenu, e1]
  · rw [hchar]
/-- Characters other than newline, backspace and the hotkey, printed with the
overlay hidden while the cursor stays in rows 0 to 23: the cursor advances by
one per character. -/
theorem cgaputs_plain (cs : List Int) (s : Cga) (hf : s.flag ≠ 0)
    (hc : ∀ c ∈ cs, c ≠ 10 ∧ c ≠ BACKSPACE ∧ c ≠ CTRL_C)
    (hlen : s.cursor + cs.length < 1920) :
    ∃ s1, cgaputs s cs = some s1 ∧ s1.flag = s.flag ∧ s1.cursor = s.cursor + cs.length := by
  induction cs generalizing s with
  | nil => exact ⟨s, rfl, rfl, rfl⟩
  | cons c cs ih =>
    simp only [List.length_cons] at hlen
    obtain ⟨s1, e1, f1, _, _, _, _, f6, _⟩ :=
      step_plain s c hf (hc c (List.mem_cons_self _ _)) (by omega)
    rw [if_neg (by omega)] at f6
    have hc1 : s1.cursor = s.cursor + 1 := by omega
    obtain ⟨s2, e2, g1, g2⟩ := ih s1 (by rw [f1]; exact hf)
      (fun d hd => hc d (List.mem_cons_of_mem _ hd)) (by omega)
    refine ⟨s2, by simp [cgaputs, e1, e2], by rw [g1, f1], ?_⟩
    rw [g2, hc1, List.length_cons]; omega

/-- C9: with the overlay hidden and the cursor on row 23, a newline moves
every row up by one (cell `i` takes the content of cell `i + 80` for
`0 ≤ i < 1840`), clears the bottom row (a blank at the cursor cell 1840, zero
in the cells 1841 to 1919) and leaves the cursor at cell 1840.  The state
reached by writing 24 full rows (1920 characters other than newline, backspace
and hotkey) from the cursor at cell 0 is such a state. -/
theorem scroll_on_newline :
    (∀ s : Cga, s.flag ≠ 0 → 1840 ≤ s.cursor → s.cursor ≤ 1919 →
      ∃ s1, cgaputc s 10 = some s1 ∧
        (∀ i : Int, 0 ≤ i → i < 1840 → s1.crt i = s.crt (i + 80)) ∧
        s1.crt 1840 = 1824 ∧
        (∀ i : Int, 1840 < i → i ≤ 1919 → s1.crt i = 0) ∧
        s1.cursor = 1840) ∧
    (∀ (s0 : Cga) (cs : List Int), s0.flag ≠ 0 → s0.cursor = 0 → cs.length = 1920 →
      (∀ c ∈ cs, c ≠ 10 ∧ c ≠ BACKSPACE ∧ c ≠ CTRL_C) →
      ∃ s, cgaputs s0 cs = some s ∧ s.flag ≠ 0 ∧ 1840 ≤ s.cursor ∧ s.cursor ≤ 1919) := by
  constructor
  · intro s hf h1 h2
    obtain ⟨s1, e1, _, _, _, _, _, g1, g2⟩ := step_move s 10 (Or.inl rfl) hf (by omega)
    rw [if_pos rfl] at g2
    have hpos : (cgaputc_char s 10).1 = 1920 := by rw [g2]; omega
    rw [hpos, finish_scroll s 1920 (by decide) (by decide)] at g1
    simp only [Option.some.injEq] at g1
    subst g1
    refine ⟨_, e1, ?_, ?_, ?_, ?_⟩
    · intro i i0 i1
      simp only [memset_tail, memmove_rows]
      rw [if_neg (by omega), if_neg (by omega), if_pos ⟨i0, i1⟩]
    · simp only []
      rw [if_pos (by norm_num)]
    · intro i i0 i1
      simp only [memset_tail]
      rw [if_neg (by omega), if_pos (by omega)]
    · rfl
  · intro s0 cs hf h0 hlen hc
    have hsplit : cs = cs.take 1919 ++ cs.drop 1919 := (List.take_append_drop 1919 cs).symm
    have hl1 : (cs.take 1919).length = 1919 := by simp; omega
    obtain ⟨s1, e1, f1, f2⟩ := cgaputs_plain (cs.take 1919) s0 hf
      (fun c hm => hc c (List.mem_of_mem_take hm)) (by rw [h0, hl1]; decide)
    rw [h0, hl1] at f2
    have hl2 : (cs.drop 1919).length = 1 := by simp; omega
    obtain ⟨d, hd⟩ : ∃ d, cs.drop 1919 = [d] := by
      cases hq : cs.drop 1919 with
      | nil => rw [hq] at hl2; simp at hl2
      | cons d ds =>
        cases ds with
        | nil => exact ⟨d, rfl⟩
        | cons _ _ => rw [hq] at hl2; simp at hl2
    have hdm : d ∈ cs := by
      apply List.mem_of_mem_drop (n := 1919)
      rw [hd]; exact List.mem_singleton_self d
    obtain ⟨s2, e2, g1, _, _, _, _, g6, _⟩ :=
      step_plain s1 d (by rw [f1]; exact hf) (hc d hdm) (by omega)
    rw [if_pos (by omega)] at g6
    refine ⟨s2, ?_, by rw [g1, f1]; exact hf, by omega, by omega⟩
    rw [hsplit, cgaputs_append, e1, hd]
    simp [cgaputs, e2]

/-- C9, instance: 24 rows of the letter `a` written from the cursor at
cell 0, then a newline. -/
theorem scroll_after_24_rows :
    ∃ s, cgaputs (boot_at 0).cga (List.replicate 1920 97) = some s ∧
      ∃ s1, cgaputc s 10 = some s1 ∧
        (∀ i : Int, 0 ≤ i → i < 1840 → s1.crt i = s.crt (i + 80)) ∧
        s1.crt 1840 = 1824 ∧
        (∀ i : Int, 1840 < i → i ≤ 1919 → s1.crt i = 0) ∧
        s1.cursor = 1840 := by
  obtain ⟨s, e, hf, h1, h2⟩ := scroll_on_newline.2 (boot_at 0).cga (List.replicate 1920 97)
    (by decide) rfl (List.length_replicate 1920 97)
    (fun c hc => by rw [List.eq_of_mem_replicate hc]; decide)
  exact ⟨s, e, scroll_on_newline.1 s hf h1 h2⟩

theorem cgaputs_cursor_lt (cs : List Int) (s : Cga) (h : s.cursor < 1920) :
    ∃ s1, cgaputs s cs = some s1 ∧ s1.cursor < 1920 := by
  induction cs generalizing s with
  | nil => exact ⟨s, rfl, h⟩
  | cons c cs ih =>
    obtain ⟨s1, e1, h1⟩ := cgaputc_cursor_lt s c h
    obtain ⟨s2, e2, h2⟩ := ih s1 h1
    exact ⟨s2, by simp [cgaputs, e1, e2], h2⟩

/-- C10: a call of `cgaputc` made with the cursor in `0 .. 1919` does not
reach the panic, whatever the value printed and the overlay state, and writes
back a cursor in `0 .. 1919`; so no sequence of calls, and no sequence of
bytes fed to `consoleintr`, reaches the panic from such a cursor. -/
theorem cursor_stays_in_range (s : Cga) (h : s.cursor < 1920) :
    (∀ c, ∃ s1, cgaputc s c = some s1 ∧ s1.cursor < 1920) ∧
    (∀ cs, ∃ s1, cgaputs s cs = some s1 ∧ s1.cursor < 1920) ∧
    (∀ (t : Console) (bs : List Int), t.cga = s →
      ∃ t1, feed t bs = some t1 ∧ t1.cga.cursor < 1920) := by
  refine ⟨fun c => cgaputc_cursor_lt s c h, fun cs => cgaputs_cursor_lt cs s h, ?_⟩
  intro t bs ht
  obtain ⟨g, hg, hc⟩ := cgaputs_cursor_lt (echo_feed t.input bs) t.cga (by rw [ht]; exact h)
  exact ⟨after_feed t bs g, by simp [feed_eq, hg], hc⟩

/-- C10, instance: the boot screen with the cursor at cell 1919. -/
theorem cursor_stays_in_range_at_1919 :
    (∀ c, ∃ s1, cgaputc (boot_at 1919).cga c = some s1 ∧ s1.cursor < 1920) ∧
    (∀ cs, ∃ s1, cgaputs (boot_at 1919).cga cs = some s1 ∧ s1.cursor < 1920) ∧
    (∀ (t : Console) (bs : List Int), t.cga = (boot_at 1919).cga →
      ∃ t1, feed t bs = some t1 ∧ t1.cga.cursor < 1920) :=
  cursor_stays_in_range (boot_at 1919).cga (by decide)

/-! ## Backspace -/

/-- C6, counterexample: the hotkey and then `a` typed at boot with the cursor
at cell 1000.  The overlay is shown, one byte is uncommitted.  A backspace
removes the byte and sends the erase sequence to the serial port, but the
cursor stays at cell 1000. -/
theorem backspace_cursor_stays_while_shown :
    ∃ s1, feed (boot_at 1000) [3, 97] = some typed_shown ∧
      typed_shown.cga.flag = 0 ∧
      typed_shown.input.e ≠ typed_shown.input.w ∧
      consoleintr_byte typed_shown 8 = some s1 ∧
      s1.input.e + 1 = typed_shown.input.e ∧
      s1.uart = typed_shown.uart ++ [8, 32, 8] ∧
      typed_shown.cga.cursor = 1000 ∧ s1.cga.cursor = 1000 :=
  ⟨(consoleintr_byte typed_shown 8).getD typed_shown, rfl, by decide, by decide, rfl,
    by decide, by decide, by decide, by decide⟩

/-- C6, amended: for both backspace bytes.  With the uncommitted region empty
the byte changes nothing at all.  Otherwise, with the cursor in rows 0 to 23,
`e` goes down by one as a 32-bit counter, `r`, `w` and the storage are
unchanged, the serial port receives backspace, space, backspace, and the
cursor moves left by one cell if the overlay is hidden and the cursor is not
at cell 0, and stays where it is if the overlay is shown or the cursor is at
cell 0. -/
theorem backspace_edit (s : Console) (c : Int) (hc : c = 8 ∨ c = 127) :
    (s.input.e = s.input.w → consoleintr_byte s c = some s) ∧
    (s.input.e ≠ s.input.w → s.cga.cursor < 1920 →
      ∃ s1, consoleintr_byte s c = some s1 ∧
        s1.input.e = udec s.input.e ∧
        (0 < s.input.e → s.input.e < 4294967296 → s1.input.e + 1 = s.input.e) ∧
        s1.input.r = s.input.r ∧ s1.input.w = s.input.w ∧ s1.input.buf = s.input.buf ∧
        s1.uart = s.uart ++ [8, 32, 8] ∧
        (s.cga.flag ≠ 0 → 0 < s.cga.cursor → s1.cga.cursor + 1 = s.cga.cursor) ∧
        (s.cga.flag = 0 ∨ s.cga.cursor = 0 → s1.cga.cursor = s.cga.cursor)) := by
  have hc2 : c = CTRL_H ∨ c = 127 := hc
  have hp : c ≠ CTRL_P := by unfold CTRL_P; omega
  have hu : c ≠ CTRL_U := by unfold CTRL_U; omega
  constructor
  · intro he
    unfold consoleintr_byte
    rw [if_neg hp, if_neg hu, if_pos hc2, if_neg (by simp [he])]
  · intro he hcur
    have hin : input_byte s.input c = { s.input with e := udec s.input.e } := by
      unfold input_byte
      rw [if_neg hp, if_neg hu, if_pos hc2, if_pos he]
    have hecho : echo_byte s.input c = [BACKSPACE] := by
      unfold echo_byte
      rw [if_neg hp, if_neg hu, if_pos hc2, if_pos he]
    have hbyte := consoleintr_byte_eq s c
    rw [hecho] at hbyte
    simp only [cgaputs] at hbyte
    by_cases hf : s.cga.flag ≠ 0
    · obtain ⟨g, e1, _, _, _, _, _, g1, g2⟩ :=
        step_move s.cga BACKSPACE (Or.inr rfl) hf (by omega)
      rw [if_neg (by decide)] at g2
      obtain ⟨b0, _, _⟩ := char_pos_bounds s.cga BACKSPACE
      rw [finish_noscroll _ _ b0 (by rw [g2]; split_ifs <;> omega)] at g1
      simp only [Option.some.injEq] at g1
      rw [e1] at hbyte
      refine ⟨after_byte s c g, by simpa using hbyte, ?_, ?_, ?_, ?_, ?_, ?_, ?_, ?_⟩
      · simp [after_byte, hin]
      · intro h0 hlt
        simp only [after_byte, hin, udec]
        split_ifs <;> omega
      · simp [after_byte, hin]
      · simp [after_byte, hin]
      · simp [after_byte, hin]
      · simp [after_byte, hecho, uart_bytes]
      · intro _ hpos
        simp only [after_byte]
        rw [← g1]
        simp only [g2, if_pos hpos]
        omega
      · intro h
        rcases h with h | h
        · exact absurd h hf
        · simp only [after_byte]
          rw [← g1]
          simp only [g2, h]
          rfl
    · have hf0 : s.cga.flag = 0 := not_not.mp hf
      obtain ⟨g, e1, _, _, _, _, _, g6, _⟩ :=
        step_key s.cga BACKSPACE hf0 (by decide) (by omega)
      rw [if_neg (by omega)] at g6
      rw [e1] at hbyte
      refine ⟨after_byte s c g, by simpa using hbyte, ?_, ?_, ?_, ?_, ?_, ?_, ?_, ?_⟩
      · simp [after_byte, hin]
      · intro h0 hlt
        simp only [after_byte, hin, udec]
        split_ifs <;> omega
      · simp [after_byte, hin]
      · simp [after_byte, hin]
      · simp [after_byte, hin]
      · simp [after_byte, hecho, uart_bytes]
      · intro h; exact absurd hf0 h
      · intro _
        simp only [after_byte]
        omega

/-- C6 amended, instance: a backspace after `ab` has been typed at boot. -/
theorem backspace_edit_typed_ab :
    (typed_ab.input.e = typed_ab.input.w → consoleintr_byte typed_ab 8 = some typed_ab) ∧
    (typed_ab.input.e ≠ typed_ab.input.w → typed_ab.cga.cursor < 1920 →
      ∃ s1, consoleintr_byte typed_ab 8 = some s1 ∧
        s1.input.e = udec typed_ab.input.e ∧
        (0 < typed_ab.input.e → typed_ab.input.e < 4294967296 →
          s1.input.e + 1 = typed_ab.input.e) ∧
        s1.input.r = typed_ab.input.r ∧ s1.input.w = typed_ab.input.w ∧
        s1.input.buf = typed_ab.input.buf ∧
        s1.uart = typed_ab.uart ++ [8, 32, 8] ∧
        (typed_ab.cga.flag ≠ 0 → 0 < typed_ab.cga.cursor →
          s1.cga.cursor + 1 = typed_ab.cga.cursor) ∧
        (typed_ab.cga.flag = 0 ∨ typed_ab.cga.cursor = 0 →
          s1.cga.cursor = typed_ab.cga.cursor)) :=
  backspace_edit typed_ab 8 (Or.inl rfl)

/-! ## Reads that end on an empty buffer -/

/-- A loop of `consoleread` that returns -1 was cancelled on an empty buffer:
the reader was killed, `r` has caught up with `w`, and `r` has advanced past
exactly the bytes copied by this loop. -/
theorem read_loop_killed (killed : Bool) (target : Nat) :
    ∀ (n : Nat) (s : Console) (dst : List Int) (s1 : Console) (d : List Int),
      n ≤ target → s.input.r < 4294967296 →
      consoleread_loop killed target n s dst = ReadResult.returned s1 d (-1) →
      killed = true ∧ s1.input.r = s1.input.w ∧
      ∃ l, d = dst ++ l ∧ s1.input.r = (s.input.r + l.length) % 4294967296 ∧
        (s.input.r = s.input.w → l = [] ∧ s1 = s) := by
  intro n
  induction n with
  | zero =>
    intro s dst s1 d _ _ h
    rw [consoleread_loop] at h
    injection h with _ _ h3
    omega
  | succ n ih =>
    intro s dst s1 d hn hr h
    rw [read_loop_succ] at h
    by_cases h1 : s.input.r = s.input.w
    · rw [if_pos h1] at h
      by_cases hk : killed = true
      · rw [if_pos hk] at h
        injection h with e1 e2 _
        subst e1; subst e2
        exact ⟨hk, h1, [], by simp, by simp only [List.length_nil]; omega,
          fun _ => ⟨rfl, rfl⟩⟩
      · rw [if_neg hk] at h
        cases h
    · rw [if_neg h1] at h
      by_cases h2 : s.input.buf (s.input.r % 128) = CTRL_D
      · rw [if_pos h2] at h
        by_cases h3 : n + 1 < target
        · rw [if_pos h3] at h
          injection h with _ _ e3
          omega
        · rw [if_neg h3] at h
          injection h with _ _ e3
          omega
      · rw [if_neg h2] at h
        by_cases h3 : s.input.buf (s.input.r % 128) = 10
        · rw [if_pos h3] at h
          injection h with _ _ e3
          omega
        · rw [if_neg h3] at h
          obtain ⟨hk, hrw, l, hd, hl, _⟩ := ih _ _ s1 d (by omega)
            (uinc_lt s.input.r) h
          refine ⟨hk, hrw, s.input.buf (s.input.r % 128) :: l, ?_, ?_,
            fun hh => absurd hh h1⟩
          · rw [hd, List.append_assoc, List.singleton_append]
          · rw [hl]
            simp only [uinc, List.length_cons]
            omega

/-- A read that finds only a run of bytes without newline or end of file in
the committed region copies the run and then finds the buffer empty: it
returns -1 when the reader is killed and goes to sleep otherwise. -/
theorem read_run_then_empty (killed : Bool) (target m : Nat) (l : List Int) (s : Console)
    (hr : s.input.r < 4294967296) (hw : s.input.w < 4294967296)
    (hbuf : ∀ j, j < l.length →
      s.input.buf ((s.input.r + j) % 4294967296 % 128) = l.getD j 0)
    (hl : ∀ b ∈ l, b ≠ 4 ∧ b ≠ 10)
    (hlen : l.length = usub s.input.w s.input.r) :
    consoleread_loop killed target (l.length + (m + 1)) s [] =
      (if killed then
        ReadResult.returned
          { s with input := { s.input with r := (s.input.r + l.length) % 4294967296 } }
          l (-1)
      else
        ReadResult.sleeping
          { s with input := { s.input with r := (s.input.r + l.length) % 4294967296 } }
          l (m + 1)) ∧
    (s.input.r + l.length) % 4294967296 = s.input.w := by
  have hrw : (s.input.r + l.length) % 4294967296 = s.input.w := by
    unfold usub at hlen; omega
  refine ⟨?_, hrw⟩
  rw [read_run killed target l s [] (m + 1) hr hw hbuf hl (by omega), List.nil_append,
    read_loop_succ]
  rw [if_pos hrw]

/-- A read of exactly the length of such a run returns the run. -/
theorem read_run_exact (killed : Bool) (l : List Int) (s : Console)
    (hr : s.input.r < 4294967296) (hw : s.input.w < 4294967296)
    (hbuf : ∀ j, j < l.length →
      s.input.buf ((s.input.r + j) % 4294967296 % 128) = l.getD j 0)
    (hl : ∀ b ∈ l, b ≠ 4 ∧ b ≠ 10)
    (hlen : l.length ≤ usub s.input.w s.input.r) :
    consoleread_loop killed l.length l.length s [] =
      ReadResult.returned
        { s with input := { s.input with r := (s.input.r + l.length) % 4294967296 } }
        l (l.length : Int) := by
  have h := read_run killed l.length l s [] 0 hr hw hbuf hl hlen
  rw [Nat.add_zero] at h
  rw [h, List.nil_append, consoleread_loop, Int.sub_zero]

/-- The 128th ordinary byte of a line that fills the buffer signals the one
wakeup. -/
theorem wake_feed_fill (i : Input) (l : List Int)
    (hr : i.r = i.e) (he : i.e < 4294967296)
    (hl : ∀ x ∈ l, ordinary x) (hlen : l.length = 128) :
    wake_feed i l = 1 := by
  have hu : usub i.e i.r = 0 := by rw [hr]; unfold usub; omega
  have h128 : l.take 128 = l := List.take_of_length_le (by omega)
  have hsplit : l = l.take 127 ++ [l.getD 127 0] := by
    conv_lhs => rw [← h128]
    rw [List.take_succ]
    congr 1
    rw [List.getD_eq_getElem?_getD]
    cases h : l[127]? with
    | none => rw [List.getElem?_eq_none_iff] at h; omega
    | some v => rfl
  have ho7 : ∀ b ∈ l.take 127, ordinary b :=
    fun b hbm => hl b (List.mem_of_mem_take hbm)
  have htl7 : (l.take 127).length = 127 := by rw [List.length_take, hlen]; rfl
  obtain ⟨o1, _, o3, _, _, _, o7⟩ := input_feed_ordinary (l.take 127) i ho7 he
    (by rw [hu, htl7])
  rw [htl7] at o3
  have hlast : ordinary (l.getD 127 0) := by
    apply hl
    rw [List.getD_eq_getElem _ _ (by omega)]
    exact List.getElem_mem _
  obtain ⟨h1, h2, h3, h4, h5, h6, h7, h8, h9, h10⟩ := hlast
  rw [hsplit, wake_feed_append, o7]
  simp only [wake_feed]
  unfold wake_byte
  rw [if_neg (by simp only [CTRL_P, CTRL_U, CTRL_H, CTRL_C]; omega),
    if_pos ⟨by omega, by rw [o1, o3, hr]; unfold usub; omega⟩,
    if_pos (show completes _ _ from
      Or.inr (Or.inr (by rw [o1, o3, hr]; unfold uinc; omega)))]

/-- Exactly 128 ordinary bytes fed by `consoleintr` to an empty buffer: the
line is committed by capacity, with one wakeup. -/
theorem feed_fill (s : Console) (l : List Int)
    (hr : s.input.r = s.input.e) (he : s.input.e < 4294967296)
    (hc : s.cga.cursor < 2000)
    (hl : ∀ x ∈ l, ordinary x) (hlen : l.length = 128) :
    ∃ s1, feed s l = some s1 ∧ s1.input.r = s.input.e ∧
      s1.input.w = (s.input.e + 128) % 4294967296 ∧
      s1.input.e = (s.input.e + 128) % 4294967296 ∧
      (∀ j, j < 128 → s1.input.buf ((s.input.e + j) % 4294967296 % 128) = l.getD j 0) ∧
      s1.wakeups = s.wakeups + 1 ∧ s1.cga.cursor < 2000 := by
  obtain ⟨s1, e1, e2, _, e4, e5⟩ := feed_some l s hc
  obtain ⟨p1, p2, p3, p4, _⟩ := input_feed_fill s.input l hr he hl hlen
  refine ⟨s1, e1, ?_, ?_, ?_, ?_, ?_, e5⟩
  · rw [e2, p1]
  · rw [e2, p3]
  · rw [e2, p2]
  · rw [e2]; exact p4
  · rw [e4, wake_feed_fill s.input l hr he hl hlen]

/-- Bytes fed by `consoleintr` keep the state reachable. -/
theorem feed_reach (cs : List Int) :
    ∀ (k : Nat) (s s1 : Console), Reach k s → (∀ c ∈ cs, 0 ≤ c ∧ c ≤ 255) →
      feed s cs = some s1 → Reach (k + cs.length) s1 := by
  induction cs with
  | nil =>
    intro k s s1 h _ hf
    simp only [feed, Option.some.injEq] at hf
    subst hf
    exact h
  | cons c cs ih =>
    intro k s s1 h hc hf
    simp only [feed] at hf
    cases hb : consoleintr_byte s c with
    | none => rw [hb] at hf; simp at hf
    | some s2 =>
      rw [hb] at hf
      simp only [Option.bind_some] at hf
      have h2 := Reach.feed k s s2 c h (hc c (List.mem_cons_self _ _)).1
        (hc c (List.mem_cons_self _ _)).2 hb
      have := ih (k + 1) s2 s1 h2 (fun x hx => hc x (List.mem_cons_of_mem _ hx)) hf
      rw [List.length_cons]
      rw [show k + (cs.length + 1) = k + 1 + cs.length from by omega]
      exact this

/-! ## Cancellation of a read -/

theorem boot_at_reach (cur : Nat) : Reach 0 (boot_at cur) :=
  Reach.boot _ (by simp [Boot, boot_at])

theorem replicate_ordinary (k : Nat) : ∀ x ∈ List.replicate k (97 : Int), ordinary x := by
  intro x hx
  rw [List.eq_of_mem_replicate hx]
  decide

theorem ordinary_plain (l : List Int) (hl : ∀ x ∈ l, ordinary x) :
    ∀ b ∈ l, b ≠ 4 ∧ b ≠ 10 := by
  intro b hb
  obtain ⟨_, _, _, h4, _, _, h7, _⟩ := hl b hb
  exact ⟨h4, h7⟩

/-- C11, counterexample: 128 bytes `a` typed at boot complete a line by
capacity.  A killed reader asking for 200 bytes copies the 128 bytes, finds
the buffer empty and returns -1: the read index has moved from 0 to 128, so
the bytes are consumed although the call reports cancellation. -/
theorem cancelled_read_consumes_capacity_line :
    ∃ s0 s1 dst, Reach 128 s0 ∧ feed (boot_at 1000) (List.replicate 128 97) = some s0 ∧
      consoleread s0 200 true = ReadResult.returned s1 dst (-1) ∧
      s0.input.r = 0 ∧ s1.input.r = 128 ∧ dst = List.replicate 128 97 := by
  obtain ⟨s0, e0, hr, hw, _, hb, _, _⟩ := feed_fill (boot_at 1000) (List.replicate 128 97)
    rfl (by decide) (by decide) (replicate_ordinary 128) (List.length_replicate 128 97)
  have hr0 : s0.input.r = 0 := hr
  have hw0 : s0.input.w = 128 := hw
  have hlen : (List.replicate 128 (97 : Int)).length = 128 := List.length_replicate 128 97
  have hrun := read_run_then_empty true 200 71 (List.replicate 128 97) s0
    (by omega) (by omega)
    (by
      intro j hj
      rw [hlen] at hj
      have := hb j hj
      rw [hr0]
      simpa [boot_at] using this)
    (ordinary_plain _ (replicate_ordinary 128))
    (by rw [hlen, hr0, hw0]; unfold usub; omega)
  have hreach := feed_reach (List.replicate 128 97) 0 (boot_at 1000) s0 (boot_at_reach 1000)
    (fun c hc => by rw [List.eq_of_mem_replicate hc]; decide) e0
  rw [hlen] at hrun hreach
  refine ⟨s0, _, _, by simpa using hreach, e0, hrun.1, hr0, ?_, rfl⟩
  simp only [hr0]

/-- A run of the loop of `consoleread` from a point at which the reader holds
the lock, ending in the return of -1: the reader was killed, only `r` has
changed, by one for each byte copied in this run, and it has reached `w`. -/
theorem read_segment_cancelled (k : Bool) (target n : Nat) (t s1 : Console)
    (d0 dst : List Int) (hn : n ≤ target) (hr : t.input.r < 4294967296)
    (h : consoleread_loop k target n t d0 = ReadResult.returned s1 dst (-1)) :
    k = true ∧ s1.input.w = t.input.w ∧ s1.input.e = t.input.e ∧
    s1.input.buf = t.input.buf ∧ s1.cga = t.cga ∧ s1.uart = t.uart ∧
    s1.wakeups = t.wakeups ∧ s1.input.r = s1.input.w ∧
    (∃ l, dst = d0 ++ l ∧ s1.input.r = (t.input.r + l.length) % 4294967296) ∧
    (t.input.r = t.input.w → s1 = t ∧ dst = d0) := by
  obtain ⟨f1, f2, f3, f4, f5, f6⟩ := read_loop_frame k target n t d0
  rw [h] at f1 f2 f3 f4 f5 f6
  simp only [ReadResult.state] at f1 f2 f3 f4 f5 f6
  obtain ⟨hk, hrw, l, hd, hl, hz⟩ := read_loop_killed k target n t d0 s1 dst hn hr h
  refine ⟨hk, f5, f6, f4, f1, f2, f3, hrw, ⟨l, hd, hl⟩, fun he => ?_⟩
  obtain ⟨z1, z2⟩ := hz he
  refine ⟨z2, ?_⟩
  rw [hd, z1, List.append_nil]

/-- A run of the loop that ends asleep still wants at most the bytes it
wanted when it started. -/
theorem read_loop_sleep_le (k : Bool) (target : Nat) :
    ∀ (n : Nat) (s : Console) (dst : List Int) (s1 : Console) (d : List Int) (m : Nat),
      consoleread_loop k target n s dst = ReadResult.sleeping s1 d m → m ≤ n := by
  intro n
  induction n with
  | zero =>
    intro s dst s1 d m h
    rw [consoleread_loop] at h
    cases h
  | succ n ih =>
    intro s dst s1 d m h
    rw [read_loop_succ] at h
    split_ifs at h with h1 h2 h3 h4 h5
    all_goals first
      | (cases h; done)
      | (cases h; omega)
      | exact Nat.le_succ_of_le (ih _ _ s1 d m h)

theorem wake_sleep_le (target : Nat) (k : Bool) (wake : Console → Console)
    (res : ReadResult)
    (hres : ∀ s d m, res = ReadResult.sleeping s d m → m ≤ target) :
    ∀ s d m, consoleread_wake target k wake res = ReadResult.sleeping s d m → m ≤ target := by
  intro s d m h
  cases res with
  | returned s0 d0 r0 =>
    simp only [consoleread_wake] at h
    cases h
  | sleeping s0 d0 m0 =>
    simp only [consoleread_wake] at h
    have h1 := read_loop_sleep_le k target m0 (wake s0) d0 s d m h
    have h2 := hres s0 d0 m0 rfl
    omega

/-- A call that is asleep after any number of wake-ups wants at most the
`max_len` bytes of the call. -/
theorem sleeps_le (s : Console) (n : Int) (killed : Bool)
    (ws : List (Bool × (Console → Console))) :
    ∀ s0 d m, consoleread_sleeps s n killed ws = ReadResult.sleeping s0 d m →
      m ≤ n.toNat := by
  unfold consoleread_sleeps
  have haux : ∀ (ws : List (Bool × (Console → Console))) (res : ReadResult),
      (∀ s d m, res = ReadResult.sleeping s d m → m ≤ n.toNat) →
      ∀ s0 d m, ws.foldl (fun res w => consoleread_wake n.toNat w.1 w.2 res) res
        = ReadResult.sleeping s0 d m → m ≤ n.toNat := by
    intro ws
    induction ws with
    | nil =>
      intro res hres s0 d m h
      exact hres s0 d m h
    | cons w ws ih =>
      intro res hres s0 d m h
      simp only [List.foldl_cons] at h
      exact ih _ (wake_sleep_le n.toNat w.1 w.2 res hres) s0 d m h
  apply haux ws
  intro s0 d m h
  exact read_loop_sleep_le killed n.toNat n.toNat s [] s0 d m h

/-- One more wake-up of a call that is asleep. -/
theorem sleeps_snoc (s : Console) (n : Int) (killed k : Bool)
    (ws : List (Bool × (Console → Console))) (wake : Console → Console)
    (s0 : Console) (d0 : List Int) (m : Nat)
    (h : consoleread_sleeps s n killed ws = ReadResult.sleeping s0 d0 m) :
    consoleread_sleeps s n killed (ws ++ [(k, wake)])
      = consoleread_loop k n.toNat m (wake s0) d0 := by
  unfold consoleread_sleeps at h ⊢
  rw [List.foldl_append, h]
  rfl

/-- The console after 128 bytes `a` are typed at boot, and a killed reader of
length 200 that takes the lock in that state: it copies the 128 bytes and
returns -1 with `r` at 128. -/
theorem typing_128_a_at_boot :
    (typing_128_a (boot_at 1000)).input.r = 0 ∧
    (typing_128_a (boot_at 1000)).input.w = 128 ∧
    consoleread_loop true 200 200 (typing_128_a (boot_at 1000)) [] =
      ReadResult.returned
        { typing_128_a (boot_at 1000) with
          input := { (typing_128_a (boot_at 1000)).input with
                     r := ((typing_128_a (boot_at 1000)).input.r + 128) % 4294967296 } }
        (List.replicate 128 97) (-1) := by
  obtain ⟨s0, e0, hr, hw, _, hb, _, _⟩ := feed_fill (boot_at 1000) (List.replicate 128 97)
    rfl (by decide) (by decide) (replicate_ordinary 128) (List.length_replicate 128 97)
  have ht : typing_128_a (boot_at 1000) = s0 := by
    unfold typing_128_a
    rw [e0]
    rfl
  have hr0 : s0.input.r = 0 := hr
  have hw0 : s0.input.w = 128 := hw
  have hlen : (List.replicate 128 (97 : Int)).length = 128 := List.length_replicate 128 97
  have hrun := read_run_then_empty true 200 71 (List.replicate 128 97) s0
    (by omega) (by omega)
    (by
      intro j hj
      rw [hlen] at hj
      have := hb j hj
      rw [hr0]
      simpa [boot_at] using this)
    (ordinary_plain _ (replicate_ordinary 128))
    (by rw [hlen, hr0, hw0]; unfold usub; omega)
  rw [hlen] at hrun
  rw [ht]
  exact ⟨hr0, hw0, hrun.1⟩

/-- C11, amended: whenever `consoleread` returns -1 the reader was killed, and
relative to the moment it last took the lock (the start of the call when it
never slept, otherwise its last wake-up, the console then being whatever the
sleep left) `w`, `e`, the storage, the screen, the serial output and the
wakeup count are unchanged, and `r` has advanced exactly past the bytes
copied since, which brought it to `w`.  When the buffer was empty at that
moment (`r == w`), as for a reader that is killed while it is blocked, nothing
was copied since and the whole state is as it was at that moment. -/
theorem cancellation_keeps_uncopied_state (s : Console) (n : Int) (killed k : Bool)
    (ws : List (Bool × (Console → Console))) (wake : Console → Console)
    (s0 s1 s2 : Console) (d0 dst1 dst2 : List Int) (m : Nat) :
    (s.input.r < 4294967296 →
      consoleread s n killed = ReadResult.returned s1 dst1 (-1) →
      killed = true ∧ s1.input.w = s.input.w ∧ s1.input.e = s.input.e ∧
      s1.input.buf = s.input.buf ∧ s1.cga = s.cga ∧ s1.uart = s.uart ∧
      s1.wakeups = s.wakeups ∧ s1.input.r = s1.input.w ∧
      s1.input.r = (s.input.r + dst1.length) % 4294967296 ∧
      (s.input.r = s.input.w → s1 = s ∧ dst1 = [])) ∧
    (consoleread_sleeps s n killed ws = ReadResult.sleeping s0 d0 m →
      (wake s0).input.r < 4294967296 →
      consoleread_sleeps s n killed (ws ++ [(k, wake)])
        = ReadResult.returned s2 dst2 (-1) →
      k = true ∧ s2.input.w = (wake s0).input.w ∧ s2.input.e = (wake s0).input.e ∧
      s2.input.buf = (wake s0).input.buf ∧ s2.cga = (wake s0).cga ∧
      s2.uart = (wake s0).uart ∧ s2.wakeups = (wake s0).wakeups ∧
      s2.input.r = s2.input.w ∧
      (∃ l, dst2 = d0 ++ l ∧
        s2.input.r = ((wake s0).input.r + l.length) % 4294967296) ∧
      ((wake s0).input.r = (wake s0).input.w → s2 = wake s0 ∧ dst2 = d0)) := by
  constructor
  · intro hr h
    unfold consoleread at h
    obtain ⟨a1, a2, a3, a4, a5, a6, a7, a8, ⟨l, hd, hl⟩, a10⟩ :=
      read_segment_cancelled killed n.toNat n.toNat s s1 [] dst1 (le_refl _) hr h
    rw [List.nil_append] at hd
    subst hd
    exact ⟨a1, a2, a3, a4, a5, a6, a7, a8, hl, a10⟩
  · intro hsleep hr h
    rw [sleeps_snoc s n killed k ws wake s0 d0 m hsleep] at h
    exact read_segment_cancelled k n.toNat m (wake s0) s2 d0 dst2
      (sleeps_le s n killed ws s0 d0 m hsleep) hr h

/-- C11, instance: a reader of length 200 goes to sleep on the empty buffer at
boot; 128 bytes `a` are typed while it sleeps; it is killed and woken.  It
copies the 128 bytes and returns -1: `w`, `e` and the storage are those the
typing left, not those of the start of the call, and `r` has gone from 0 to
128.  The same reader starting in the state after the typing, without
sleeping, does the same. -/
theorem cancellation_after_typing_128_a :
    ∃ s2, consoleread_sleeps (boot_at 1000) 200 false ([] ++ [(true, typing_128_a)])
        = ReadResult.returned s2 (List.replicate 128 97) (-1) ∧
      consoleread (typing_128_a (boot_at 1000)) 200 true
        = ReadResult.returned s2 (List.replicate 128 97) (-1) ∧
      s2.input.w = (typing_128_a (boot_at 1000)).input.w ∧
      s2.input.e = (typing_128_a (boot_at 1000)).input.e ∧
      s2.input.buf = (typing_128_a (boot_at 1000)).input.buf ∧
      s2.input.r = s2.input.w ∧
      (typing_128_a (boot_at 1000)).input.r = 0 ∧ s2.input.r = 128 ∧
      (typing_128_a (boot_at 1000)).input.w ≠ (boot_at 1000).input.w := by
  obtain ⟨hr0, hw0, hrun⟩ := typing_128_a_at_boot
  have hsl : consoleread_sleeps (boot_at 1000) 200 false []
      = ReadResult.sleeping (boot_at 1000) [] 200 := rfl
  have key : ∀ X : Console,
      consoleread_loop true 200 200 (typing_128_a (boot_at 1000)) []
        = ReadResult.returned X (List.replicate 128 97) (-1) →
      consoleread_sleeps (boot_at 1000) 200 false ([] ++ [(true, typing_128_a)])
        = ReadResult.returned X (List.replicate 128 97) (-1) ∧
      consoleread (typing_128_a (boot_at 1000)) 200 true
        = ReadResult.returned X (List.replicate 128 97) (-1) ∧
      X.input.w = (typing_128_a (boot_at 1000)).input.w ∧
      X.input.e = (typing_128_a (boot_at 1000)).input.e ∧
      X.input.buf = (typing_128_a (boot_at 1000)).input.buf ∧
      X.input.r = X.input.w ∧
      (typing_128_a (boot_at 1000)).input.r = 0 ∧ X.input.r = 128 ∧
      (typing_128_a (boot_at 1000)).input.w ≠ (boot_at 1000).input.w := by
    intro X hX
    have hret : consoleread_sleeps (boot_at 1000) 200 false ([] ++ [(true, typing_128_a)])
        = ReadResult.returned X (List.replicate 128 97) (-1) := by
      rw [sleeps_snoc (boot_at 1000) 200 false true [] typing_128_a (boot_at 1000) [] 200 hsl]
      exact hX
    obtain ⟨_, b2, b3, b4, _, _, _, b8, _, _⟩ :=
      (cancellation_keeps_uncopied_state (boot_at 1000) 200 false true [] typing_128_a
        (boot_at 1000) (boot_at 1000) X [] [] (List.replicate 128 97) 200).2
        hsl (by rw [hr0]; decide) hret
    obtain ⟨_, _, _, _, _, _, _, _, c9, _⟩ :=
      (cancellation_keeps_uncopied_state (typing_128_a (boot_at 1000)) 200 true true []
        typing_128_a (boot_at 1000) X X [] (List.replicate 128 97)
        (List.replicate 128 97) 200).1 (by rw [hr0]; decide) hX
    refine ⟨hret, hX, b2, b3, b4, b8, hr0, ?_, ?_⟩
    · rw [c9, hr0, List.length_replicate]
    · rw [hw0]
      decide
  exact ⟨_, key _ hrun⟩

/-! ## End of file met by a read -/

/-- The 81 cell offsets of the overlay anchored at the cursor `pos`, for a
cursor on rows 0 to 23: all of them are below 2000, and all of them are at
least 0 exactly when the anchor is at least 719, that is, from row 9 on (or
from column 79 of row 8). -/
theorem footprint_on_screen_iff (pos : Int) (h0 : 0 ≤ pos) (h1 : pos ≤ 1919) :
    (∀ i j : Nat, i < 9 → j < 9 →
      cell_index (anchor pos) (80 * ((i : Int) + 1)) j < 2000) ∧
    ((∀ i j : Nat, i < 9 → j < 9 →
      0 ≤ cell_index (anchor pos) (80 * ((i : Int) + 1)) j) ↔ 719 ≤ anchor pos) := by
  have ha : anchor pos ≤ pos := by unfold anchor; split_ifs <;> omega
  refine ⟨?_, ?_, ?_⟩
  · intro i j hi hj
    unfold cell_index
    omega
  · intro h
    have := h 8 0 (by omega) (by omega)
    unfold cell_index at this
    omega
  · intro h i j hi hj
    unfold cell_index
    omega

/-- C14, evaluation at the failing input: with the cursor at cell 0 and the
overlay hidden, the hotkey anchors the overlay at 0; the offset used for row 8,
column 0 of the menu is `0 - (720 - 0 - 1) = -719`, before the first cell of
the display, and the plot overwrites that cell (0 before the call) with the
menu character `-` in the menu attribute. -/
theorem overlay_footprint_before_first_cell :
    anchor 0 = 0 ∧ cell_index (anchor 0) 720 0 = -719 ∧ in_footprint (anchor 0) (-719) ∧
    ∃ s1, cgaputc (boot_at 0).cga CTRL_C = some s1 ∧ s1.newPos = 0 ∧
      (boot_at 0).cga.crt (-719) = 0 ∧ s1.crt (-719) = 28717 := by
  refine ⟨by decide, by decide, by decide, ?_⟩
  obtain ⟨s1, e1, _, e3, _, _, _, _, e8⟩ := step_show (boot_at 0).cga rfl (by decide)
  refine ⟨s1, e1, e3, rfl, ?_⟩
  rw [e8 (by decide) (-719), draw_loop_eq]
  decide

/-! ## Two readers and one line -/

/-- A reader that finds exactly one line ending in a newline returns it and
leaves the buffer empty; a second reader then goes to sleep with nothing
copied. -/
theorem read_line_then_sleep (s : Console) (l : List Int) (n1 n2 : Int)
    (hr : s.input.r < 4294967296) (hw : s.input.w < 4294967296)
    (hbuf : ∀ j, j < l.length →
      s.input.buf ((s.input.r + j) % 4294967296 % 128) = l.getD j 0)
    (hnl : s.input.buf ((s.input.r + l.length) % 4294967296 % 128) = 10)
    (hl : ∀ b ∈ l, b ≠ 4 ∧ b ≠ 10)
    (hone : usub s.input.w s.input.r = l.length + 1)
    (hn1 : (l.length : Int) + 1 ≤ n1) (hn2 : 1 ≤ n2) :
    ∃ s1, consoleread s n1 false
        = ReadResult.returned s1 (l ++ [10]) ((l.length : Int) + 1) ∧
      s1.input.r = s1.input.w ∧ s1.input.w = s.input.w ∧
      consoleread s1 n2 false = ReadResult.sleeping s1 [] n2.toNat := by
  have h1 := read_to_newline false n1.toNat n1.toNat l s hr hw hbuf hnl hl
    (by omega) (by omega)
  have hret : ((n1.toNat : Int) - ((n1.toNat - (l.length + 1) : Nat) : Int))
      = (l.length : Int) + 1 := by omega
  rw [hret] at h1
  have hrw : (s.input.r + (l.length + 1)) % 4294967296 = s.input.w := by
    unfold usub at hone; omega
  refine ⟨_, h1, hrw, rfl, ?_⟩
  obtain ⟨m, hm⟩ : ∃ m : Nat, n2.toNat = m + 1 := ⟨n2.toNat - 1, by omega⟩
  unfold consoleread
  rw [hm, read_loop_succ, if_pos hrw]
  rfl

/-- C15, counterexample: two lines that are complete without a newline.
With `a` and an end of file committed, the first reader (length 5) returns
`a` but leaves `r` one short of `w`, and the second reader does not stay
blocked: it returns zero bytes.  With 128 bytes `a` committed by capacity,
the first reader (length 200) copies them and goes to sleep: no reader
returns the line. -/
theorem second_reader_not_blocked_after_eof_line :
    (∃ s1 s2, typed_a_eof.input.r = 0 ∧ typed_a_eof.input.w = 2 ∧
      consoleread typed_a_eof 5 false = ReadResult.returned s1 [97] 1 ∧
      s1.input.r ≠ s1.input.w ∧
      consoleread s1 5 false = ReadResult.returned s2 [] 0) ∧
    (∃ s0 s1, feed (boot_at 1000) (List.replicate 128 97) = some s0 ∧
      s0.input.r = 0 ∧ s0.input.w = 128 ∧
      consoleread s0 200 false = ReadResult.sleeping s1 (List.replicate 128 97) 72) := by
  refine ⟨⟨_, _, rfl, rfl, rfl, by decide, rfl⟩, ?_⟩
  obtain ⟨s0, e0, hr, hw, _, hb, _, _⟩ := feed_fill (boot_at 1000) (List.replicate 128 97)
    rfl (by decide) (by decide) (replicate_ordinary 128) (List.length_replicate 128 97)
  have hr0 : s0.input.r = 0 := hr
  have hw0 : s0.input.w = 128 := hw
  have hlen : (List.replicate 128 (97 : Int)).length = 128 := List.length_replicate 128 97
  have hrun := read_run_then_empty false 200 71 (List.replicate 128 97) s0
    (by omega) (by omega)
    (by
      intro j hj
      rw [hlen] at hj
      have := hb j hj
      rw [hr0]
      simpa [boot_at] using this)
    (ordinary_plain _ (replicate_ordinary 128))
    (by rw [hlen, hr0, hw0]; unfold usub; omega)
  rw [hlen] at hrun
  exact ⟨s0, _, e0, hr0, hw0, hrun.1⟩

/-- C15, amended: exactly one line ending in a newline is committed (a run
`l` without newline or end of file, then the newline, and `w - r` is its
length), and two readers ask for at least that many bytes.  Whichever
reader runs first returns the line and leaves `r == w`; the other reader,
running next, finds no data and goes to sleep with nothing copied. -/
theorem single_delivery_of_newline_line (s : Console) (l : List Int) (n1 n2 : Int)
    (hr : s.input.r < 4294967296) (hw : s.input.w < 4294967296)
    (hbuf : ∀ j, j < l.length →
      s.input.buf ((s.input.r + j) % 4294967296 % 128) = l.getD j 0)
    (hnl : s.input.buf ((s.input.r + l.length) % 4294967296 % 128) = 10)
    (hl : ∀ b ∈ l, b ≠ 4 ∧ b ≠ 10)
    (hone : usub s.input.w s.input.r = l.length + 1)
    (hn1 : (l.length : Int) + 1 ≤ n1) (hn2 : (l.length : Int) + 1 ≤ n2) :
    (∃ s1, consoleread s n1 false
        = ReadResult.returned s1 (l ++ [10]) ((l.length : Int) + 1) ∧
      s1.input.r = s1.input.w ∧
      consoleread s1 n2 false = ReadResult.sleeping s1 [] n2.toNat) ∧
    (∃ s1, consoleread s n2 false
        = ReadResult.returned s1 (l ++ [10]) ((l.length : Int) + 1) ∧
      s1.input.r = s1.input.w ∧
      consoleread s1 n1 false = ReadResult.sleeping s1 [] n1.toNat) := by
  obtain ⟨s1, a1, a2, _, a4⟩ :=
    read_line_then_sleep s l n1 n2 hr hw hbuf hnl hl hone hn1 (by omega)
  obtain ⟨t1, b1, b2, _, b4⟩ :=
    read_line_then_sleep s l n2 n1 hr hw hbuf hnl hl hone hn2 (by omega)
  exact ⟨⟨s1, a1, a2, a4⟩, ⟨t1, b1, b2, b4⟩⟩

/-- C15, instance: the line `ab` with its newline typed at boot, one reader
of length 3 and one of length 5. -/
theorem single_delivery_typed_line :
    (∃ s1, consoleread typed_line 3 false
        = ReadResult.returned s1 ([97, 98] ++ [10]) ((([97, 98] : List Int).length : Int) + 1) ∧
      s1.input.r = s1.input.w ∧
      consoleread s1 5 false = ReadResult.sleeping s1 [] (5 : Int).toNat) ∧
    (∃ s1, consoleread typed_line 5 false
        = ReadResult.returned s1 ([97, 98] ++ [10]) ((([97, 98] : List Int).length : Int) + 1) ∧
      s1.input.r = s1.input.w ∧
      consoleread s1 3 false = ReadResult.sleeping s1 [] (3 : Int).toNat) :=
  single_delivery_of_newline_line typed_line [97, 98] 3 5 (by decide) (by decide)
    (by decide) (by decide) (by decide) (by decide) (by decide) (by decide)

/-! ## The selection -/

theorem move_selected_down (sel c : Int) (hc : c = 115 ∨ c = 83)
    (h : sel = 1 ∨ sel = 3 ∨ sel = 5 ∨ sel = 7) :
    move_selected sel c = (sel + 6) % 8 := by
  unfold move_selected
  rw [if_neg (by omega), if_pos (by omega)]
  rcases h with h | h | h | h <;> subst h <;> decide

theorem move_selected_other (sel c : Int)
    (hc : c ≠ 119 ∧ c ≠ 87 ∧ c ≠ 115 ∧ c ≠ 83) : move_selected sel c = sel := by
  unfold move_selected
  rw [if_neg (by omega), if_neg (by omega)]

/-- What one call of `cgaputc` does to `selected` and `flag`. -/
theorem step_selected (s s1 : Cga) (c : Int) (h : cgaputc s c = some s1) :
    s1.selected = (if s.flag = 0 then move_selected s.selected c else s.selected) ∧
    (c ≠ CTRL_C → s1.flag = s.flag) := by
  unfold cgaputc at h
  obtain ⟨_, _, _, _, _, f6, f7, _, _⟩ := finish_inv _ _ _ h
  obtain ⟨m1, _, _, _, _, m6, m7⟩ := menu_fields (cgaputc_char s c).2 c
  rw [f7, f6, m1]
  rcases char_fields s c with ⟨c1, c2, c3, _, c5⟩ | ⟨c1, c2, c3, _, c5⟩ | ⟨c1, c3, _, c5⟩
  · refine ⟨?_, fun hne => absurd c1 hne⟩
    rw [if_neg c2]
    by_cases hz : (cgaputc_char s c).2.flag = 0
    · rw [m6 hz, c5, c1, move_selected_hotkey]
    · rw [(m7 hz).1, c5]
  · refine ⟨?_, fun hne => absurd c1 hne⟩
    rw [if_pos c2, (m7 (by rw [c3]; decide)).1, c5, c1, move_selected_hotkey]
  · refine ⟨?_, fun _ => c3⟩
    by_cases hz : s.flag = 0
    · rw [if_pos hz, m6 (by rw [c3]; exact hz), c5]
    · rw [if_neg hz, (m7 (by rw [c3]; exact hz)).1, c5]

/-- C16: in every state reached from boot by calls of `cgaputc`, `selected`
is 1, 3, 5 or 7 and, unless the state is the boot state itself with the
cursor off the screen, every call of `cgaputc` returns.  While the overlay is
shown (`flag == 0`), `w` and `W` give `(selected + 2) mod 8` (1 to 3, 3 to 5,
5 to 7, 7 to 1), `s` and `S` give `(selected + 6) mod 8` (7 to 5, 5 to 3,
3 to 1, 1 to 7), `s` or `S` after `w` or `W` gives back the value before, and
every other value leaves `selected` as it is.  While the overlay is hidden
(`flag == 1`) no value changes it. -/
theorem selection_stepping (s0 s : Cga) (cs : List Int) (hboot : CgaBoot s0)
    (hreach : cgaputs s0 cs = some s) :
    (s.selected = 1 ∨ s.selected = 3 ∨ s.selected = 5 ∨ s.selected = 7) ∧
    ((cs ≠ [] ∨ s.cursor < 2000) → ∀ c, ∃ s1, cgaputc s c = some s1) ∧
    (∀ c s1, cgaputc s c = some s1 →
      (s.flag = 0 → (c = 119 ∨ c = 87) → s1.selected = (s.selected + 2) % 8) ∧
      (s.flag = 0 → (c = 115 ∨ c = 83) → s1.selected = (s.selected + 6) % 8) ∧
      (s.flag = 0 → c ≠ 119 ∧ c ≠ 87 ∧ c ≠ 115 ∧ c ≠ 83 → s1.selected = s.selected) ∧
      (s.flag = 1 → s1.selected = s.selected)) ∧
    (∀ c d s1 s2, s.flag = 0 → (c = 119 ∨ c = 87) → (d = 115 ∨ d = 83) →
      cgaputc s c = some s1 → cgaputc s1 d = some s2 → s2.selected = s.selected) := by
  obtain ⟨⟨_, hsel, _⟩, hcur⟩ := cgaputs_inv cs s0 s (cgaboot_inv s0 hboot) hreach
  refine ⟨hsel, ?_, ?_, ?_⟩
  · intro h c
    have hlt : s.cursor < 2000 := by
      rcases h with h | h
      · have := (hcur h).2; omega
      · exact h
    obtain ⟨s1, e1, _⟩ := cgaputc_cursor_on s c hlt
    exact ⟨s1, e1⟩
  · intro c s1 h
    obtain ⟨h1, _⟩ := step_selected s s1 c h
    refine ⟨?_, ?_, ?_, ?_⟩
    · intro hf hc
      rw [h1, if_pos hf, move_selected_up _ _ hc hsel]
    · intro hf hc
      rw [h1, if_pos hf, move_selected_down _ _ hc hsel]
    · intro hf hc
      rw [h1, if_pos hf, move_selected_other _ _ hc]
    · intro hf
      rw [h1, if_neg (by rw [hf]; decide)]
  · intro c d s1 s2 hf hc hd e1 e2
    obtain ⟨h1, h2⟩ := step_selected s s1 c e1
    obtain ⟨h3, _⟩ := step_selected s1 s2 d e2
    have hf1 : s1.flag = 0 := by
      rw [h2 (by unfold CTRL_C; omega), hf]
    rw [h3, if_pos hf1, h1, if_pos hf, move_selected_up _ _ hc hsel]
    have hm : (s.selected + 2) % 8 = 1 ∨ (s.selected + 2) % 8 = 3 ∨
        (s.selected + 2) % 8 = 5 ∨ (s.selected + 2) % 8 = 7 := by omega
    rw [move_selected_down _ _ hd hm]
    omega

/-- C16, instance: the state after the hotkey is plotted at boot with the
cursor at cell 1000. -/
theorem selection_stepping_shown_at_1000 :
    CgaBoot (boot_at 1000).cga ∧ shown_at_1000.flag = 0 ∧ shown_at_1000.selected = 7 ∧
    (∃ s1, cgaputc shown_at_1000 119 = some s1 ∧ s1.selected = 1) :=
  ⟨by simp [CgaBoot, boot_at], rfl, rfl,
    ⟨(cgaputc shown_at_1000 119).getD shown_at_1000, rfl,
      ((selection_stepping (boot_at 1000).cga shown_at_1000 [CTRL_C]
        (by simp [CgaBoot, boot_at]) rfl).2.2.1 119 _ rfl).1 rfl (Or.inl rfl)⟩⟩

/-! ## Plots while the overlay is shown -/

/-- C17, counterexample: at boot with the cursor register at 2000 the hotkey
shows the overlay and scrolls, leaving the cursor at cell 1920 on row 24.
In that state, with the overlay shown, the plot of `a` scrolls again: the
cursor moves from 1920 to 1840, and cell 1121, which is outside the overlay
(anchored at 2000, first cell 1281) and is not the cursor cell, changes from
0 to the value of cell 1201. -/
theorem shown_plot_scrolls_on_row_24 :
    ∃ s s1, cgaputs (boot_at 2000).cga [CTRL_C] = some s ∧ s.flag = 0 ∧
      s.cursor = 1920 ∧ s.newPos = 2000 ∧ cgaputc s 97 = some s1 ∧
      s1.cursor = 1840 ∧ ¬ in_footprint s.newPos 1121 ∧
      s.crt 1121 = 0 ∧ s1.crt 1121 = 28717 :=
  ⟨_, _, rfl, rfl, rfl, rfl, rfl, rfl, by decide, rfl, rfl⟩

/-- C17, amended: with the overlay shown and the cursor on rows 0 to 23, the
plot of any value other than the hotkey leaves the cursor, the colour, the
anchor, the backing store and the shown state as they are; every cell
outside the overlay other than the cursor cell is unchanged; and every cell
after the plot is the blank at the cursor, a cell of the menu, or its old
content, so the plotted character is written nowhere. -/
theorem shown_suppresses_writes (s : Cga) (c : Int) (hf : s.flag = 0)
    (hc : c ≠ CTRL_C) (hp : s.cursor ≤ 1919) :
    ∃ s1, cgaputc s c = some s1 ∧ s1.cursor = s.cursor ∧ s1.color = s.color ∧
      s1.newPos = s.newPos ∧ s1.back = s.back ∧ s1.flag = 0 ∧
      (∀ x, ¬ in_footprint s.newPos x → x ≠ (s.cursor : Int) → s1.crt x = s.crt x) ∧
      (∀ x, s1.crt x =
        if x = (s.cursor : Int) then 1824
        else if in_footprint s.newPos x then
          menu_cell (move_selected s.selected c)
            (8 - ((x - (s.newPos - 719)) / 80).toNat) ((x - (s.newPos - 719)) % 80).toNat
        else s.crt x) := by
  obtain ⟨s1, e1, a1, a2, a3, _, a5, a6, a7⟩ := step_key s c hf hc (by omega)
  have hcur : s1.cursor = s.cursor := by
    rw [if_neg (by omega)] at a6
    omega
  have hcrt : ∀ x, s1.crt x =
      if x = (s.cursor : Int) then 1824
      else if in_footprint s.newPos x then
        menu_cell (move_selected s.selected c)
          (8 - ((x - (s.newPos - 719)) / 80).toNat) ((x - (s.newPos - 719)) % 80).toNat
      else s.crt x := by
    intro x
    rw [a7 (by omega) x, draw_loop_eq]
  refine ⟨s1, e1, hcur, a5, a2, a3, a1, ?_, hcrt⟩
  intro x hx hxc
  rw [hcrt x, if_neg hxc, if_neg hx]

/-- C17, instance: the overlay shown at boot with the cursor at cell 1000,
and the plot of `a`. -/
theorem shown_suppresses_writes_at_1000 :
    ∃ s1, cgaputc shown_at_1000 97 = some s1 ∧ s1.cursor = shown_at_1000.cursor ∧
      s1.color = shown_at_1000.color ∧ s1.newPos = shown_at_1000.newPos ∧
      s1.back = shown_at_1000.back ∧ s1.flag = 0 ∧
      (∀ x, ¬ in_footprint shown_at_1000.newPos x → x ≠ (shown_at_1000.cursor : Int) →
        s1.crt x = shown_at_1000.crt x) ∧
      (∀ x, s1.crt x =
        if x = (shown_at_1000.cursor : Int) then 1824
        else if in_footprint shown_at_1000.newPos x then
          menu_cell (move_selected shown_at_1000.selected 97)
            (8 - ((x - (shown_at_1000.newPos - 719)) / 80).toNat)
            ((x - (shown_at_1000.newPos - 719)) % 80).toNat
        else shown_at_1000.crt x) :=
  shown_suppresses_writes shown_at_1000 97 rfl (by decide) (by decide)

/-! ## Plots while the overlay is hidden -/

/-- C18, counterexample: with the overlay hidden and the cursor at cell 1840,
the first cell of row 23 and below 1919, a newline gives `pos = 1920`, the
screen scrolls and the cursor is written back as 1840, not as
`1840 + 80 - 1840 mod 80 = 1920`. -/
theorem newline_on_row_23_keeps_cursor_row :
    ∃ s1, (boot_at 1840).cga.flag = 1 ∧ (boot_at 1840).cga.cursor = 1840 ∧
      cgaputc (boot_at 1840).cga 10 = some s1 ∧ s1.cursor = 1840 ∧
      (1840 : Int) + 80 - 1840 % 80 = 1920 :=
  ⟨_, rfl, rfl, rfl, rfl, by decide⟩

/-- C18, amended: with the overlay hidden and the cursor below cell 1919, a
value that is not newline, `BACKSPACE` or the hotkey is stored as
`(c & 0xff) | color` at the cursor cell, the cursor advances by one, and
every other cell but the new cursor cell (which is blanked) is unchanged.  A
newline on rows 0 to 22 (cursor below 1840) moves the cursor to
`pos + 80 - pos mod 80`, and `BACKSPACE` moves it left by one when `pos > 0`
and leaves it at 0 otherwise; both leave every cell but the new cursor cell
unchanged. -/
theorem plot_while_hidden (s : Cga) (c : Int) (hf : s.flag ≠ 0) (hp : s.cursor < 1919) :
    (c ≠ 10 ∧ c ≠ BACKSPACE ∧ c ≠ CTRL_C →
      ∃ s1, cgaputc s c = some s1 ∧ s1.cursor = s.cursor + 1 ∧
        s1.crt (s.cursor : Int) = ((c % 256).toNat ||| s.color) % 65536 ∧
        s1.crt ((s.cursor : Int) + 1) = 1824 ∧
        ∀ x, x ≠ (s.cursor : Int) → x ≠ (s.cursor : Int) + 1 → s1.crt x = s.crt x) ∧
    (c = 10 → s.cursor < 1840 →
      ∃ s1, cgaputc s c = some s1 ∧
        (s1.cursor : Int) = (s.cursor : Int) + 80 - (s.cursor : Int) % 80 ∧
        ∀ x, x ≠ (s1.cursor : Int) → s1.crt x = s.crt x) ∧
    (c = BACKSPACE →
      ∃ s1, cgaputc s c = some s1 ∧ (0 < s.cursor → s1.cursor = s.cursor - 1) ∧
        (s.cursor = 0 → s1.cursor = 0) ∧
        ∀ x, x ≠ (s1.cursor : Int) → s1.crt x = s.crt x) := by
  refine ⟨?_, ?_, ?_⟩
  · intro hc
    obtain ⟨s1, e1, _, _, _, _, _, a6, a7⟩ := step_plain s c hf hc (by omega)
    rw [if_neg (by omega)] at a6
    have h7 := a7 (by omega)
    refine ⟨s1, e1, by omega, ?_, ?_, ?_⟩
    · rw [h7, if_neg (by omega), if_pos rfl]
    · rw [h7, if_pos rfl]
    · intro x h1 h2
      rw [h7, if_neg h2, if_neg h1]
  · intro hc hrow
    obtain ⟨s1, e1, _, _, _, _, _, a6, a7⟩ := step_move s c (Or.inl hc) hf (by omega)
    rw [if_pos hc] at a7
    rw [a7, finish_noscroll s _ (by omega) (by omega)] at a6
    injection a6 with a6
    subst a6
    refine ⟨_, e1, ?_, ?_⟩
    · show ((((s.cursor : Int) + (80 - (s.cursor : Int) % 80)).toNat : Nat) : Int) = _
      omega
    · intro x hx
      have hx2 : x ≠ (s.cursor : Int) + (80 - (s.cursor : Int) % 80) := by
        intro h
        apply hx
        show x = ((((s.cursor : Int) + (80 - (s.cursor : Int) % 80)).toNat : Nat) : Int)
        omega
      show (if x = (s.cursor : Int) + (80 - (s.cursor : Int) % 80) then 1824 else s.crt x)
        = s.crt x
      rw [if_neg hx2]
  · intro hc
    have h10 : c ≠ 10 := by rw [hc]; decide
    obtain ⟨s1, e1, _, _, _, _, _, a6, a7⟩ := step_move s c (Or.inr hc) hf (by omega)
    rw [if_neg h10] at a7
    by_cases h0 : 0 < s.cursor
    · rw [if_pos h0] at a7
      rw [a7, finish_noscroll s _ (by omega) (by omega)] at a6
      injection a6 with a6
      subst a6
      refine ⟨_, e1, ?_, ?_, ?_⟩
      · intro _
        show ((s.cursor : Int) - 1).toNat = s.cursor - 1
        omega
      · intro h; omega
      · intro x hx
        have hx2 : x ≠ (s.cursor : Int) - 1 := by
          intro h
          apply hx
          show x = ((((s.cursor : Int) - 1).toNat : Nat) : Int)
          omega
        show (if x = (s.cursor : Int) - 1 then 1824 else s.crt x) = s.crt x
        rw [if_neg hx2]
    · rw [if_neg h0] at a7
      rw [a7, finish_noscroll s _ (by omega) (by omega)] at a6
      injection a6 with a6
      subst a6
      refine ⟨_, e1, ?_, ?_, ?_⟩
      · intro h; omega
      · intro _
        show ((s.cursor : Int)).toNat = 0
        omega
      · intro x hx
        have hx2 : x ≠ (s.cursor : Int) := by
          intro h
          apply hx
          show x = ((((s.cursor : Int)).toNat : Nat) : Int)
          omega
        show (if x = (s.cursor : Int) then 1824 else s.crt x) = s.crt x
        rw [if_neg hx2]

/-- C18, instance: the byte `a` plotted at boot with the cursor at cell 1000
is stored as `0x0761` and the cursor goes to 1001. -/
theorem plot_while_hidden_at_1000 :
    ∃ s1, cgaputc (boot_at 1000).cga 97 = some s1 ∧
      s1.cursor = (boot_at 1000).cga.cursor + 1 ∧
      s1.crt ((boot_at 1000).cga.cursor : Int)
        = (((97 : Int) % 256).toNat ||| (boot_at 1000).cga.color) % 65536 ∧
      s1.crt (((boot_at 1000).cga.cursor : Int) + 1) = 1824 ∧
      ∀ x, x ≠ ((boot_at 1000).cga.cursor : Int) → x ≠ ((boot_at 1000).cga.cursor : Int) + 1 →
        s1.crt x = (boot_at 1000).cga.crt x :=
  (plot_while_hidden (boot_at 1000).cga 97 (by decide) (by decide)).1
    ⟨by decide, by decide, by decide⟩

/-! ## A full buffer -/

/-- With `e - r = 128` the default case of `consoleintr` does nothing. -/
theorem byte_full_dropped (t : Console) (c : Int) (hfull : usub t.input.e t.input.r = 128)
    (hc : c ≠ CTRL_P ∧ c ≠ CTRL_U ∧ c ≠ CTRL_H ∧ c ≠ 127 ∧ c ≠ CTRL_C) :
    consoleintr_byte t c = some t := by
  obtain ⟨h1, h2, h3, h4, h5⟩ := hc
  unfold consoleintr_byte
  rw [if_neg h1, if_neg h2, if_neg (by tauto), if_neg h5, if_neg (by omega)]

/-- C19: in every state with `e - r = 128` a byte handled by the default case
of `consoleintr` (any byte but `^P`, `^U`, `^H`, `0x7f` and the hotkey; so
newline, carriage return and end of file) leaves the whole state unchanged:
indices, storage, screen and serial output (nothing is echoed) and wakeup
count.  And 128 ordinary bytes fed to an empty buffer are committed by
capacity; a newline, a carriage return or an end of file fed next is dropped;
a read of length 128 returns exactly the 128 bytes, with no newline after
them, and a longer read has copied exactly these 128 bytes when it goes to
sleep on the empty buffer. -/
theorem full_buffer_drops_completing_bytes (s : Console) (bs : List Int) (n : Int)
    (killed : Bool)
    (hr : s.input.r = s.input.e) (he : s.input.e < 4294967296) (hcur : s.cga.cursor < 2000)
    (hb : ∀ b ∈ bs, ordinary b) (hlen : bs.length = 128) (hn : 128 < n) :
    (∀ (t : Console) (c : Int), usub t.input.e t.input.r = 128 →
      c ≠ CTRL_P ∧ c ≠ CTRL_U ∧ c ≠ CTRL_H ∧ c ≠ 127 ∧ c ≠ CTRL_C →
      consoleintr_byte t c = some t) ∧
    ∃ s1 s2, feed s bs = some s1 ∧ usub s1.input.e s1.input.r = 128 ∧
      s1.input.w = s1.input.e ∧
      feed s1 [10] = some s1 ∧ feed s1 [13] = some s1 ∧ feed s1 [4] = some s1 ∧
      consoleread s1 128 killed = ReadResult.returned s2 bs 128 ∧
      s2.input.r = s2.input.w ∧
      consoleread s1 n false = ReadResult.sleeping s2 bs (n.toNat - 128) := by
  refine ⟨byte_full_dropped, ?_⟩
  obtain ⟨s1, e1, h1r, h1w, h1e, h1b, _, _⟩ := feed_fill s bs hr he hcur hb hlen
  have hfull : usub s1.input.e s1.input.r = 128 := by
    rw [h1e, h1r]; unfold usub; omega
  have hdrop : ∀ c : Int, c = 10 ∨ c = 13 ∨ c = 4 → feed s1 [c] = some s1 := by
    intro c hc
    simp only [feed]
    rw [byte_full_dropped s1 c hfull
      (by simp only [CTRL_P, CTRL_U, CTRL_H, CTRL_C]; omega)]
  have hbuf : ∀ j, j < bs.length →
      s1.input.buf ((s1.input.r + j) % 4294967296 % 128) = bs.getD j 0 := by
    intro j hj
    rw [h1r]
    exact h1b j (by omega)
  have hplain := ordinary_plain bs hb
  have hwr : bs.length = usub s1.input.w s1.input.r := by
    rw [h1w, h1r, hlen]; unfold usub; omega
  have hexact := read_run_exact killed bs s1 (by rw [h1r]; exact he) (by rw [h1w]; omega)
    hbuf hplain (by omega)
  obtain ⟨m, hm⟩ : ∃ m : Nat, n.toNat = 128 + (m + 1) :=
    ⟨n.toNat - 129, by omega⟩
  have hlong := read_run_then_empty false n.toNat m bs s1 (by rw [h1r]; exact he)
    (by rw [h1w]; omega) hbuf hplain hwr
  rw [hlen] at hexact hlong
  have hm2 : n.toNat - 128 = m + 1 := by omega
  refine ⟨s1,
    { s1 with input := { s1.input with r := (s1.input.r + 128) % 4294967296 } },
    e1, hfull, by rw [h1w, h1e], hdrop 10 (Or.inl rfl),
    hdrop 13 (Or.inr (Or.inl rfl)), hdrop 4 (Or.inr (Or.inr rfl)), hexact, hlong.2, ?_⟩
  unfold consoleread
  have hstep : consoleread_loop false n.toNat n.toNat s1 []
      = consoleread_loop false n.toNat (128 + (m + 1)) s1 [] :=
    congrArg (fun k => consoleread_loop false n.toNat k s1 []) hm
  rw [hm2, hstep, hlong.1]
  rfl

/-- C19, instance: 128 bytes `a` typed at boot, then a read of length 200. -/
theorem full_buffer_of_a :
    ∃ s1 s2, feed (boot_at 1000) (List.replicate 128 97) = some s1 ∧
      usub s1.input.e s1.input.r = 128 ∧ s1.input.w = s1.input.e ∧
      feed s1 [10] = some s1 ∧ feed s1 [13] = some s1 ∧ feed s1 [4] = some s1 ∧
      consoleread s1 128 false = ReadResult.returned s2 (List.replicate 128 97) 128 ∧
      s2.input.r = s2.input.w ∧
      consoleread s1 200 false
        = ReadResult.sleeping s2 (List.replicate 128 97) ((200 : Int).toNat - 128) :=
  (full_buffer_drops_completing_bytes (boot_at 1000) (List.replicate 128 97) 200 false
    rfl (by decide) (by decide) (replicate_ordinary 128) (List.length_replicate 128 97)
    (by decide)).2

/-! ## The line buffer and the overlay -/

/-- Plots of values other than the hotkey keep `flag`. -/
theorem cgaputs_flag (cs : List Int) :
    ∀ s s1 : Cga, (∀ c ∈ cs, c ≠ CTRL_C) → cgaputs s cs = some s1 → s1.flag = s.flag := by
  induction cs with
  | nil =>
    intro s s1 _ h
    simp only [cgaputs, Option.some.injEq] at h
    rw [← h]
  | cons c cs ih =>
    intro s s1 hc h
    simp only [cgaputs] at h
    cases hb : cgaputc s c with
    | none => rw [hb] at h; simp at h
    | some s2 =>
      rw [hb] at h
      simp only at h
      rw [ih s2 s1 (fun x hx => hc x (List.mem_cons_of_mem _ hx)) h,
        (step_selected s s2 c hb).2 (hc c (List.mem_cons_self _ _))]

/-- C20: two states that agree on the input buffer, with their cursors on the
screen so that the echo does not panic, have the same input buffer after
`consoleintr` has handled the byte `c`: it is `input_byte` of the common
buffer, whatever the overlay, the cells, the cursor and the colour are.  With
the overlay shown and the buffer empty, ordinary bytes (`w` and `s` among
them) followed by a newline are stored and a read of sufficient length
returns them, the overlay still being shown.  The hotkey leaves the buffer
as it is. -/
theorem line_buffer_independent_of_overlay (s t : Console) (bs : List Int) (n : Int)
    (killed : Bool) (hin : s.input = t.input)
    (hs : s.cga.cursor < 2000) (ht : t.cga.cursor < 2000) :
    (∀ c, ∃ s1 t1, consoleintr_byte s c = some s1 ∧ consoleintr_byte t c = some t1 ∧
      s1.input = t1.input ∧ s1.input = input_byte s.input c) ∧
    (s.cga.flag = 0 → s.input.r = s.input.w → s.input.w = s.input.e →
      s.input.e < 4294967296 → (∀ b ∈ bs, ordinary b) → bs.length ≤ 127 →
      (bs.length : Int) + 1 ≤ n →
      ∃ s1 s2, feed s (bs ++ [10]) = some s1 ∧ s1.cga.flag = 0 ∧
        consoleread s1 n killed
          = ReadResult.returned s2 (bs ++ [10]) ((bs.length : Int) + 1)) ∧
    (∃ s1, consoleintr_byte s CTRL_C = some s1 ∧ s1.input = s.input) := by
  refine ⟨?_, ?_, ?_⟩
  · intro c
    obtain ⟨s1, e1, i1, _⟩ := byte_some c s hs
    obtain ⟨t1, e2, i2, _⟩ := byte_some c t ht
    exact ⟨s1, t1, e1, e2, by rw [i1, i2, hin], i1⟩
  · intro hf hr hw he hb hlen hn
    have hst : ∀ x ∈ bs, stored x := fun x hx => ordinary_stored x (hb x hx)
    obtain ⟨s1, e1, h1r, h1w, _, h1b, _⟩ := feed_line s bs hr hw he hs hst (by omega)
    have hu : usub s.input.e s.input.r = 0 := by rw [hr, hw]; unfold usub; omega
    have hst2 : ∀ x ∈ bs ++ [10], stored x := by
      intro x hx
      rcases List.mem_append.mp hx with h | h
      · exact hst x h
      · rw [List.mem_singleton.mp h]; exact stored_newline
    obtain ⟨_, _, _, _, hecho⟩ := input_feed_stored (bs ++ [10]) s.input hst2 he
      (by rw [hu, List.length_append, List.length_singleton]; omega)
    have hflag : s1.cga.flag = 0 := by
      have hfe := feed_eq (bs ++ [10]) s
      rw [e1, hecho] at hfe
      cases hg : cgaputs s.cga (bs ++ [10]) with
      | none => rw [hg] at hfe; simp at hfe
      | some g =>
        rw [hg] at hfe
        simp only [Option.map_some', Option.some.injEq] at hfe
        have h3 : ∀ c ∈ bs ++ [10], c ≠ CTRL_C := by
          intro c hc
          obtain ⟨_, _, h3, _⟩ := hst2 c hc
          exact h3
        rw [hfe, ← hf]
        exact cgaputs_flag (bs ++ [10]) s.cga g h3 hg
    have hread := read_to_newline killed n.toNat n.toNat bs s1
      (by rw [h1r]; exact he) (by rw [h1w]; omega)
      (by
        intro j hj
        rw [h1r, h1b j (by omega), List.getD_append _ _ _ _ hj])
      (by
        rw [h1r, h1b bs.length (by omega), List.getD_append_right _ _ _ _ (le_refl _)]
        simp)
      (ordinary_plain bs hb)
      (by rw [h1w, h1r]; unfold usub; omega)
      (by omega)
    have hret : ((n.toNat : Int) - ((n.toNat - (bs.length + 1) : Nat) : Int))
        = (bs.length : Int) + 1 := by omega
    rw [hret] at hread
    exact ⟨s1, _, e1, hflag, hread⟩
  · obtain ⟨s1, e1, i1, _⟩ := byte_some CTRL_C s hs
    refine ⟨s1, e1, ?_⟩
    rw [i1]
    unfold input_byte
    simp [CTRL_C, CTRL_P, CTRL_U, CTRL_H]

/-- C20, instance: the boot state with the overlay hidden and the state with
the overlay shown and the cursor elsewhere; the bytes `w`, `s`, `a` and a
newline typed while the overlay is shown are read back. -/
theorem line_buffer_independent_at_boot :
    (∀ c, ∃ s1 t1,
      consoleintr_byte { boot_at 1000 with cga := shown_at_1000 } c = some s1 ∧
      consoleintr_byte (boot_at 500) c = some t1 ∧
      s1.input = t1.input ∧
      s1.input = input_byte ({ boot_at 1000 with cga := shown_at_1000 } : Console).input c) ∧
    (∃ s1 s2, feed { boot_at 1000 with cga := shown_at_1000 } ([119, 115, 97] ++ [10])
        = some s1 ∧ s1.cga.flag = 0 ∧
      consoleread s1 4 false
        = ReadResult.returned s2 ([119, 115, 97] ++ [10])
            ((([119, 115, 97] : List Int).length : Int) + 1)) :=
  ⟨(line_buffer_independent_of_overlay { boot_at 1000 with cga := shown_at_1000 }
      (boot_at 500) [119, 115, 97] 4 false rfl (by decide) (by decide)).1,
   (line_buffer_independent_of_overlay { boot_at 1000 with cga := shown_at_1000 }
      (boot_at 500) [119, 115, 97] 4 false rfl (by decide) (by decide)).2.1
      rfl rfl rfl (by decide) (by decide) (by decide) (by decide)⟩


end Xv6Console
